import Mathlib

/-!
Verification development for the cubepp project-setup tool
(`src/cubepp/main.py`).

The tool is a text-patching engine over CMake build trees.  We embed its
text-level operations as functions on `List Char` (Python strings) and its
filesystem-level operations as functions on an explicit filesystem model.
Regex operations from the source are embedded by specialised scanners that
implement the leftmost-match semantics of Python's `re` module for the
concrete patterns appearing in the source.
-/

namespace Cubepp

/-- Python's `\s` character class restricted to ASCII (space, tab, newline,
carriage return, vertical tab, form feed), as used by `re` on the ASCII
content this tool manipulates. -/
def isPySpace (c : Char) : Bool :=
  c == ' ' || c == '\t' || c == '\n' || c == '\r' || c == '\x0b' || c == '\x0c'

/-- `stripPre p s` removes the prefix `p` from `s`, if `s` starts with `p`. -/
def stripPre : List Char → List Char → Option (List Char)
  | [], s => some s
  | _ :: _, [] => none
  | p :: ps, c :: cs => if p = c then stripPre ps cs else none

theorem stripPre_eq_some {p s r : List Char} :
    stripPre p s = some r ↔ s = p ++ r := by
  induction p generalizing s with
  | nil => simp [stripPre]
  | cons a ps ih =>
    cases s with
    | nil => simp [stripPre]
    | cons c cs =>
      simp only [stripPre, List.cons_append]
      by_cases h : a = c
      · subst h
        simp [ih]
      · simp only [if_neg h]
        constructor
        · intro h'
          exact absurd h' (by simp)
        · intro h'
          injection h' with h1 h2
          exact absurd h1.symm h

theorem stripPre_append (p r : List Char) : stripPre p (p ++ r) = some r :=
  stripPre_eq_some.mpr rfl

theorem stripPre_self (p : List Char) : stripPre p p = some [] := by
  simpa using stripPre_append p []

/-- `splitFirst pat s` splits `s` around the first occurrence of `pat`:
`splitFirst pat s = some (a, b)` means `s = a ++ pat ++ b` and this is the
leftmost occurrence.  This is Python's `s.split(pat, 1)` (for nonempty
`pat`) and also underlies all `pat in s` tests. -/
def splitFirst (pat : List Char) : List Char → Option (List Char × List Char)
  | [] => match stripPre pat [] with
          | some r => some ([], r)
          | none => none
  | c :: cs => match stripPre pat (c :: cs) with
          | some r => some ([], r)
          | none => (splitFirst pat cs).map (fun pr => (c :: pr.1, pr.2))

/-- Membership test `pat in s` of Python (for nonempty `pat`). -/
def containsSub (pat s : List Char) : Bool :=
  (splitFirst pat s).isSome

theorem splitFirst_of_stripPre {pat s r : List Char}
    (hp : stripPre pat s = some r) : splitFirst pat s = some ([], r) := by
  cases s with
  | nil => unfold splitFirst; rw [hp]
  | cons c cs => unfold splitFirst; rw [hp]

theorem splitFirst_none_cons {pat : List Char} {c : Char} {cs : List Char}
    (hp : stripPre pat (c :: cs) = none) :
    splitFirst pat (c :: cs)
      = (splitFirst pat cs).map (fun pr => (c :: pr.1, pr.2)) := by
  conv_lhs => unfold splitFirst
  rw [hp]

theorem splitFirst_eq_some {pat s a b : List Char}
    (h : splitFirst pat s = some (a, b)) : s = a ++ pat ++ b := by
  induction s generalizing a b with
  | nil =>
    unfold splitFirst at h
    cases hp : stripPre pat ([] : List Char) with
    | none => rw [hp] at h; exact absurd h (by simp)
    | some r =>
      rw [hp] at h
      simp only [Option.some.injEq, Prod.mk.injEq] at h
      obtain ⟨ha, hb⟩ := h
      have h2 := stripPre_eq_some.mp hp
      subst ha hb
      simpa using h2
  | cons c cs ih =>
    unfold splitFirst at h
    cases hp : stripPre pat (c :: cs) with
    | some r =>
      rw [hp] at h
      simp only [Option.some.injEq, Prod.mk.injEq] at h
      obtain ⟨ha, hb⟩ := h
      have h2 := stripPre_eq_some.mp hp
      subst ha hb
      simpa using h2
    | none =>
      rw [hp] at h
      simp only [Option.map_eq_some'] at h
      obtain ⟨⟨a₁, b₁⟩, hab, heq⟩ := h
      simp only [Prod.mk.injEq] at heq
      obtain ⟨ha, hb⟩ := heq
      subst ha hb
      simp [ih hab]

/-- If `pat` occurs in `s`, `splitFirst` finds an occurrence. -/
theorem splitFirst_isSome_of_decomp {pat a b : List Char} :
    (splitFirst pat (a ++ pat ++ b)).isSome := by
  induction a with
  | nil =>
    have h : ([] : List Char) ++ pat ++ b = pat ++ b := by simp
    rw [h, splitFirst_of_stripPre (stripPre_append pat b)]
    rfl
  | cons c cs ih =>
    have h1 : ((c :: cs) ++ pat ++ b) = c :: (cs ++ pat ++ b) := by simp
    rw [h1]
    cases hp : stripPre pat (c :: (cs ++ pat ++ b)) with
    | some r =>
      rw [splitFirst_of_stripPre hp]
      rfl
    | none =>
      rw [splitFirst_none_cons hp]
      obtain ⟨pr, hpr⟩ := Option.isSome_iff_exists.mp ih
      rw [hpr]
      rfl

theorem containsSub_of_decomp {pat a b : List Char} :
    containsSub pat (a ++ pat ++ b) = true := by
  unfold containsSub
  exact splitFirst_isSome_of_decomp

theorem containsSub_iff_occ {pat s : List Char} :
    containsSub pat s = true ↔ pat <:+: s := by
  constructor
  · intro h
    unfold containsSub at h
    obtain ⟨⟨a, b⟩, hab⟩ := Option.isSome_iff_exists.mp h
    exact ⟨a, b, (splitFirst_eq_some hab).symm⟩
  · rintro ⟨a, b, hab⟩
    subst hab
    exact containsSub_of_decomp

theorem containsSub_eq_false_iff {pat s : List Char} :
    containsSub pat s = false ↔ ¬ pat <:+: s := by
  rw [← containsSub_iff_occ]
  cases containsSub pat s <;> simp

/-- Minimality: `splitFirst` returns the leftmost occurrence. -/
theorem splitFirst_min {pat s a b : List Char}
    (h : splitFirst pat s = some (a, b)) :
    ∀ a' b', s = a' ++ pat ++ b' → a.length ≤ a'.length := by
  induction s generalizing a b with
  | nil =>
    intro a' b' hs
    unfold splitFirst at h
    cases hp : stripPre pat ([] : List Char) with
    | none => rw [hp] at h; exact absurd h (by simp)
    | some r =>
      rw [hp] at h
      simp only [Option.some.injEq, Prod.mk.injEq] at h
      simp [← h.1]
  | cons c cs ih =>
    intro a' b' hs
    unfold splitFirst at h
    cases hp : stripPre pat (c :: cs) with
    | some r =>
      rw [hp] at h
      simp only [Option.some.injEq, Prod.mk.injEq] at h
      simp [← h.1]
    | none =>
      rw [hp] at h
      simp only [Option.map_eq_some'] at h
      obtain ⟨⟨a₁, b₁⟩, hab, heq⟩ := h
      simp only [Prod.mk.injEq] at heq
      cases a' with
      | nil =>
        exfalso
        have hsp : stripPre pat (c :: cs) = some b' :=
          stripPre_eq_some.mpr (by simpa using hs)
        rw [hsp] at hp
        exact absurd hp (by simp)
      | cons c' cs' =>
        have hs' : cs = cs' ++ pat ++ b' := by
          have h0 : c :: cs = c' :: (cs' ++ pat ++ b') := by simpa using hs
          exact (List.cons.inj h0).2
        have hle := ih hab cs' b' hs'
        have ha : a = c :: a₁ := heq.1.symm
        subst ha
        exact Nat.add_le_add_right hle 1

end Cubepp

namespace Cubepp

/-! ### Splice lemmas for `splitFirst` -/

theorem splitFirst_eq_of_first {pat s a b : List Char}
    (hs : s = a ++ pat ++ b)
    (hmin : ∀ a' b', s = a' ++ pat ++ b' → a.length ≤ a'.length) :
    splitFirst pat s = some (a, b) := by
  have hsome : (splitFirst pat s).isSome := by
    rw [hs]; exact splitFirst_isSome_of_decomp
  obtain ⟨⟨a₀, b₀⟩, h0⟩ := Option.isSome_iff_exists.mp hsome
  have hd0 := splitFirst_eq_some h0
  have hle1 := splitFirst_min h0 a b hs
  have hle2 := hmin a₀ b₀ hd0
  have hlen : a₀.length = a.length := Nat.le_antisymm hle1 hle2
  have ha : a₀ = a := by
    have t1 : s.take a₀.length = a₀ := by
      rw [hd0, List.append_assoc]; exact List.take_left _ _
    have t2 : s.take a.length = a := by
      rw [hs, List.append_assoc]; exact List.take_left _ _
    rw [hlen] at t1
    exact t1.symm.trans t2
  subst ha
  have hb : b₀ = b := by
    have := hd0.symm.trans hs
    simpa using this
  subst hb
  exact h0

/-! ### Marker Injector (`_inject_to_source_files`, source lines 445-501)

An injection record from the `source_file_injections` configuration.  The
`check` field is `none` when the key is absent. -/

structure Injection where
  file : List String
  marker : List Char
  content : List Char
  check : Option (List Char)
deriving DecidableEq

/-- Fuel-indexed scanner behind `replaceAll`; the fuel only serves
termination and is always instantiated with the length of the string,
which suffices (each step consumes at least one character). -/
def replaceAllFuel (pat rep : List Char) : Nat → List Char → List Char
  | 0, s => s
  | fuel + 1, s =>
    match stripPre pat s with
    | some r => rep ++ replaceAllFuel pat rep fuel r
    | none => match s with
      | [] => []
      | c :: cs => c :: replaceAllFuel pat rep fuel cs

/-- Python `str.replace`: replace every (non-overlapping, leftmost-first)
occurrence of `pat` by `rep`.  (The tool never calls it with an empty
pattern; we return `s` unchanged in that unused case.) -/
def replaceAll (pat rep s : List Char) : List Char :=
  if pat = [] then s else replaceAllFuel pat rep s.length s

def projectNameTemplate : List Char := "{project_name}".toList

/-- Rendering of an injection's content (source lines 487-491): `format` is
applied only when the template mentions `{project_name}`, and then replaces
every occurrence of it.  (The configured templates contain no other format
fields, so Python `str.format` coincides with literal replacement.) -/
def renderContent (projectName tpl : List Char) : List Char :=
  if containsSub projectNameTemplate tpl then
    replaceAll projectNameTemplate projectName tpl
  else tpl

/-- The guard `not check or check not in new_src` is false (i.e. the check
*blocks* the injection) iff a truthy check string is present in the text. -/
def checkBlocks : Option (List Char) → List Char → Bool
  | none, _ => false
  | some c, text => if c = [] then false else containsSub c text

/-- One iteration of the injection loop of `_inject_to_source_files`
(source lines 479-497), acting on the in-memory buffer:
skip on missing/empty marker or content; if the marker occurs and the check
does not block, split at the *first* occurrence of the marker and splice
`"\n" ++ content ++ "\n"` right after the marker. -/
def injectStep (pn text : List Char) (inj : Injection) : List Char :=
  if inj.marker = [] ∨ inj.content = [] then text
  else if containsSub inj.marker text = true ∧ checkBlocks inj.check text = false then
    match splitFirst inj.marker text with
    | some (pre, post) =>
        pre ++ inj.marker ++ '\n' :: (renderContent pn inj.content ++ '\n' :: post)
    | none => text
  else text

/-- The whole per-file injection loop over the grouped injection list. -/
def injectList (pn : List Char) (injs : List Injection) (text : List Char) : List Char :=
  injs.foldl (injectStep pn) text

theorem injectStep_eq_of_marker_absent {pn text : List Char} {inj : Injection}
    (h : ¬ inj.marker <:+: text) : injectStep pn text inj = text := by
  unfold injectStep
  by_cases h0 : inj.marker = [] ∨ inj.content = []
  · rw [if_pos h0]
  · rw [if_neg h0, if_neg]
    intro hcond
    exact h (containsSub_iff_occ.mp hcond.1)

theorem injectStep_eq_of_check_present {pn text : List Char} {inj : Injection}
    {c : List Char} (hc : inj.check = some c) (hne : c ≠ []) (hin : c <:+: text) :
    injectStep pn text inj = text := by
  unfold injectStep
  by_cases h0 : inj.marker = [] ∨ inj.content = []
  · rw [if_pos h0]
  · rw [if_neg h0, if_neg]
    intro hcond
    have : checkBlocks inj.check text = true := by
      rw [hc]
      simp only [checkBlocks, if_neg hne]
      exact containsSub_iff_occ.mpr hin
    rw [hcond.2] at this
    exact absurd this (by simp)

end Cubepp

namespace Cubepp

/-- C7: for every injection, the Marker Injector is a no-op on the file
buffer when the marker does not occur in the text, and likewise when the
(given, nonempty) check string already occurs anywhere in the text; in both
cases the loop continues with the remaining injections, whose effect is
unchanged. -/
theorem marker_injector_noop (pn text : List Char) (inj : Injection)
    (rest : List Injection)
    (h : ¬ inj.marker <:+: text
        ∨ ∃ c, inj.check = some c ∧ c ≠ [] ∧ c <:+: text) :
    injectStep pn text inj = text ∧
    injectList pn (inj :: rest) text = injectList pn rest text := by
  have hstep : injectStep pn text inj = text := by
    rcases h with h | ⟨c, hc, hne, hin⟩
    · exact injectStep_eq_of_marker_absent h
    · exact injectStep_eq_of_check_present hc hne hin
  refine ⟨hstep, ?_⟩
  unfold injectList
  rw [List.foldl_cons, hstep]

theorem marker_injector_noop_witness :
    (¬ ("/* M */".toList <:+: "int main;\n".toList)
        ∨ ∃ c, (some "Setup();".toList : Option (List Char)) = some c
            ∧ c ≠ [] ∧ c <:+: "int main;\n".toList) ∧
    injectStep "p".toList "int main;\n".toList
        ⟨["f"], "/* M */".toList, "X();".toList, some "Setup();".toList⟩
      = "int main;\n".toList :=
  ⟨Or.inl (by decide),
    (marker_injector_noop "p".toList "int main;\n".toList
      ⟨["f"], "/* M */".toList, "X();".toList, some "Setup();".toList⟩ []
      (Or.inl (by decide))).1⟩

/-- C8 counterexample: on a file where text follows the marker on the same
line, the fired injection does not preserve the marker line: the tool
splices immediately after the marker *string*, displacing the trailing text
of that line below the inserted content, so the original marker line no
longer occurs in the output. -/
theorem marker_splice_line_counterexample :
    injectStep "p".toList "A /* M */ tail\nB".toList
        ⟨["f"], "/* M */".toList, "C".toList, none⟩
      = "A /* M */\nC\n tail\nB".toList ∧
    ¬ ("A /* M */ tail".toList <:+:
        injectStep "p".toList "A /* M */ tail\nB".toList
          ⟨["f"], "/* M */".toList, "C".toList, none⟩) := by
  constructor
  · decide
  · decide

/-- C8 (amended): when an injection fires (marker present, check not
blocking), the content — wrapped in newlines — is spliced immediately after
the first occurrence of the marker *string* itself.  The marker line is
preserved exactly when the marker ends its line; text following the marker
on the same line is displaced to after the inserted content. -/
theorem marker_splice_after_marker (pn text pre post : List Char)
    (inj : Injection)
    (hm : inj.marker ≠ []) (hc : inj.content ≠ [])
    (hsplit : splitFirst inj.marker text = some (pre, post))
    (hcheck : checkBlocks inj.check text = false) :
    injectStep pn text inj
      = pre ++ inj.marker ++ '\n' :: (renderContent pn inj.content ++ '\n' :: post) := by
  unfold injectStep
  have h0 : ¬ (inj.marker = [] ∨ inj.content = []) := by
    intro h
    rcases h with h | h
    · exact hm h
    · exact hc h
  rw [if_neg h0]
  have h1 : containsSub inj.marker text = true := by
    unfold containsSub
    rw [hsplit]
    rfl
  rw [if_pos ⟨h1, hcheck⟩, hsplit]

theorem marker_splice_after_marker_witness :
    ("/* M */".toList ≠ ([] : List Char)) ∧
    injectStep "p".toList "X\n/* M */\nY".toList
        ⟨["f"], "/* M */".toList, "C();".toList, none⟩
      = "X\n".toList ++ "/* M */".toList
          ++ '\n' :: (renderContent "p".toList "C();".toList ++ '\n' :: "\nY".toList) :=
  ⟨by decide,
    marker_splice_after_marker "p".toList "X\n/* M */\nY".toList
      "X\n".toList "\nY".toList
      ⟨["f"], "/* M */".toList, "C();".toList, none⟩
      (by decide) (by decide) (by decide) (by decide)⟩

end Cubepp

namespace Cubepp

/-! ### Filesystem model

Paths are component lists relative to the destination root (`Path.cwd()` in
the source); the root itself is `[]`.  A file's payload is either decodable
text or undecodable binary content (reads of the latter raise, which the
tool catches).  Directories are tracked explicitly so that `exists()`,
`is_dir()`, `rmdir()` and the rename step can be modelled. -/

inductive FileData where
  | text (s : List Char)
  | binary
deriving DecidableEq

def lookupEntries : List (List String × FileData) → List String → Option FileData
  | [], _ => none
  | e :: es, p => if e.1 = p then some e.2 else lookupEntries es p

def setEntries : List (List String × FileData) → List String → FileData →
    List (List String × FileData)
  | [], p, d => [(p, d)]
  | e :: es, p, d => if e.1 = p then (p, d) :: es else e :: setEntries es p d

theorem lookupEntries_setEntries_self (es : List (List String × FileData))
    (p : List String) (d : FileData) :
    lookupEntries (setEntries es p d) p = some d := by
  induction es with
  | nil => simp [setEntries, lookupEntries]
  | cons e es ih =>
    by_cases h : e.1 = p
    · simp [setEntries, h, lookupEntries]
    · simp [setEntries, h, lookupEntries, ih]

theorem lookupEntries_setEntries_ne (es : List (List String × FileData))
    {p q : List String} (d : FileData) (h : p ≠ q) :
    lookupEntries (setEntries es q d) p = lookupEntries es p := by
  have hqp : ¬ q = p := fun hq => h hq.symm
  induction es with
  | nil => simp [setEntries, lookupEntries, hqp]
  | cons e es ih =>
    by_cases he : e.1 = q
    · simp [setEntries, he, lookupEntries, hqp]
    · simp [setEntries, he, lookupEntries, ih]

structure FS where
  files : List (List String × FileData)
  dirs : List (List String)
deriving DecidableEq

def FS.lookupFile (fs : FS) (p : List String) : Option FileData :=
  lookupEntries fs.files p

def FS.fileExists (fs : FS) (p : List String) : Bool :=
  (fs.lookupFile p).isSome

def FS.dirExists (fs : FS) (p : List String) : Bool :=
  decide (p ∈ fs.dirs)

/-- Python `Path.exists()`: true for files and directories alike. -/
def FS.pathExists (fs : FS) (p : List String) : Bool :=
  fs.fileExists p || fs.dirExists p

def FS.writeFile (fs : FS) (p : List String) (d : FileData) : FS :=
  { fs with files := setEntries fs.files p d }

theorem FS.lookupFile_writeFile_self (fs : FS) (p : List String) (d : FileData) :
    (fs.writeFile p d).lookupFile p = some d :=
  lookupEntries_setEntries_self fs.files p d

theorem FS.lookupFile_writeFile_ne (fs : FS) {p q : List String} (d : FileData)
    (h : p ≠ q) : (fs.writeFile q d).lookupFile p = fs.lookupFile p :=
  lookupEntries_setEntries_ne fs.files d h

def addDirUniq (ds : List (List String)) (d : List String) : List (List String) :=
  if d ∈ ds then ds else ds ++ [d]

/-- The (nonempty, proper) ancestor directories of a file path, i.e. the
directories `mkdir(parents=True, exist_ok=True)` on its parent creates. -/
def properAncestors (p : List String) : List (List String) :=
  (List.range p.dropLast.length).map (fun n => p.dropLast.take (n + 1))

def FS.mkdirParents (fs : FS) (p : List String) : FS :=
  { fs with dirs := (properAncestors p).foldl addDirUniq fs.dirs }

theorem FS.lookupFile_mkdirParents (fs : FS) (p q : List String) :
    (fs.mkdirParents q).lookupFile p = fs.lookupFile p := rfl

/-! ### Resource overlay copy (`_copy_tree`, source lines 503-522)

`srcTree` is the list of files (root-relative path, payload) found under the
resolved resource directory by `src.rglob("*")` (directories are skipped by
the source loop).  A destination path that already exists — as a file or as
a directory — is skipped; otherwise parent directories are created and the
file is copied, and the destination path is recorded. -/

def copyTreeAux : List (List String × FileData) → FS × List (List String) →
    FS × List (List String)
  | [], st => st
  | e :: es, st =>
    if st.1.pathExists e.1 then copyTreeAux es st
    else copyTreeAux es ((st.1.mkdirParents e.1).writeFile e.1 e.2, st.2 ++ [e.1])

def copyTree (srcTree : List (List String × FileData)) (fs : FS) :
    FS × List (List String) :=
  copyTreeAux srcTree (fs, [])

theorem copyTreeAux_lookup_of_isSome :
    ∀ (es : List (List String × FileData)) (st : FS × List (List String))
      (p : List String), (st.1.lookupFile p).isSome →
      (copyTreeAux es st).1.lookupFile p = st.1.lookupFile p := by
  intro es
  induction es with
  | nil => intro st p _; rfl
  | cons e es ih =>
    intro st p hp
    unfold copyTreeAux
    by_cases hex : st.1.pathExists e.1
    · rw [if_pos hex]
      exact ih st p hp
    · rw [if_neg hex]
      have hne : p ≠ e.1 := by
        intro h
        apply hex
        have hfe : st.1.fileExists e.1 = true := by
          rw [FS.fileExists, ← h]
          exact hp
        simp [FS.pathExists, hfe]
      have hpre : ((st.1.mkdirParents e.1).writeFile e.1 e.2).lookupFile p
          = st.1.lookupFile p := by
        rw [FS.lookupFile_writeFile_ne _ _ hne, FS.lookupFile_mkdirParents]
      rw [ih _ p (by rw [hpre]; exact hp), hpre]

theorem copyTreeAux_mem_manifest :
    ∀ (es : List (List String × FileData)) (st : FS × List (List String))
      (q : List String), q ∈ (copyTreeAux es st).2 →
      q ∈ st.2 ∨ (st.1.lookupFile q = none ∧
        ((copyTreeAux es st).1.lookupFile q).isSome) := by
  intro es
  induction es with
  | nil => intro st q hq; exact Or.inl hq
  | cons e es ih =>
    intro st q hq
    unfold copyTreeAux at hq ⊢
    by_cases hex : st.1.pathExists e.1
    · rw [if_pos hex] at hq ⊢
      exact ih st q hq
    · rw [if_neg hex] at hq ⊢
      have hnone : st.1.lookupFile e.1 = none := by
        cases hlk : st.1.lookupFile e.1 with
        | none => rfl
        | some d =>
          exfalso
          apply hex
          have hfe : st.1.fileExists e.1 = true := by simp [FS.fileExists, hlk]
          simp [FS.pathExists, hfe]
      rcases ih _ q hq with hmem | ⟨hn, hs⟩
      · rcases List.mem_append.mp hmem with hmem | hmem
        · exact Or.inl hmem
        · have hq1 : q = e.1 := by simpa using hmem
          refine Or.inr ⟨hq1 ▸ hnone, ?_⟩
          have hself : ((st.1.mkdirParents e.1).writeFile e.1 e.2).lookupFile q
              = some e.2 := by
            rw [hq1]
            exact FS.lookupFile_writeFile_self _ e.1 e.2
          rw [copyTreeAux_lookup_of_isSome es _ q (by rw [hself]; rfl), hself]
          rfl
      · by_cases hq1 : q = e.1
        · have hself : ((st.1.mkdirParents e.1).writeFile e.1 e.2).lookupFile q
              = some e.2 := by
            rw [hq1]
            exact FS.lookupFile_writeFile_self _ e.1 e.2
          rw [hself] at hn
          exact absurd hn (by simp)
        · have hpre : ((st.1.mkdirParents e.1).writeFile e.1 e.2).lookupFile q
              = st.1.lookupFile q := by
            rw [FS.lookupFile_writeFile_ne _ _ hq1, FS.lookupFile_mkdirParents]
          rw [hpre] at hn
          exact Or.inr ⟨hn, hs⟩

/-- C2: for every destination file that exists before the overlay copy, the
copy leaves its content unchanged whatever the resource tree contains, and
every path recorded in the returned manifest was actually written: it was
absent before the copy and holds a file afterwards. -/
theorem copy_tree_frame (srcTree : List (List String × FileData)) (fs : FS) :
    (∀ p, (fs.lookupFile p).isSome →
        (copyTree srcTree fs).1.lookupFile p = fs.lookupFile p) ∧
    (∀ q, q ∈ (copyTree srcTree fs).2 →
        fs.lookupFile q = none ∧ ((copyTree srcTree fs).1.lookupFile q).isSome) := by
  constructor
  · intro p hp
    exact copyTreeAux_lookup_of_isSome srcTree (fs, []) p hp
  · intro q hq
    rcases copyTreeAux_mem_manifest srcTree (fs, []) q hq with hmem | h
    · exact absurd hmem (by simp)
    · exact h

theorem copy_tree_frame_witness :
    (((FS.mk [(["CMakeLists.txt"], FileData.text "x".toList)] []).lookupFile
        ["CMakeLists.txt"]).isSome) ∧
    ((copyTree [(["CMakeLists.txt"], FileData.text "y".toList),
                (["inc", "a.h"], FileData.text "z".toList)]
        (FS.mk [(["CMakeLists.txt"], FileData.text "x".toList)] [])).1.lookupFile
        ["CMakeLists.txt"]
      = (FS.mk [(["CMakeLists.txt"], FileData.text "x".toList)] []).lookupFile
        ["CMakeLists.txt"]) :=
  ⟨by decide,
    (copy_tree_frame [(["CMakeLists.txt"], FileData.text "y".toList),
        (["inc", "a.h"], FileData.text "z".toList)]
      (FS.mk [(["CMakeLists.txt"], FileData.text "x".toList)] [])).1
      ["CMakeLists.txt"] (by decide)⟩

end Cubepp

namespace Cubepp

/-! ### Placeholder substitution (`post_process_projectname` step 2,
source lines 420-440)

For every manifest path: skip when it is not (any longer) a regular file;
skip when its content is undecodable (the `read_text` failure is caught);
otherwise replace each placeholder that occurs and write the file back. -/

def placeholderPass (phs : List (List Char × List Char)) (t : List Char) : List Char :=
  phs.foldl (fun acc pr => if containsSub pr.1 acc then replaceAll pr.1 pr.2 acc else acc) t

def substituteOne (phs : List (List Char × List Char)) (fs : FS) (p : List String) : FS :=
  match fs.lookupFile p with
  | some (FileData.text t) => fs.writeFile p (FileData.text (placeholderPass phs t))
  | _ => fs

def substituteAll (phs : List (List Char × List Char))
    (manifest : List (List String)) (fs : FS) : FS :=
  manifest.foldl (substituteOne phs) fs

theorem substituteOne_lookup_ne (phs : List (List Char × List Char)) (fs : FS)
    {p q : List String} (h : p ≠ q) :
    (substituteOne phs fs q).lookupFile p = fs.lookupFile p := by
  unfold substituteOne
  cases hlk : fs.lookupFile q with
  | none => rfl
  | some d =>
    cases d with
    | text t => exact FS.lookupFile_writeFile_ne _ _ h
    | binary => rfl

theorem substituteOne_binary (phs : List (List Char × List Char)) (fs : FS)
    {p : List String} (q : List String)
    (h : fs.lookupFile p = some FileData.binary) :
    (substituteOne phs fs q).lookupFile p = some FileData.binary := by
  by_cases hpq : p = q
  · subst hpq
    unfold substituteOne
    rw [h]
    exact h
  · rw [substituteOne_lookup_ne phs fs hpq]
    exact h

/-- C6: the placeholder-substitution step mutates only files listed in the
manifest — any path outside the manifest keeps its exact content — and
binary (undecodable) manifest files are skipped unchanged (the step is a
total function: it never aborts). -/
theorem placeholder_subst_frame (phs : List (List Char × List Char))
    (manifest : List (List String)) (fs : FS) :
    (∀ p, p ∉ manifest →
        (substituteAll phs manifest fs).lookupFile p = fs.lookupFile p) ∧
    (∀ p, fs.lookupFile p = some FileData.binary →
        (substituteAll phs manifest fs).lookupFile p = some FileData.binary) := by
  induction manifest generalizing fs with
  | nil => exact ⟨fun p _ => rfl, fun p hp => hp⟩
  | cons q qs ih =>
    constructor
    · intro p hp
      have hp1 : p ≠ q := fun h => hp (by simp [h])
      have hp2 : p ∉ qs := fun h => hp (by simp [h])
      unfold substituteAll
      rw [List.foldl_cons]
      have := (ih (substituteOne phs fs q)).1 p hp2
      unfold substituteAll at this
      rw [this, substituteOne_lookup_ne phs fs hp1]
    · intro p hp
      unfold substituteAll
      rw [List.foldl_cons]
      have hstep := substituteOne_binary phs fs q hp
      have := (ih (substituteOne phs fs q)).2 p hstep
      unfold substituteAll at this
      rw [this]

theorem placeholder_subst_frame_witness :
    (¬ (["Core", "Src", "main.c"] ∈ [["projectname", "inc", "a.h"]])) ∧
    ((substituteAll [("{{PROJECTNAME}}".toList, "blinky".toList)]
        [["projectname", "inc", "a.h"]]
        (FS.mk [(["Core", "Src", "main.c"], FileData.text "int x;".toList),
                (["projectname", "inc", "a.h"],
                  FileData.text "name {{PROJECTNAME}};".toList)] [])).lookupFile
        ["Core", "Src", "main.c"]
      = (FS.mk [(["Core", "Src", "main.c"], FileData.text "int x;".toList),
                (["projectname", "inc", "a.h"],
                  FileData.text "name {{PROJECTNAME}};".toList)] []).lookupFile
        ["Core", "Src", "main.c"]) :=
  ⟨by decide,
    (placeholder_subst_frame [("{{PROJECTNAME}}".toList, "blinky".toList)]
      [["projectname", "inc", "a.h"]]
      (FS.mk [(["Core", "Src", "main.c"], FileData.text "int x;".toList),
              (["projectname", "inc", "a.h"],
                FileData.text "name {{PROJECTNAME}};".toList)] [])).1
      ["Core", "Src", "main.c"] (by decide)⟩

end Cubepp

namespace Cubepp

/-! ### Directory rename / merge (`post_process_projectname` step 1,
source lines 359-418) -/

/-- Boolean path-prefix test. -/
def isPre : List String → List String → Bool
  | [], _ => true
  | _ :: _, [] => false
  | a :: as, b :: bs => a == b && isPre as bs

/-- `p` lies strictly below directory `d`. -/
def isUnder (d p : List String) : Bool :=
  isPre d p && decide (d.length < p.length)

/-- Stable insertion (descending by component count), modelling
`sorted(..., key=lambda x: len(x.parts), reverse=True)`.  Python's sort is
stable; ties keep their previous (set-iteration) order, on which the
outcome does not depend because only placeholder-named directories are
acted on and two of those at the same depth are independent. -/
def insertByLen (d : List String) : List (List String) → List (List String)
  | [] => [d]
  | e :: es => if e.length < d.length then d :: e :: es else e :: insertByLen d es

def sortByLenDesc (l : List (List String)) : List (List String) :=
  l.foldr insertByLen []

/-- The deduplicated collection of ancestors (up to, excluding, the
destination root) of all manifest files — `copied_dirs` in the source. -/
def collectDirs (copied : List (List String)) : List (List String) :=
  copied.foldl (fun acc f => (properAncestors f).foldl addDirUniq acc) []

/-- State threaded through the directory loop: the filesystem, the manifest
(`copied_files`) and the rename record (`renamed_files`). -/
structure RenameState where
  fs : FS
  copied : List (List String)
  renamed : List (List String)
deriving DecidableEq

/-- Replace the directory prefix `d` by `target` in a path (used by the
atomic-rename branch). -/
def rePrefix (d target p : List String) : List String :=
  if isPre d p then target ++ p.drop d.length else p

def FS.renameDir (fs : FS) (d target : List String) : FS :=
  { files := fs.files.map (fun e => (rePrefix d target e.1, e.2)),
    dirs := fs.dirs.map (rePrefix d target) }

/-- One file moved by the merge branch (`shutil.copy2` plus the manifest
reassignment of source lines 391-393). -/
def mergeFileStep (d target : List String) (acc : RenameState)
    (e : List String × FileData) : RenameState :=
  if e.1 ∈ acc.copied then
    ⟨((acc.fs.mkdirParents (target ++ e.1.drop d.length)).writeFile
        (target ++ e.1.drop d.length) e.2),
      acc.copied.filter (fun q => ¬ q = e.1),
      addDirUniq acc.renamed (target ++ e.1.drop d.length)⟩
  else
    ⟨((acc.fs.mkdirParents (target ++ e.1.drop d.length)).writeFile
        (target ++ e.1.drop d.length) e.2),
      acc.copied, acc.renamed⟩

/-- The cleanup phase of the merge branch (source lines 394-401): unlink
every file below `d`, then `rmdir` — which raises when a subdirectory of
`d` remains, the exception being swallowed, so `d` is removed only when no
descendant directory exists. -/
def mergeFinish (d : List String) (st1 : RenameState) : RenameState :=
  ⟨⟨st1.fs.files.filter (fun e => ¬ isUnder d e.1 = true),
     if st1.fs.dirs.any (fun dd => isUnder d dd) then st1.fs.dirs
     else st1.fs.dirs.filter (fun dd => ¬ dd = d)⟩,
   st1.copied, st1.renamed⟩

/-- One iteration of the loop over candidate directories (innermost first):
skip unless `d` is an existing directory literally named `projectname`;
then either merge-copy into an existing target (overwriting), unlink all
files below `d` and attempt `rmdir` (whose failure — e.g. when nested
subdirectories remain — is swallowed by the `except: pass`), or atomically
rename `d`; in both cases manifest membership is reassigned. -/
def renameMergeOne (pn : String) (st : RenameState) (d : List String) :
    RenameState :=
  if st.fs.dirExists d = true ∧ d.getLast? = some "projectname" then
    if st.fs.pathExists (d.dropLast ++ [pn]) then
      mergeFinish d
        ((st.fs.files.filter (fun e => isUnder d e.1)).foldl
          (mergeFileStep d (d.dropLast ++ [pn])) st)
    else
      ⟨st.fs.renameDir d (d.dropLast ++ [pn]),
        st.copied.filter (fun q => ¬ isPre d q = true),
        ((st.copied.filter (fun q => isPre d q)).map
          (fun q => (d.dropLast ++ [pn]) ++ q.drop d.length)).foldl
          addDirUniq st.renamed⟩
  else st

def renameMergeFold (pn : String) (fs : FS) (copied : List (List String)) :
    RenameState :=
  (sortByLenDesc (collectDirs copied)).foldl (renameMergeOne pn) ⟨fs, copied, []⟩

/-- Step 1 of `post_process_projectname`: process all candidate directories
(deepest first) and finally fold the rename record back into the manifest
(`copied_files.update(renamed_files)`). -/
def renameMergeStep (pn : String) (fs : FS) (copied : List (List String)) :
    FS × List (List String) :=
  ((renameMergeFold pn fs copied).fs,
   (renameMergeFold pn fs copied).renamed.foldl addDirUniq
     (renameMergeFold pn fs copied).copied)

/-- The concrete failing input for C3: the overlay copied
`projectname/inc/a.h` (a *nested* subdirectory `inc`), and a directory with
the resolved project name (`blinky`) already exists, so the merge branch
runs. -/
def c3fs : FS :=
  ⟨[(["projectname", "inc", "a.h"], FileData.text "x".toList),
    (["blinky", "keep.txt"], FileData.text "y".toList)],
   [["projectname"], ["projectname", "inc"], ["blinky"]]⟩

/-- C3 (code bug): after the merge branch on a placeholder directory with a
nested subdirectory, every file has been moved below the resolved name —
but the placeholder directory still exists: only files are unlinked before
`rmdir`, so `rmdir` raises on the non-empty directory and the exception is
swallowed, contradicting the intended (and spec-documented) deletion. -/
theorem rename_merge_nested_leaves_placeholder :
    ((renameMergeStep "blinky" c3fs [["projectname", "inc", "a.h"]]).1.dirExists
        ["projectname"] = true) ∧
    ((renameMergeStep "blinky" c3fs [["projectname", "inc", "a.h"]]).1.lookupFile
        ["blinky", "inc", "a.h"] = some (FileData.text "x".toList)) ∧
    ((renameMergeStep "blinky" c3fs [["projectname", "inc", "a.h"]]).1.lookupFile
        ["projectname", "inc", "a.h"] = none) ∧
    ((renameMergeStep "blinky" c3fs [["projectname", "inc", "a.h"]]).2
      = [["blinky", "inc", "a.h"]]) := by
  decide

end Cubepp

namespace Cubepp

/-! ### Variable Upsert Engine (`_update_cmake_variables`, source
lines 202-226)

The per-variable pattern is `set\(NAME\s+[^\)]+\)` (with `NAME` escaped) and
the replacement is `set(NAME VALUE)`.  `matchVarAt` decides whether the
pattern matches at the head of a string and returns the match length:
after the literal `set(NAME`, the maximal run of non-`)` characters must
start with a whitespace character (the `\s+`), contain at least one further
character (the `[^\)]+`), and be terminated by `)`. -/

structure VarDef where
  name : List Char
  value : List Char
deriving DecidableEq

def varLit (nv : VarDef) : List Char := "set(".toList ++ nv.name

def canonicalVar (nv : VarDef) : List Char :=
  varLit nv ++ ' ' :: (nv.value ++ [')'])

def matchVarAt (nv : VarDef) (s : List Char) : Option Nat :=
  match stripPre (varLit nv) s with
  | none => none
  | some r =>
    match r.takeWhile (fun c => c ≠ ')') with
    | [] => none
    | c :: cs =>
      if isPySpace c = true ∧ cs ≠ [] ∧ (c :: cs).length < r.length
      then some ((varLit nv).length + (c :: cs).length + 1)
      else none

/-- `re.search` for the variable pattern. -/
def hasVar (nv : VarDef) : List Char → Bool
  | [] => false
  | c :: cs => (matchVarAt nv (c :: cs)).isSome || hasVar nv cs

/-- `re.sub`: replace every (leftmost-first, non-overlapping) match of the
variable pattern by the canonical rendering.  Fuel-indexed for structural
termination; the string length is always sufficient fuel. -/
def subVarFuel (nv : VarDef) : Nat → List Char → List Char
  | 0, s => s
  | fuel + 1, s =>
    match matchVarAt nv s with
    | some n => canonicalVar nv ++ subVarFuel nv fuel (s.drop n)
    | none => match s with
      | [] => []
      | c :: cs => c :: subVarFuel nv fuel cs

def subVar (nv : VarDef) (s : List Char) : List Char := subVarFuel nv s.length s

/-- The anchor-header literal of the insertion regex
`(# Setup compiler settings.*?)((?:set\([^\)]+\)\n)+)`. -/
def anchorHeader : List Char := "# Setup compiler settings".toList

/-- One repetition `set\([^\)]+\)\n` of the anchor's statement group,
matched at the head of the string (returning its length). -/
def matchStmtAt (s : List Char) : Option Nat :=
  match stripPre "set(".toList s with
  | none => none
  | some r =>
    match r.takeWhile (fun c => c ≠ ')') with
    | [] => none
    | c :: cs =>
      match stripPre [')', '\n'] (r.drop (c :: cs).length) with
      | some _ => some (4 + (c :: cs).length + 2)
      | none => none

/-- Length of the (greedy) maximal run of consecutive statement matches. -/
def stmtRunFuel : Nat → List Char → Nat
  | 0, _ => 0
  | fuel + 1, s =>
    match matchStmtAt s with
    | some n => n + stmtRunFuel fuel (s.drop n)
    | none => 0

def stmtRun (s : List Char) : Nat := stmtRunFuel s.length s

/-- Earliest statement-run start in a string: offset of the first position
where a statement matches, together with the length of the maximal run
there (this is the lazy `.*?` expansion of the anchor regex). -/
def findStmt : List Char → Option (Nat × Nat)
  | [] => none
  | c :: cs =>
    if (matchStmtAt (c :: cs)).isSome then some (0, stmtRun (c :: cs))
    else (findStmt cs).map (fun pr => (pr.1 + 1, pr.2))

/-- `match.end(2)` of the anchor regex: Python tries start positions left to
right; a start position matches iff the header literal occurs there and some
statement run occurs later; the lazy group then ends at the end of the
maximal statement run beginning at the earliest statement position after the
header. -/
def anchorInsertPos : List Char → Option Nat
  | [] => none
  | c :: cs =>
    match stripPre anchorHeader (c :: cs) with
    | some r =>
      (match findStmt r with
       | some (off, len) => some (anchorHeader.length + off + len)
       | none => (anchorInsertPos cs).map (fun n => n + 1))
    | none => (anchorInsertPos cs).map (fun n => n + 1)

/-- Loop body of `_update_cmake_variables` for one `(name, value)` pair:
replace in place if the pattern matches anywhere, else insert after the
anchor run, else prepend to the top of the file. -/
def upsertVar (s : List Char) (nv : VarDef) : List Char :=
  if hasVar nv s then subVar nv s
  else
    match anchorInsertPos s with
    | some p => s.take p ++ canonicalVar nv ++ '\n' :: s.drop p
    | none => canonicalVar nv ++ '\n' :: '\n' :: s

def updateCmakeVariables (vars : List VarDef) (s : List Char) : List Char :=
  vars.foldl upsertVar s

/-! ### Function-Argument Merger (`_update_cmake_functions`, source
lines 253-299) -/

structure FuncDef where
  name : List Char
  items : List (List Char)
deriving DecidableEq

def funcLit (f : FuncDef) : List Char :=
  f.name ++ "(${CMAKE_PROJECT_NAME}".toList

def closeTok : List Char := "\n)".toList

/-- `re.search` of `(name\(\$\{CMAKE_PROJECT_NAME\}[\s\S]*?)(\n\))`: the
match starts at the first occurrence of the literal and extends (lazily) to
the earliest following `"\n)"`; it exists iff both are found.  Returns
`(pre, mid, post)` with `s = pre ++ lit ++ mid ++ "\n)" ++ post`. -/
def findFuncBlock (lit s : List Char) : Option (List Char × List Char × List Char) :=
  match splitFirst lit s with
  | none => none
  | some (pre, rest) =>
    match splitFirst closeTok rest with
    | none => none
    | some (mid, post) => some (pre, mid, post)

def joinSep (sep : List Char) : List (List Char) → List Char
  | [] => []
  | [x] => x
  | x :: y :: xs => x ++ sep ++ joinSep sep (y :: xs)

/-- Python `str.rstrip()` (ASCII whitespace). -/
def rstrip (s : List Char) : List Char :=
  (s.reverse.dropWhile (fun c => isPySpace c)).reverse

/-- Loop body of `_update_cmake_functions` for one function: skip empty item
lists and `target_sources`; if the block is found, insert the items not
already present (as raw substrings of the whole match) before the closing
`"\n)"`; otherwise append a brand-new call block (with the `PUBLIC` modifier
only for `target_compile_options`) to the stripped file. -/
def updateFunc (s : List Char) (f : FuncDef) : List Char :=
  if f.items = [] then s
  else if f.name = "target_sources".toList then s
  else
    match findFuncBlock (funcLit f) s with
    | some (pre, mid, post) =>
      if f.items.filter
          (fun it => ¬ containsSub it (funcLit f ++ mid ++ closeTok)) = [] then s
      else
        pre ++ funcLit f ++ mid
          ++ "\n    ".toList ++ joinSep "\n    ".toList
            (f.items.filter
              (fun it => ¬ containsSub it (funcLit f ++ mid ++ closeTok)))
          ++ closeTok ++ post
    | none =>
      rstrip s ++ '\n' :: ('\n' :: f.name ++ "(${CMAKE_PROJECT_NAME}".toList
        ++ (if f.name = "target_compile_options".toList
            then " PUBLIC".toList else " PRIVATE".toList)
        ++ '\n' :: "    ".toList
        ++ joinSep "\n    ".toList f.items ++ closeTok) ++ ['\n']

def updateCmakeFunctions (funcs : List FuncDef) (s : List Char) : List Char :=
  funcs.foldl updateFunc s

/-- Occurrence counter (nonempty pattern), for duplication statements. -/
def countSubFuel (pat : List Char) : Nat → List Char → Nat
  | 0, _ => 0
  | fuel + 1, s =>
    match splitFirst pat s with
    | none => 0
    | some (_, b) => 1 + countSubFuel pat fuel b

def countSub (pat s : List Char) : Nat := countSubFuel pat s.length s

end Cubepp

namespace Cubepp

/-! ### Structure of the anchor region -/

theorem dropWhile_eq_drop_len {α : Type} (p : α → Bool) (l : List α) :
    l.dropWhile p = l.drop (l.takeWhile p).length := by
  induction l with
  | nil => rfl
  | cons c cs ih =>
    by_cases h : p c
    · simp [List.dropWhile_cons, List.takeWhile_cons, h, ih]
    · simp [List.dropWhile_cons, List.takeWhile_cons, h]

theorem takeWhile_decomp {α : Type} (p : α → Bool) (l : List α) :
    l = l.takeWhile p ++ l.drop (l.takeWhile p).length := by
  rw [← dropWhile_eq_drop_len]
  exact (List.takeWhile_append_dropWhile p l).symm

/-- A statement match decomposes the string as
`set(` ++ nonempty `)`-free body ++ `)` ++ newline ++ rest. -/
theorem matchStmtAt_spec {s : List Char} {n : Nat} (h : matchStmtAt s = some n) :
    ∃ body rest, s = "set(".toList ++ body ++ ')' :: '\n' :: rest
      ∧ body ≠ [] ∧ (∀ c ∈ body, c ≠ ')') ∧ n = body.length + 6 := by
  unfold matchStmtAt at h
  split at h
  · exact absurd h (by simp)
  rename_i r hp
  split at h
  · exact absurd h (by simp)
  rename_i c cs hr
  split at h
  case _ =>
    rename_i u hd
    simp only [Option.some.injEq] at h
    obtain ⟨rest, hd⟩ : ∃ rest, stripPre [')', '\n'] (r.drop (c :: cs).length) = some rest :=
      ⟨u, hd⟩
    refine ⟨c :: cs, rest, ?_, by simp, ?_, ?_⟩
    · have h1 := stripPre_eq_some.mp hp
      have h2 := takeWhile_decomp (fun c => c ≠ ')') r
      rw [hr] at h2
      have h3 := stripPre_eq_some.mp hd
      rw [h3] at h2
      rw [h1, h2]
      simp
    · intro x hx
      have hx' : x ∈ r.takeWhile (fun c => c ≠ ')') := by rw [hr]; exact hx
      have := List.mem_takeWhile_imp hx'
      simpa using this
    · omega
  case _ => exact absurd h (by simp)

theorem matchStmtAt_bound {s : List Char} {n : Nat} (h : matchStmtAt s = some n) :
    6 ≤ n ∧ n ≤ s.length := by
  obtain ⟨body, rest, hs, hne, _, hn⟩ := matchStmtAt_spec h
  have hb : 1 ≤ body.length := by
    cases body with
    | nil => exact absurd rfl hne
    | cons _ _ => simp
  constructor
  · omega
  · rw [hs]
    simp [List.length_append]
    omega

theorem matchStmtAt_nil : matchStmtAt [] = none := rfl

theorem stmtRunFuel_congr : ∀ (f1 f2 : Nat) (s : List Char),
    s.length ≤ f1 → s.length ≤ f2 → stmtRunFuel f1 s = stmtRunFuel f2 s := by
  intro f1
  induction f1 with
  | zero =>
    intro f2 s h1 _
    have : s = [] := List.length_eq_zero.mp (Nat.le_zero.mp h1)
    subst this
    cases f2 with
    | zero => rfl
    | succ b => simp [stmtRunFuel, matchStmtAt_nil]
  | succ a ih =>
    intro f2 s h1 h2
    cases f2 with
    | zero =>
      have : s = [] := List.length_eq_zero.mp (Nat.le_zero.mp h2)
      subst this
      simp [stmtRunFuel, matchStmtAt_nil]
    | succ b =>
      unfold stmtRunFuel
      cases hm : matchStmtAt s with
      | none => rfl
      | some n =>
        have hb := matchStmtAt_bound hm
        have hd : (s.drop n).length ≤ a := by
          simp only [List.length_drop]
          omega
        have hd2 : (s.drop n).length ≤ b := by
          simp only [List.length_drop]
          omega
        show n + stmtRunFuel a (s.drop n) = n + stmtRunFuel b (s.drop n)
        rw [ih b (s.drop n) hd hd2]

theorem stmtRun_eq (s : List Char) :
    stmtRun s = match matchStmtAt s with
      | some n => n + stmtRun (s.drop n)
      | none => 0 := by
  cases hm : matchStmtAt s with
  | none =>
    show stmtRun s = 0
    unfold stmtRun
    cases hf : s.length with
    | zero => rfl
    | succ m => simp [stmtRunFuel, hm]
  | some n =>
    show stmtRun s = n + stmtRun (s.drop n)
    have hb := matchStmtAt_bound hm
    unfold stmtRun
    cases hf : s.length with
    | zero => omega
    | succ m =>
      have h1 : stmtRunFuel (m + 1) s = n + stmtRunFuel m (s.drop n) := by
        simp [stmtRunFuel, hm]
      rw [h1, stmtRunFuel_congr m (s.drop n).length (s.drop n)
        (by simp only [List.length_drop]; omega) (Nat.le_refl _)]

/-- Shape of a (possibly empty) run of consecutive `set(...)\n` statement
lines, as consumed by the `(?:set\([^\)]+\)\n)+` group of the anchor. -/
inductive StmtChain : List Char → Prop where
  | nil : StmtChain []
  | cons {u rest : List Char}
      (hu : ∃ body, body ≠ [] ∧ (∀ c ∈ body, c ≠ ')')
        ∧ u = "set(".toList ++ body ++ [')', '\n'])
      (hrest : StmtChain rest) : StmtChain (u ++ rest)

theorem stmtRun_spec (s : List Char) :
    StmtChain (s.take (stmtRun s)) ∧ matchStmtAt (s.drop (stmtRun s)) = none
      ∧ stmtRun s ≤ s.length := by
  have H : ∀ (m : Nat) (s : List Char), s.length ≤ m →
      StmtChain (s.take (stmtRun s)) ∧ matchStmtAt (s.drop (stmtRun s)) = none
        ∧ stmtRun s ≤ s.length := by
    intro m
    induction m with
    | zero =>
      intro s hs
      have : s = [] := List.length_eq_zero.mp (Nat.le_zero.mp hs)
      subst this
      refine ⟨?_, ?_, ?_⟩ <;> simp [stmtRun_eq, matchStmtAt_nil, StmtChain.nil]
    | succ m ih =>
      intro s hs
      cases hm : matchStmtAt s with
      | none =>
        have hsr : stmtRun s = 0 := by rw [stmtRun_eq, hm]
        rw [hsr]
        exact ⟨by simpa using StmtChain.nil, by simpa using hm, by simp⟩
      | some n =>
        have hsr : stmtRun s = n + stmtRun (s.drop n) := by rw [stmtRun_eq, hm]
        have hb := matchStmtAt_bound hm
        obtain ⟨body, rest, hdec, hne, hbody, hn⟩ := matchStmtAt_spec hm
        have hlen : (s.drop n).length ≤ m := by
          simp only [List.length_drop]
          omega
        obtain ⟨ihc, ihn, ihle⟩ := ih (s.drop n) hlen
        have hstmt : s.take n = "set(".toList ++ body ++ [')', '\n'] := by
          have hform : s = ("set(".toList ++ body ++ [')', '\n']) ++ rest := by
            rw [hdec]
            simp
          rw [hform]
          have hlen2 : ("set(".toList ++ body ++ [')', '\n']).length = n := by
            simp [List.length_append]
            omega
          rw [← hlen2]
          exact List.take_left _ _
        rw [hsr]
        refine ⟨?_, ?_, ?_⟩
        · rw [List.take_add, hstmt]
          exact StmtChain.cons ⟨body, hne, hbody, rfl⟩ ihc
        · rw [← List.drop_drop]
          exact ihn
        · have h5 := List.length_drop n s ▸ ihle
          omega
  exact H s.length s (Nat.le_refl _)

end Cubepp

namespace Cubepp

theorem stmtRun_pos {s : List Char} (h : (matchStmtAt s).isSome) :
    0 < stmtRun s := by
  rw [stmtRun_eq]
  obtain ⟨n, hn⟩ := Option.isSome_iff_exists.mp h
  rw [hn]
  show 0 < n + stmtRun (s.drop n)
  have := matchStmtAt_bound hn
  omega

theorem findStmt_spec : ∀ {r : List Char} {off len : Nat},
    findStmt r = some (off, len) →
    off ≤ r.length ∧ len = stmtRun (r.drop off) ∧ (matchStmtAt (r.drop off)).isSome
      ∧ ∀ k, k < off → matchStmtAt (r.drop k) = none := by
  intro r
  induction r with
  | nil => intro off len h; exact absurd h (by simp [findStmt])
  | cons c cs ih =>
    intro off len h
    unfold findStmt at h
    by_cases hm : (matchStmtAt (c :: cs)).isSome
    · rw [if_pos hm] at h
      simp only [Option.some.injEq, Prod.mk.injEq] at h
      obtain ⟨ho, hl⟩ := h
      subst ho
      refine ⟨by simp, by simp [← hl], by simpa using hm, ?_⟩
      intro k hk
      omega
    · rw [if_neg hm] at h
      simp only [Option.map_eq_some'] at h
      obtain ⟨⟨off', len'⟩, hfs, heq⟩ := h
      simp only [Prod.mk.injEq] at heq
      obtain ⟨ho, hl⟩ := heq
      obtain ⟨h1, h2, h3, h4⟩ := ih hfs
      subst ho hl
      refine ⟨by simp; omega, ?_, ?_, ?_⟩
      · simpa using h2
      · simpa using h3
      · intro k hk
        cases k with
        | zero =>
          simp only [List.drop_zero]
          cases hmm : matchStmtAt (c :: cs) with
          | none => rfl
          | some v =>
            exact absurd (by simp [hmm] : (matchStmtAt (c :: cs)).isSome = true) hm
        | succ j =>
          have := h4 j (by omega)
          simpa using this

theorem anchorInsertPos_spec : ∀ {s : List Char} {p : Nat},
    anchorInsertPos s = some p →
    ∃ a mid run rest, s = a ++ anchorHeader ++ mid ++ run ++ rest
      ∧ p = a.length + anchorHeader.length + mid.length + run.length
      ∧ run ≠ [] ∧ StmtChain run ∧ matchStmtAt rest = none
      ∧ (∀ k, k < mid.length → matchStmtAt ((mid ++ run ++ rest).drop k) = none) := by
  intro s
  induction s with
  | nil => intro p h; exact absurd h (by simp [anchorInsertPos])
  | cons c cs ih =>
    intro p h
    unfold anchorInsertPos at h
    split at h
    case _ r hp =>
      split at h
      case _ off len hfs =>
        simp only [Option.some.injEq] at h
        obtain ⟨h1, h2, h3, h4⟩ := findStmt_spec hfs
        have hchain := stmtRun_spec (r.drop off)
        refine ⟨[], r.take off, (r.drop off).take (stmtRun (r.drop off)),
          (r.drop off).drop (stmtRun (r.drop off)), ?_, ?_, ?_, ?_, ?_, ?_⟩
        · have hr : r = r.take off ++ ((r.drop off).take (stmtRun (r.drop off))
              ++ (r.drop off).drop (stmtRun (r.drop off))) := by
            rw [List.take_append_drop, List.take_append_drop]
          have hs := stripPre_eq_some.mp hp
          rw [hs, hr]
          simp
        · have hml : (r.take off).length = off := by
            rw [List.length_take]
            omega
          have hrl : ((r.drop off).take (stmtRun (r.drop off))).length
              = stmtRun (r.drop off) := by
            rw [List.length_take]
            have h5 := hchain.2.2
            omega
          simp only [List.length_nil, hml, hrl]
          omega
        · have hpos := stmtRun_pos h3
          intro hemp
          have hlen0 : ((r.drop off).take (stmtRun (r.drop off))).length = 0 := by
            rw [hemp]; rfl
          rw [List.length_take] at hlen0
          have hfl : stmtRun (r.drop off) ≤ (r.drop off).length := hchain.2.2
          omega
        · exact hchain.1
        · exact hchain.2.1
        · intro k hk
          have hml : (r.take off).length = off := by
            rw [List.length_take]
            omega
          rw [hml] at hk
          have hre : r.take off ++ (r.drop off).take (stmtRun (r.drop off))
              ++ (r.drop off).drop (stmtRun (r.drop off)) = r := by
            rw [List.append_assoc, List.take_append_drop, List.take_append_drop]
          rw [hre]
          exact h4 k hk
      case _ hfs =>
        simp only [Option.map_eq_some'] at h
        obtain ⟨p', hrec, hp'⟩ := h
        obtain ⟨a, mid, run, rest, e1, e2, e3, e4, e5, e6⟩ := ih hrec
        refine ⟨c :: a, mid, run, rest, by simp [e1], by simp [← hp', e2]; omega,
          e3, e4, e5, e6⟩
    case _ hp =>
      simp only [Option.map_eq_some'] at h
      obtain ⟨p', hrec, hp'⟩ := h
      obtain ⟨a, mid, run, rest, e1, e2, e3, e4, e5, e6⟩ := ih hrec
      refine ⟨c :: a, mid, run, rest, by simp [e1], by simp [← hp', e2]; omega,
        e3, e4, e5, e6⟩

end Cubepp

namespace Cubepp

/-- C5: the variable upsert follows the three-tier fallback exactly.
(1) If the single-line `set(NAME ...)` pattern matches anywhere, the file is
rewritten by `re.sub`, replacing each matched statement in place with the
canonical rendering.  (2) Otherwise, if the anchor is found — the earliest
nonempty maximal block of consecutive `set(...)` statement lines occurring
after a `# Setup compiler settings` comment header — the canonical
statement (plus newline) is inserted immediately after that block's last
statement.  (3) Otherwise the rendering is prepended to the top of the
file. -/
theorem variable_upsert_three_tier (s : List Char) (nv : VarDef) :
    (hasVar nv s = true → upsertVar s nv = subVar nv s) ∧
    (hasVar nv s = false → ∀ p, anchorInsertPos s = some p →
      upsertVar s nv = s.take p ++ canonicalVar nv ++ '\n' :: s.drop p ∧
      ∃ a mid run rest, s = a ++ anchorHeader ++ mid ++ run ++ rest
        ∧ p = a.length + anchorHeader.length + mid.length + run.length
        ∧ run ≠ [] ∧ StmtChain run ∧ matchStmtAt rest = none) ∧
    (hasVar nv s = false → anchorInsertPos s = none →
      upsertVar s nv = canonicalVar nv ++ '\n' :: '\n' :: s) := by
  refine ⟨?_, ?_, ?_⟩
  · intro h
    unfold upsertVar
    rw [if_pos h]
  · intro h p hp
    unfold upsertVar
    rw [if_neg (by simp [h]), hp]
    refine ⟨rfl, ?_⟩
    obtain ⟨a, mid, run, rest, e1, e2, e3, e4, e5, _⟩ := anchorInsertPos_spec hp
    exact ⟨a, mid, run, rest, e1, e2, e3, e4, e5⟩
  · intro h hp
    unfold upsertVar
    rw [if_neg (by simp [h]), hp]

def c5sample : List Char :=
  "# Setup compiler settings\nset(CMAKE_C_STANDARD 11)\nset(X 1)\nrest".toList

def c5var : VarDef := ⟨"CMAKE_CXX_STANDARD".toList, "20".toList⟩

theorem variable_upsert_three_tier_witness :
    hasVar c5var c5sample = false ∧
    anchorInsertPos c5sample = some 60 ∧
    upsertVar c5sample c5var
      = c5sample.take 60 ++ canonicalVar c5var ++ '\n' :: c5sample.drop 60 :=
  ⟨by decide, by decide,
    ((variable_upsert_three_tier c5sample c5var).2.1 (by decide) 60 (by decide)).1⟩

/-! ### C4: the `target_link_libraries` merge scenario -/

def c4func : FuncDef := ⟨"target_link_libraries".toList, ["foo".toList, "bar".toList]⟩

def c4fileProj : List Char :=
  "target_link_libraries(PROJ PRIVATE\n    foo\n)".toList

/-- C4 counterexample: with the block's target written `PROJ`, as the claim
states it, the merger's pattern — which requires the literal
`(${CMAKE_PROJECT_NAME}` right after the function name — does not match;
a brand-new block is appended after the existing one and `foo` ends up
twice in the file, contradicting the claimed in-block append without
duplication. -/
theorem function_merger_proj_counterexample :
    updateCmakeFunctions [c4func] c4fileProj
      = ("target_link_libraries(PROJ PRIVATE\n    foo\n)\n\n"
          ++ "target_link_libraries(${CMAKE_PROJECT_NAME} PRIVATE\n    foo\n    bar\n)\n").toList
    ∧ countSub "foo".toList (updateCmakeFunctions [c4func] c4fileProj) = 2 := by
  constructor
  · decide
  · decide

def c4fileReal : List Char :=
  "target_link_libraries(${CMAKE_PROJECT_NAME} PRIVATE\n    foo\n)".toList

/-- C4 (amended): in the same scenario with the block's target written as
the literal `${CMAKE_PROJECT_NAME}` that the merger's pattern requires,
running the merger appends `bar` inside the block after the preserved
`foo`, the block ends `... foo\n    bar\n)`, and neither item is
duplicated anywhere in the file. -/
theorem function_merger_scenario :
    updateCmakeFunctions [c4func] c4fileReal
      = "target_link_libraries(${CMAKE_PROJECT_NAME} PRIVATE\n    foo\n    bar\n)".toList
    ∧ countSub "foo".toList (updateCmakeFunctions [c4func] c4fileReal) = 1
    ∧ countSub "bar".toList (updateCmakeFunctions [c4func] c4fileReal) = 1 := by
  refine ⟨by decide, by decide, by decide⟩

end Cubepp

namespace Cubepp

/-! ### Target-chip identifier detection (`_extract_stm32_type`, source
lines 524-551)

The pattern is
`target_compile_definitions\([^)]+\bINTERFACE\s+[^)]*?(STM32[A-Z0-9]+xx)`
with `re.DOTALL | re.IGNORECASE`; `group(1)` (in original case) is
returned, with the fixed default on a missing/unreadable file or a failed
search.  The scanners below implement Python's leftmost-match and
backtracking priorities for this pattern: the literal prefix anchors the
leftmost start; the greedy `[^)]+` prefers the rightmost word-boundary
`INTERFACE`; `\s+` requires one whitespace character after it (further
whitespace is absorbed by `[^)]*?`); the lazy `[^)]*?` yields the first
chip-shaped token position reachable without crossing `)`; and inside the
group, `[A-Z0-9]+` greedily prefers the longest alphanumeric run that
still leaves a trailing `xx`. -/

def lowerEq (a b : Char) : Bool := a.toLower == b.toLower

/-- Case-insensitive literal strip (IGNORECASE literals). -/
def stripPreCI : List Char → List Char → Option (List Char)
  | [], s => some s
  | _ :: _, [] => none
  | p :: ps, c :: cs => if lowerEq p c then stripPreCI ps cs else none

/-- Case-insensitive equality of equal-length strings. -/
def ciEqList : List Char → List Char → Bool
  | [], [] => true
  | p :: ps, c :: cs => lowerEq p c && ciEqList ps cs
  | _, _ => false

/-- Python `\w` on ASCII. -/
def isWordChar (c : Char) : Bool := c.isAlphanum || c == '_'

/-- `[A-Z0-9]` under IGNORECASE. -/
def isChipChar (c : Char) : Bool := c.isAlphanum

/-- Backtracking for `[A-Z0-9]+xx`: try run lengths `k, k-1, ..., 1`
until the remaining text starts with `xx` (case-insensitively). -/
def chipBacktrack (r : List Char) : Nat → Option Nat
  | 0 => none
  | k + 1 =>
    if (stripPreCI "xx".toList (r.drop (k + 1))).isSome then some (k + 1)
    else chipBacktrack r k

/-- The group `(STM32[A-Z0-9]+xx)` matched at the head of `s`, returning
the matched token in original case. -/
def matchChipAt (s : List Char) : Option (List Char) :=
  match stripPreCI "STM32".toList s with
  | none => none
  | some r =>
    match chipBacktrack r (r.takeWhile isChipChar).length with
    | some k => some (s.take (5 + k + 2))
    | none => none

/-- Lazy `[^)]*?(STM32...)`: the first chip-token position reachable
without crossing a `)`. -/
def findChipNoParen : List Char → Option (List Char)
  | [] => none
  | c :: cs =>
    match matchChipAt (c :: cs) with
    | some tok => some tok
    | none => if c = ')' then none else findChipNoParen cs

def interfaceTok : List Char := "INTERFACE".toList

/-- After `INTERFACE`: at least one whitespace character, then the lazy
scan for the chip token. -/
def tcdAfterInterface : List Char → Option (List Char)
  | [] => none
  | c :: cs => if isPySpace c then findChipNoParen cs else none

/-- Greedy `[^)]+\bINTERFACE...`: try `INTERFACE` start positions from the
largest (bounded by the `)`-free prefix run) down to 1; the character just
before must not be a word character (`\b`). -/
def tcdTry (t : List Char) : Nat → Option (List Char)
  | 0 => none
  | j + 1 =>
    match
      (match t.get? j with
       | some cb =>
         if isWordChar cb then none
         else
           match stripPreCI interfaceTok (t.drop (j + 1)) with
           | some r2 => tcdAfterInterface r2
           | none => none
       | none => none) with
    | some tok => some tok
    | none => tcdTry t j

def tcdLit : List Char := "target_compile_definitions(".toList

/-- Leftmost search of the whole pattern. -/
def extractSearch : List Char → Option (List Char)
  | [] => none
  | c :: cs =>
    match stripPreCI tcdLit (c :: cs) with
    | some t =>
      (match tcdTry t (t.takeWhile (fun c => c ≠ ')')).length with
       | some tok => some tok
       | none => extractSearch cs)
    | none => extractSearch cs

def stm32Default : List Char := "STM32F405xx".toList

def cubemxPath : List String := ["cmake", "stm32cubemx", "CMakeLists.txt"]

/-- `_extract_stm32_type` over the filesystem model: missing file,
unreadable file and failed search all fall back to the fixed default
(reported as a warning; the run continues). -/
def extractStm32Type (fs : FS) : List Char :=
  match fs.lookupFile cubemxPath with
  | none => stm32Default
  | some FileData.binary => stm32Default
  | some (FileData.text content) =>
    match extractSearch content with
    | some tok => tok
    | none => stm32Default

end Cubepp

namespace Cubepp

theorem stripPreCI_decomp {p s r : List Char} (h : stripPreCI p s = some r) :
    ∃ q, s = q ++ r ∧ ciEqList p q = true := by
  induction p generalizing s with
  | nil =>
    refine ⟨[], ?_, rfl⟩
    simp [stripPreCI] at h
    simp [h]
  | cons a ps ih =>
    cases s with
    | nil => exact absurd h (by simp [stripPreCI])
    | cons c cs =>
      unfold stripPreCI at h
      by_cases hl : lowerEq a c
      · rw [if_pos hl] at h
        obtain ⟨q', hcs, hci⟩ := ih h
        exact ⟨c :: q', by simp [hcs], by simp [ciEqList, hl, hci]⟩
      · rw [if_neg hl] at h
        exact absurd h (by simp)

theorem ciEqList_length : ∀ {p q : List Char}, ciEqList p q = true →
    p.length = q.length := by
  intro p
  induction p with
  | nil =>
    intro q h
    cases q with
    | nil => rfl
    | cons c cs => exact absurd h (by simp [ciEqList])
  | cons a ps ih =>
    intro q h
    cases q with
    | nil => exact absurd h (by simp [ciEqList])
    | cons c cs =>
      simp only [ciEqList, Bool.and_eq_true] at h
      simp [ih h.2]

/-- Shape of a chip-name token: case-insensitive `STM32`, a nonempty
alphanumeric middle, and a case-insensitive trailing `xx`. -/
def isChipToken (tok : List Char) : Bool :=
  decide (8 ≤ tok.length)
    && ciEqList "STM32".toList (tok.take 5)
    && ((tok.drop 5).take (tok.length - 7)).all isChipChar
    && ciEqList "xx".toList (tok.drop (tok.length - 2))

theorem chipBacktrack_spec {r : List Char} : ∀ {n k : Nat},
    chipBacktrack r n = some k →
    1 ≤ k ∧ k ≤ n ∧ (stripPreCI "xx".toList (r.drop k)).isSome := by
  intro n
  induction n with
  | zero => intro k h; exact absurd h (by simp [chipBacktrack])
  | succ m ih =>
    intro k h
    unfold chipBacktrack at h
    by_cases hx : (stripPreCI "xx".toList (r.drop (m + 1))).isSome
    · rw [if_pos hx] at h
      simp only [Option.some.injEq] at h
      subst h
      exact ⟨by omega, Nat.le_refl _, hx⟩
    · rw [if_neg hx] at h
      obtain ⟨h1, h2, h3⟩ := ih h
      exact ⟨h1, by omega, h3⟩

theorem take_len_append_eq {α : Type} {a : List α} (b : List α) {n : Nat}
    (h : a.length = n) : (a ++ b).take n = a := by
  subst h
  exact List.take_left _ _

theorem drop_len_append_eq {α : Type} {a : List α} (b : List α) {n : Nat}
    (h : a.length = n) : (a ++ b).drop n = b := by
  subst h
  exact List.drop_left _ _

theorem matchChipAt_shape {s tok : List Char} (h : matchChipAt s = some tok) :
    isChipToken tok = true ∧ ∃ rest, s = tok ++ rest := by
  unfold matchChipAt at h
  split at h
  · exact absurd h (by simp)
  rename_i r hstm
  split at h
  case _ k hbt =>
    simp only [Option.some.injEq] at h
    obtain ⟨q, hsq, hciq⟩ := stripPreCI_decomp hstm
    have hql : q.length = 5 := (ciEqList_length hciq).symm
    obtain ⟨hk1, hk2, hkx⟩ := chipBacktrack_spec hbt
    obtain ⟨r3, hx3⟩ := Option.isSome_iff_exists.mp hkx
    obtain ⟨q2, hdk, hciq2⟩ := stripPreCI_decomp hx3
    have hq2l : q2.length = 2 := (ciEqList_length hciq2).symm
    have hkr : k ≤ r.length := by
      have hlc := congrArg List.length hdk
      simp [List.length_drop, hq2l] at hlc
      omega
    have hrk : r = r.take k ++ (q2 ++ r3) := by
      rw [← hdk, List.take_append_drop]
    have htakelen : (r.take k).length = k := by
      rw [List.length_take]
      omega
    have hsdec : s = (q ++ r.take k ++ q2) ++ r3 := by
      rw [hsq]
      conv_lhs => rw [hrk]
      simp
    have hlen : (q ++ r.take k ++ q2).length = 5 + k + 2 := by
      simp [List.length_append, hql, htakelen, hq2l]
      omega
    have htok : tok = q ++ r.take k ++ q2 := by
      rw [← h, hsdec]
      exact take_len_append_eq _ hlen
    have htl : tok.length = 5 + k + 2 := by rw [htok, hlen]
    have hqassoc : q ++ r.take k ++ q2 = q ++ (r.take k ++ q2) := by simp
    have ht5 : tok.take 5 = q := by
      rw [htok, hqassoc]
      exact take_len_append_eq _ hql
    have htd5 : tok.drop 5 = r.take k ++ q2 := by
      rw [htok, hqassoc]
      exact drop_len_append_eq _ hql
    have htmid : (tok.drop 5).take (tok.length - 7) = r.take k := by
      rw [htd5, htl]
      have h7 : 5 + k + 2 - 7 = k := by omega
      rw [h7]
      exact take_len_append_eq _ htakelen
    have htall : (r.take k).all isChipChar = true := by
      rw [List.all_eq_true]
      intro x hx
      have hk3 : k ≤ (r.takeWhile isChipChar).length := hk2
      have hxw : r.take k = (r.takeWhile isChipChar).take k := by
        conv_lhs => rw [takeWhile_decomp isChipChar r]
        exact List.take_append_of_le_length hk3
      rw [hxw] at hx
      exact List.mem_takeWhile_imp (List.take_subset _ _ hx)
    have htlast : tok.drop (tok.length - 2) = q2 := by
      rw [htl]
      have h2 : 5 + k + 2 - 2 = 5 + k := by omega
      rw [h2, htok]
      have hl2 : (q ++ r.take k).length = 5 + k := by
        simp [List.length_append, hql, htakelen]
      have hassoc : q ++ r.take k ++ q2 = (q ++ r.take k) ++ q2 := by simp
      rw [hassoc]
      exact drop_len_append_eq _ hl2
    constructor
    · unfold isChipToken
      rw [ht5, htmid, htlast, htall, hciq, hciq2]
      simp only [Bool.and_true, Bool.true_and, Bool.and_eq_true, decide_eq_true_eq]
      omega
    · exact ⟨r3, by rw [hsdec, htok]⟩
  case _ => exact absurd h (by simp)

end Cubepp

namespace Cubepp

theorem findChipNoParen_spec : ∀ {u tok : List Char},
    findChipNoParen u = some tok →
    ∃ gap rest', u = gap ++ rest' ∧ matchChipAt rest' = some tok
      ∧ (∀ c ∈ gap, c ≠ ')')
      ∧ (∀ k, k < gap.length → matchChipAt (u.drop k) = none) := by
  intro u
  induction u with
  | nil => intro tok h; exact absurd h (by simp [findChipNoParen])
  | cons c cs ih =>
    intro tok h
    unfold findChipNoParen at h
    cases hm : matchChipAt (c :: cs) with
    | some t =>
      rw [hm] at h
      simp only [Option.some.injEq] at h
      subst h
      exact ⟨[], c :: cs, by simp, hm, by simp, by simp⟩
    | none =>
      rw [hm] at h
      by_cases hc : c = ')'
      · rw [if_pos hc] at h
        exact absurd h (by simp)
      · rw [if_neg hc] at h
        obtain ⟨gap, rest', h1, h2, h3, h4⟩ := ih h
        refine ⟨c :: gap, rest', by simp [h1], h2, ?_, ?_⟩
        · intro x hx
          rcases List.mem_cons.mp hx with hx | hx
          · rw [hx]; exact hc
          · exact h3 x hx
        · intro k hk
          cases k with
          | zero => simpa using hm
          | succ j =>
            have := h4 j (by simpa using hk)
            simpa using this

theorem tcdAfterInterface_spec {r2 tok : List Char}
    (h : tcdAfterInterface r2 = some tok) :
    ∃ w cs2, r2 = w :: cs2 ∧ isPySpace w = true
      ∧ findChipNoParen cs2 = some tok := by
  cases r2 with
  | nil => exact absurd h (by simp [tcdAfterInterface])
  | cons c cs =>
    replace h : (if isPySpace c = true then findChipNoParen cs else none)
        = some tok := h
    by_cases hw : isPySpace c = true
    · rw [if_pos hw] at h
      exact ⟨c, cs, rfl, hw, h⟩
    · rw [if_neg hw] at h
      exact absurd h (by simp)

theorem tcdTry_spec {t : List Char} : ∀ {n : Nat} {tok : List Char},
    tcdTry t n = some tok →
    ∃ j cb r2, j + 1 ≤ n ∧ t.get? j = some cb ∧ isWordChar cb = false
      ∧ stripPreCI interfaceTok (t.drop (j + 1)) = some r2
      ∧ tcdAfterInterface r2 = some tok := by
  intro n
  induction n with
  | zero => intro tok h; exact absurd h (by simp [tcdTry])
  | succ m ih =>
    intro tok h
    unfold tcdTry at h
    split at h
    case _ t2 hattempt =>
      simp only [Option.some.injEq] at h
      subst h
      split at hattempt
      case _ cb hcb =>
        split at hattempt
        · exact absurd hattempt (by simp)
        case _ hword =>
          split at hattempt
          case _ r2 hstrip =>
            exact ⟨m, cb, r2, Nat.le_refl _, hcb,
              Bool.not_eq_true _ ▸ hword, hstrip, hattempt⟩
          case _ => exact absurd hattempt (by simp)
      case _ => exact absurd hattempt (by simp)
    case _ =>
      obtain ⟨j, cb, r2, h1, h2, h3, h4, h5⟩ := ih h
      exact ⟨j, cb, r2, by omega, h2, h3, h4, h5⟩

end Cubepp

namespace Cubepp

theorem take_getLast?_eq {t : List Char} {j : Nat} (hj : j < t.length) :
    (t.take (j + 1)).getLast? = t.get? j := by
  rw [List.getLast?_eq_getElem?, List.get?_eq_getElem?]
  have hlen : (t.take (j + 1)).length = j + 1 := by
    rw [List.length_take]
    omega
  rw [hlen]
  simp only [Nat.add_sub_cancel]
  rw [List.getElem?_take]
  simp

/-- Structure of a successful search: the token is chip-shaped and occurs —
as the first chip-shaped token reachable without crossing `)` — after a
whitespace character following a word-boundary `INTERFACE` inside the
parenthesis of a `target_compile_definitions(` occurrence. -/
theorem extractSearch_spec : ∀ {content tok : List Char},
    extractSearch content = some tok →
    isChipToken tok = true ∧
    ∃ pre lit inner itok w gap rest,
      content = pre ++ lit ++ inner ++ itok ++ w :: (gap ++ tok ++ rest)
      ∧ ciEqList tcdLit lit = true
      ∧ inner ≠ [] ∧ (∀ c ∈ inner, c ≠ ')')
      ∧ (∃ cb, inner.getLast? = some cb ∧ isWordChar cb = false)
      ∧ ciEqList interfaceTok itok = true
      ∧ isPySpace w = true
      ∧ (∀ c ∈ gap, c ≠ ')')
      ∧ (∀ k, k < gap.length → matchChipAt ((gap ++ tok ++ rest).drop k) = none) := by
  intro content
  induction content with
  | nil => intro tok h; exact absurd h (by simp [extractSearch])
  | cons c cs ih =>
    intro tok h
    unfold extractSearch at h
    split at h
    case _ t hlit =>
      split at h
      case _ tok' htry =>
        simp only [Option.some.injEq] at h
        subst h
        obtain ⟨j, cb, r2, hj1, hget, hword, hitok, hafter⟩ := tcdTry_spec htry
        obtain ⟨w, cs2, hr2, hw, hfind⟩ := tcdAfterInterface_spec hafter
        obtain ⟨gap, rest', hcs2, hmatch, hgap, hfirst⟩ := findChipNoParen_spec hfind
        obtain ⟨hshape, rest, hrest'⟩ := matchChipAt_shape hmatch
        obtain ⟨lit, hclit, hcilit⟩ := stripPreCI_decomp hlit
        obtain ⟨itok, hdj, hciitok⟩ := stripPreCI_decomp hitok
        have hjlen : j < t.length := (List.get?_eq_some.mp hget).1
        have hinner : t = t.take (j + 1) ++ (itok ++ r2) := by
          rw [← hdj, List.take_append_drop]
        refine ⟨hshape, [], lit, t.take (j + 1), itok, w, gap, rest,
          ?_, hcilit, ?_, ?_, ?_, hciitok, hw, hgap, ?_⟩
        · rw [hclit]
          conv_lhs => rw [hinner]
          rw [hr2, hcs2, hrest']
          simp
        · have hlen : (t.take (j + 1)).length = j + 1 := by
            rw [List.length_take]
            omega
          intro hemp
          rw [hemp] at hlen
          simp at hlen
        · intro x hx
          have hjrun : j + 1 ≤ (t.takeWhile (fun c => c ≠ ')')).length := hj1
          have hxw : t.take (j + 1) = (t.takeWhile (fun c => c ≠ ')')).take (j + 1) := by
            conv_lhs => rw [takeWhile_decomp (fun c => c ≠ ')') t]
            exact List.take_append_of_le_length hjrun
          rw [hxw] at hx
          have := List.mem_takeWhile_imp (List.take_subset _ _ hx)
          simpa using this
        · exact ⟨cb, by rw [take_getLast?_eq hjlen]; exact hget, hword⟩
        · intro k hk
          have := hfirst k hk
          rw [hcs2, hrest'] at this
          simpa using this
      case _ htry =>
        obtain ⟨hshape, pre, lit, inner, itok, w, gap, rest, h1, h2⟩ := ih h
        exact ⟨hshape, c :: pre, lit, inner, itok, w, gap, rest,
          by simp [h1], h2⟩
    case _ hlit =>
      obtain ⟨hshape, pre, lit, inner, itok, w, gap, rest, h1, h2⟩ := ih h
      exact ⟨hshape, c :: pre, lit, inner, itok, w, gap, rest,
        by simp [h1], h2⟩

end Cubepp

namespace Cubepp

/-- C9: target-chip identifier detection.  On a missing generated CMake
file, an undecodable one, or a failed search, the fixed default
`STM32F405xx` is returned (the function is total: the run continues with
the default).  On a successful search the result is the extracted token: a
chip-shaped identifier that is the first such token — reachable without
crossing `)` — after whitespace following a word-boundary `INTERFACE`
keyword inside a `target_compile_definitions(` block. -/
theorem stm32_type_detection (fs : FS) :
    (fs.lookupFile cubemxPath = none → extractStm32Type fs = stm32Default) ∧
    (fs.lookupFile cubemxPath = some FileData.binary →
      extractStm32Type fs = stm32Default) ∧
    (∀ content, fs.lookupFile cubemxPath = some (FileData.text content) →
      (extractSearch content = none → extractStm32Type fs = stm32Default) ∧
      (∀ tok, extractSearch content = some tok →
        extractStm32Type fs = tok ∧ isChipToken tok = true ∧
        ∃ pre lit inner itok w gap rest,
          content = pre ++ lit ++ inner ++ itok ++ w :: (gap ++ tok ++ rest)
          ∧ ciEqList tcdLit lit = true
          ∧ inner ≠ [] ∧ (∀ c ∈ inner, c ≠ ')')
          ∧ (∃ cb, inner.getLast? = some cb ∧ isWordChar cb = false)
          ∧ ciEqList interfaceTok itok = true ∧ isPySpace w = true
          ∧ (∀ c ∈ gap, c ≠ ')')
          ∧ (∀ k, k < gap.length →
              matchChipAt ((gap ++ tok ++ rest).drop k) = none))) := by
  refine ⟨?_, ?_, ?_⟩
  · intro h
    unfold extractStm32Type
    rw [h]
  · intro h
    unfold extractStm32Type
    rw [h]
  · intro content hc
    constructor
    · intro hn
      unfold extractStm32Type
      rw [hc]
      show (match extractSearch content with
        | some tok => tok
        | none => stm32Default) = stm32Default
      rw [hn]
    · intro tok hs
      obtain ⟨hshape, hdec⟩ := extractSearch_spec hs
      refine ⟨?_, hshape, hdec⟩
      unfold extractStm32Type
      rw [hc]
      show (match extractSearch content with
        | some tok => tok
        | none => stm32Default) = tok
      rw [hs]

theorem stm32_type_detection_witness :
    ((FS.mk [] []).lookupFile cubemxPath = none) ∧
    extractStm32Type (FS.mk [] []) = stm32Default :=
  ⟨by decide, (stm32_type_detection (FS.mk [] [])).1 (by decide)⟩

end Cubepp

namespace Cubepp

/-! ### Source-glob section replacement (`_update_source_glob`, source
lines 228-251)

The scaffold pattern is
`# Add sources to executable\ntarget_sources\(\$\{CMAKE_PROJECT_NAME\}\s+PRIVATE\s*\n\s*# Add user sources here\s*\n\)`.
A `\s*\n` consumes a whitespace run up to (and including) the *last*
newline inside it (greedy `\s*` backtracking to the nearest `\n` that lets
the literal continue); a `\s*` directly before a non-whitespace literal
consumes the whole whitespace run. -/

def globHeadLit : List Char :=
  "# Add sources to executable\ntarget_sources(${CMAKE_PROJECT_NAME}".toList

/-- Index (from the head) of the last `'\n'` inside the whitespace run at
the head of the string, i.e. the greedy `\s*\n` consumption minus one. -/
def lastNlInRun : List Char → Option Nat
  | [] => none
  | c :: cs =>
    if isPySpace c then
      match lastNlInRun cs with
      | some i => some (i + 1)
      | none => if c = '\n' then some 0 else none
    else none

/-- Match of the scaffold pattern at the head of the string (length). -/
def matchGlobAt (s : List Char) : Option Nat :=
  match stripPre globHeadLit s with
  | none => none
  | some r1 =>
    match r1.takeWhile isPySpace with
    | [] => none
    | w1 =>
      match stripPre "PRIVATE".toList (r1.drop w1.length) with
      | none => none
      | some r2 =>
        match lastNlInRun r2 with
        | none => none
        | some i2 =>
          match stripPre "# Add user sources here".toList
              ((r2.drop (i2 + 1)).drop ((r2.drop (i2 + 1)).takeWhile isPySpace).length) with
          | none => none
          | some r3 =>
            match lastNlInRun r3 with
            | none => none
            | some i3 =>
              match r3.drop (i3 + 1) with
              | ')' :: _ =>
                some (globHeadLit.length + w1.length + 7 + (i2 + 1)
                  + ((r2.drop (i2 + 1)).takeWhile isPySpace).length
                  + 23 + (i3 + 1) + 1)
              | _ => none

def hasGlobMatch : List Char → Bool
  | [] => false
  | c :: cs => (matchGlobAt (c :: cs)).isSome || hasGlobMatch cs

def globSection (patterns : List (List Char)) : List Char :=
  "# Add sources to executable\nfile(GLOB_RECURSE SOURCES\n  ".toList
    ++ joinSep "\n  ".toList patterns
    ++ "\n)\ntarget_sources(${CMAKE_PROJECT_NAME} PRIVATE\n    # Add user sources here\n    ${SOURCES}\n)".toList

def subGlobFuel (repl : List Char) : Nat → List Char → List Char
  | 0, s => s
  | fuel + 1, s =>
    match matchGlobAt s with
    | some n => repl ++ subGlobFuel repl fuel (s.drop n)
    | none => match s with
      | [] => []
      | c :: cs => c :: subGlobFuel repl fuel cs

def updateSourceGlob (patterns : List (List Char)) (s : List Char) : List Char :=
  if patterns = [] then s
  else if hasGlobMatch s then subGlobFuel (globSection patterns) s.length s
  else s

/-! ### Extra section replacement (`update_cmake_extra`, source
lines 301-320) -/

/-- Python `str.strip()` (both ends, ASCII whitespace). -/
def pstrip (s : List Char) : List Char := rstrip (s.dropWhile isPySpace)

def extraHeader : List Char := "# Extra CMake configurations".toList

/-- Lazy gap of `[\s\S]*?(?=\n#|$)`: the number of characters consumed
until the lookahead (a `\n#` or the `$` of a non-MULTILINE pattern, which
holds at the end of the string or just before a final newline) succeeds. -/
def extraGap : List Char → Nat
  | [] => 0
  | c :: cs =>
    if (stripPre "\n#".toList (c :: cs)).isSome then 0
    else if c = '\n' ∧ cs = [] then 0
    else 1 + extraGap cs

/-- `re.sub(pattern, "", content)` for the extra-section pattern. -/
def subExtraFuel : Nat → List Char → List Char
  | 0, s => s
  | fuel + 1, s =>
    match stripPre extraHeader s with
    | some r => subExtraFuel fuel (r.drop (extraGap r))
    | none => match s with
      | [] => []
      | c :: cs => c :: subExtraFuel fuel cs

def updateCmakeExtraText (extra s : List Char) : List Char :=
  if pstrip extra = [] then s
  else rstrip (subExtraFuel s.length s)
    ++ "\n\n# Extra CMake configurations\n".toList ++ pstrip extra ++ ['\n']

/-! ### The configuration document (`CONFIG`, source lines 20-150) -/

def configVariables : List VarDef :=
  [⟨"CMAKE_CXX_STANDARD".toList, "20".toList⟩,
   ⟨"CMAKE_CXX_STANDARD_REQUIRED".toList, "ON".toList⟩,
   ⟨"CMAKE_CXX_EXTENSIONS".toList, "ON".toList⟩]

def configFunctions : List FuncDef :=
  [⟨"target_sources".toList, ["${SOURCES}".toList]⟩,
   ⟨"target_include_directories".toList,
     ["${PROJECT_SOURCE_DIR}/app/include".toList]⟩,
   ⟨"target_compile_definitions".toList,
     ["\"__weak=__attribute__((weak))\"".toList,
      "\"__packed=__attribute__((__packed__))\"".toList]⟩,
   ⟨"target_compile_options".toList,
     ["-Wall".toList, "-Wextra".toList, "-fdiagnostics-color=always".toList]⟩,
   ⟨"target_link_libraries".toList, ["nosys".toList]⟩,
   ⟨"target_link_options".toList,
     ["--specs=nosys.specs".toList,
      "-Wl,-u,_printf_float,-u,scanf_float".toList]⟩]

def configExtra : List Char :=
  ("\nfile(GLOB_RECURSE STM32_SOURCES\n    Drivers/**\n)\n"
    ++ "foreach(f ${STM32_SOURCES})\n"
    ++ "    set_source_files_properties(${f} PROPERTIES COMPILE_OPTIONS \"-w\")\n"
    ++ "endforeach()\n            ").toList

def configSourcePatterns : List (List Char) :=
  ["${PROJECT_SOURCE_DIR}/app/src/**.c**".toList]

def configBinaryDir : List Char := "${sourceDir}/.build/${presetName}".toList

def configInjections : List Injection :=
  [⟨["Core", "Src", "main.c"], "/* USER CODE BEGIN Includes */".toList,
    "#include \"{project_name}/main_exec.h\"".toList, some "main_exec.h".toList⟩,
   ⟨["Core", "Src", "main.c"], "/* USER CODE BEGIN 2 */".toList,
    "  Setup();".toList, some "Setup();".toList⟩,
   ⟨["Core", "Src", "main.c"], "/* USER CODE BEGIN 3 */".toList,
    "  Loop();".toList, some "Loop();".toList⟩]

/-- A profile overlay: every field optional; `{**CONFIG, **profile_cfg}` is
key-wise top-level override. -/
structure ProfileConfig where
  cmakeVariables : Option (List VarDef)
  cmakeFunctions : Option (List FuncDef)
  sourcePatterns : Option (List (List Char))
  extra : Option (List Char)
  injections : Option (List Injection)

def armmathProfile : ProfileConfig :=
  ⟨none,
   some [⟨"target_compile_definitions".toList, ["ARM_MATH_CM4".toList]⟩,
         ⟨"target_link_libraries".toList, ["arm_cortexM4lf_math".toList]⟩],
   none, none, none⟩

def dspProfile : ProfileConfig :=
  ⟨none,
   some [⟨"target_link_directories".toList,
           ["${PROJECT_SOURCE_DIR}/Drivers/CMSIS/DSP/Lib/GCC".toList]⟩,
         ⟨"target_include_directories".toList,
           ["${PROJECT_SOURCE_DIR}/Drivers/CMSIS/DSP/Include".toList]⟩],
   none, none, none⟩

def printfInjection1 : Injection :=
  ⟨["Core", "Src", "main.c"], "/* USER CODE BEGIN 1 */".toList,
   "  setvbuf(stdin, NULL, _IONBF, 0);\n  setvbuf(stdout, NULL, _IONBF, 0);".toList,
   some "setvbuf".toList⟩

def printfInjection2 : Injection :=
  ⟨["Core", "Src", "main.c"], "/* USER CODE BEGIN 0 */".toList,
   ("int _write(int file, char *ptr, int len)\n\x7b\n  (void) file;\n"
     ++ "  HAL_UART_Transmit(&huart, (uint8_t *)ptr, len, HAL_MAX_DELAY);\n"
     ++ "  return len;\n\x7d\n\nint _read(int file, char *ptr, int len)\n\x7b\n"
     ++ "  (void) file;\n  uint32_t rx_counter = 0;\n"
     ++ "  while (rx_counter < len) \x7b\n"
     ++ "    int status = HAL_UART_Receive(&huart, (uint8_t *)&ptr[rx_counter], 1, HAL_MAX_DELAY);\n"
     ++ "    if (status != HAL_OK) \x7b\n      break;\n"
     ++ "    \x7d else if (ptr[rx_counter] == \x27\\n\x27 || ptr[rx_counter] == \x27\\r\x27) \x7b\n"
     ++ "      ptr[rx_counter] = \x27\\0\x27;\n    \x7d\n    ++rx_counter;\n  \x7d\n"
     ++ "  return rx_counter;\n\x7d").toList,
   some "_write".toList⟩

def printfProfile : ProfileConfig :=
  ⟨none, none, none, none, some [printfInjection1, printfInjection2]⟩

def configProfiles : List (String × ProfileConfig) :=
  [("armmath", armmathProfile), ("dsp", dspProfile), ("printf", printfProfile)]

def lookupProfile (p : String) : Option ProfileConfig :=
  (configProfiles.find? (fun pr => pr.1 == p)).map (fun pr => pr.2)

end Cubepp

namespace Cubepp

/-! ### File-level phases and `run` (source lines 164-200, 301-320,
322-357, 359-443, 553-584)

`Path.cwd()` (= `root_dir` = the destination root) is the model's path
root `[]`.  Opening a file for reading raises on a missing path (and
`json.load`/`read` raise on undecodable content); these unhandled failures
are the `Except.error` outcome. -/

def cmakeListsPath : List String := ["CMakeLists.txt"]

def cmakePresetsPath : List String := ["CMakePresets.json"]

def updateCmakeListsFS (vars : List VarDef) (pats : List (List Char))
    (funcs : List FuncDef) (fs : FS) : Except Unit FS :=
  match fs.lookupFile cmakeListsPath with
  | some (FileData.text content) =>
    Except.ok (fs.writeFile cmakeListsPath (FileData.text
      (updateCmakeFunctions funcs (updateSourceGlob pats
        (updateCmakeVariables vars content)))))
  | _ => Except.error ()

def updateCmakeExtraFS (extra : List Char) (fs : FS) : Except Unit FS :=
  match fs.lookupFile cmakeListsPath with
  | some (FileData.text content) =>
    Except.ok (fs.writeFile cmakeListsPath (FileData.text
      (updateCmakeExtraText extra content)))
  | _ => Except.error ()

/-- `update_cmake_presets` reads `CMakePresets.json`, updates the
`binaryDir` of the `default` configure preset and writes the document back
with `indent=4`.  The JSON decode/encode round-trip is an external
collaborator (spec §1); it is taken as a parameter `presetsRewrite`, so
every theorem below holds for any such rewrite. -/
def updateCmakePresetsFS (presetsRewrite : List Char → List Char)
    (fs : FS) : Except Unit FS :=
  match fs.lookupFile cmakePresetsPath with
  | some (FileData.text content) =>
    Except.ok (fs.writeFile cmakePresetsPath (FileData.text
      (presetsRewrite content)))
  | _ => Except.error ()

/-- `copy_resources`: for each configured resource path, the environment
provides the file tree of the first existing candidate directory
(absolute, install-relative, or cwd-relative), or `none`; each found tree
is overlay-copied and the manifests are accumulated. -/
def copyResourceStep (st : FS × List (List String)) :
    Option (List (List String × FileData)) → FS × List (List String)
  | none => st
  | some tree => copyTreeAux tree st

def copyResources (env : List (Option (List (List String × FileData))))
    (fs : FS) : FS × List (List String) :=
  env.foldl copyResourceStep (fs, [])

/-- Grouping of injections by target file, in first-seen file order
(`files_to_inject` in the source); injections with an empty `file` are
dropped. -/
def groupStep (acc : List (List String × List Injection)) (i : Injection) :
    List (List String × List Injection) :=
  if i.file = [] then acc
  else if acc.any (fun pr => pr.1 = i.file) then
    acc.map (fun pr => if pr.1 = i.file then (pr.1, pr.2 ++ [i]) else pr)
  else acc ++ [(i.file, [i])]

def groupInjections (injs : List Injection) :
    List (List String × List Injection) :=
  injs.foldl groupStep []

/-- `_inject_to_source_files` over the filesystem: a missing target file is
skipped with a warning; an unreadable one yields `src = ""` (on which no
nonempty marker can fire, so nothing is written); otherwise the per-file
injection loop runs and the result is written back. -/
def injectGroupStep (pn : List Char) (fs : FS)
    (pr : List String × List Injection) : FS :=
  match fs.lookupFile pr.1 with
  | some (FileData.text t) =>
    fs.writeFile pr.1 (FileData.text (injectList pn pr.2 t))
  | _ => fs

def injectToSourceFiles (pn : List Char) (fs : FS) (injs : List Injection) : FS :=
  (groupInjections injs).foldl (injectGroupStep pn) fs

/-- `post_process_projectname`: chip-type extraction, directory
rename/merge, placeholder substitution on the manifest, then source-file
injection. -/
def postProcessProjectname (pn : String) (fs : FS)
    (copied : List (List String)) (injs : List Injection) : FS :=
  injectToSourceFiles pn.toList
    (substituteAll
      [("{{PROJECTNAME}}".toList, pn.toList),
       ("{{STM32TYPE}}".toList, extractStm32Type fs)]
      (renameMergeStep pn fs copied).2
      (renameMergeStep pn fs copied).1)
    injs

/-- One iteration of the profile loop in `run` (source lines 563-578):
unknown profiles are skipped with a warning; a known profile updates the
presets, `CMakeLists.txt` and the extra section under the merged
(`{**CONFIG, **profile_cfg}`) document, and appends its
`source_file_injections` to the merged injection list. -/
def runProfilePass (presetsRewrite : List Char → List Char)
    (st : FS × List Injection) (p : String) :
    Except Unit (FS × List Injection) :=
  match lookupProfile p with
  | none => Except.ok st
  | some prof =>
    match updateCmakePresetsFS presetsRewrite st.1 with
    | Except.error e => Except.error e
    | Except.ok fs1 =>
      match updateCmakeListsFS (prof.cmakeVariables.getD configVariables)
          (prof.sourcePatterns.getD configSourcePatterns)
          (prof.cmakeFunctions.getD configFunctions) fs1 with
      | Except.error e => Except.error e
      | Except.ok fs2 =>
        match updateCmakeExtraFS (prof.extra.getD configExtra) fs2 with
        | Except.error e => Except.error e
        | Except.ok fs3 => Except.ok (fs3, st.2 ++ prof.injections.getD [])

def runProfiles (presetsRewrite : List Char → List Char) :
    List String → FS × List Injection → Except Unit (FS × List Injection)
  | [], st => Except.ok st
  | p :: ps, st =>
    match runProfilePass presetsRewrite st p with
    | Except.error e => Except.error e
    | Except.ok st' => runProfiles presetsRewrite ps st'

/-- `ProjectSetup.run`: base pass over `CMakeLists.txt`, the profile loop,
the resource overlay, and post-processing (with the merged injections). -/
def run (presetsRewrite : List Char → List Char)
    (env : List (Option (List (List String × FileData))))
    (pn : String) (profiles : List String) (fs : FS) : Except Unit FS :=
  match updateCmakeListsFS configVariables configSourcePatterns configFunctions fs with
  | Except.error e => Except.error e
  | Except.ok fs1 =>
    match updateCmakeExtraFS configExtra fs1 with
    | Except.error e => Except.error e
    | Except.ok fs2 =>
      match runProfiles presetsRewrite profiles (fs2, configInjections) with
      | Except.error e => Except.error e
      | Except.ok st =>
        Except.ok (postProcessProjectname pn
          (copyResources env st.1).1 (copyResources env st.1).2 st.2)

end Cubepp

namespace Cubepp

/-! ### Frame lemmas: paths outside the write set of a phase are untouched -/

theorem lookupEntries_filter_of_keep {l : List (List String × FileData)}
    {q : List String} {p : List String × FileData → Bool}
    (h : ∀ e ∈ l, e.1 = q → p e = true) :
    lookupEntries (l.filter p) q = lookupEntries l q := by
  induction l with
  | nil => rfl
  | cons e es ih =>
    have ihh := ih (fun e' he' hq' => h e' (by simp [he']) hq')
    by_cases he : e.1 = q
    · rw [List.filter_cons, if_pos (h e (by simp) he)]
      simp [lookupEntries, he]
    · rw [List.filter_cons]
      by_cases hp : p e = true
      · rw [if_pos hp]
        simp [lookupEntries, he, ihh]
      · rw [if_neg hp, ihh]
        simp [lookupEntries, he]

theorem lookupEntries_map_rekey {l : List (List String × FileData)}
    {q : List String} {f : List String → List String}
    (hfix : f q = q) (hinj : ∀ p, f p = q → p = q) :
    lookupEntries (l.map (fun e => (f e.1, e.2))) q = lookupEntries l q := by
  induction l with
  | nil => rfl
  | cons e es ih =>
    by_cases he : e.1 = q
    · simp [lookupEntries, he, hfix]
    · have hne : ¬ f e.1 = q := fun hcontra => he (hinj e.1 hcontra)
      simp [lookupEntries, he, hne, ih]

theorem isPre_length : ∀ {d p : List String}, isPre d p = true →
    d.length ≤ p.length := by
  intro d
  induction d with
  | nil => intro p _; exact Nat.zero_le _
  | cons a as ih =>
    intro p h
    cases p with
    | nil => simp [isPre] at h
    | cons b bs =>
      simp only [isPre, Bool.and_eq_true, beq_iff_eq] at h
      exact Nat.succ_le_succ (ih h.2)

theorem isPre_eq_of_len : ∀ {d p : List String}, isPre d p = true →
    p.length ≤ d.length → d = p := by
  intro d
  induction d with
  | nil =>
    intro p _ hl
    cases p with
    | nil => rfl
    | cons b bs => simp at hl
  | cons a as ih =>
    intro p h hl
    cases p with
    | nil => simp [isPre] at h
    | cons b bs =>
      simp only [isPre, Bool.and_eq_true, beq_iff_eq] at h
      simp only [List.length_cons, Nat.succ_le_succ_iff] at hl
      rw [h.1, ih h.2 hl]

theorem mem_addDirUniq {ds : List (List String)} {d q : List String}
    (h : q ∈ addDirUniq ds d) : q ∈ ds ∨ q = d := by
  unfold addDirUniq at h
  by_cases hd : d ∈ ds
  · rw [if_pos hd] at h
    exact Or.inl h
  · rw [if_neg hd] at h
    rcases List.mem_append.mp h with h | h
    · exact Or.inl h
    · exact Or.inr (by simpa using h)

theorem mem_foldl_addDirUniq : ∀ {l : List (List String)}
    {r : List (List String)} {q : List String},
    q ∈ l.foldl addDirUniq r → q ∈ r ∨ q ∈ l := by
  intro l
  induction l with
  | nil => intro r q h; exact Or.inl h
  | cons x xs ih =>
    intro r q h
    rw [List.foldl_cons] at h
    rcases ih h with h | h
    · rcases mem_addDirUniq h with h | h
      · exact Or.inl h
      · exact Or.inr (by simp [h])
    · exact Or.inr (by simp [h])

theorem mergeFileStep_fold_frame {d target q : List String}
    (hd : 1 ≤ d.length) (ht : target.length = d.length) (hq : q.length = 1) :
    ∀ (under : List (List String × FileData)) (st : RenameState),
      (∀ e ∈ under, isUnder d e.1 = true) →
      q ∉ st.copied → q ∉ st.renamed →
      ((under.foldl (mergeFileStep d target) st).fs.lookupFile q
          = st.fs.lookupFile q ∧
        q ∉ (under.foldl (mergeFileStep d target) st).copied ∧
        q ∉ (under.foldl (mergeFileStep d target) st).renamed) := by
  intro under
  induction under with
  | nil => intro st _ hc hr; exact ⟨rfl, hc, hr⟩
  | cons e es ih =>
    intro st hu hc hr
    have he : isUnder d e.1 = true := hu e (by simp)
    have hlen : d.length < e.1.length := by
      unfold isUnder at he
      simp only [Bool.and_eq_true, decide_eq_true_eq] at he
      exact he.2
    have hne : ¬ (target ++ e.1.drop d.length) = q := by
      intro hcontra
      have hlen2 : (target ++ e.1.drop d.length).length = q.length := by
        rw [hcontra]
      rw [List.length_append, List.length_drop, ht, hq] at hlen2
      omega
    have hstep : (mergeFileStep d target st e).fs.lookupFile q
          = st.fs.lookupFile q ∧
        q ∉ (mergeFileStep d target st e).copied ∧
        q ∉ (mergeFileStep d target st e).renamed := by
      unfold mergeFileStep
      by_cases hmem : e.1 ∈ st.copied
      · rw [if_pos hmem]
        refine ⟨?_, ?_, ?_⟩
        · rw [FS.lookupFile_writeFile_ne _ _ (fun hcontra => hne hcontra.symm),
            FS.lookupFile_mkdirParents]
        · intro hcontra
          exact hc (List.mem_of_mem_filter hcontra)
        · intro hcontra
          rcases mem_addDirUniq hcontra with hcontra | hcontra
          · exact hr hcontra
          · exact hne hcontra.symm
      · rw [if_neg hmem]
        refine ⟨?_, hc, hr⟩
        rw [FS.lookupFile_writeFile_ne _ _ (fun hcontra => hne hcontra.symm),
          FS.lookupFile_mkdirParents]
    rw [List.foldl_cons]
    obtain ⟨f1, f2, f3⟩ := ih (mergeFileStep d target st e)
      (fun e' he' => hu e' (by simp [he'])) hstep.2.1 hstep.2.2
    exact ⟨by rw [f1, hstep.1], f2, f3⟩

theorem mergeFinish_frame {d q : List String} (hq : q.length = 1)
    (hd : 1 ≤ d.length) (st1 : RenameState) :
    (mergeFinish d st1).fs.lookupFile q = st1.fs.lookupFile q := by
  show lookupEntries (st1.fs.files.filter _) q = lookupEntries st1.fs.files q
  apply lookupEntries_filter_of_keep
  intro e _ he
  have : isUnder d e.1 = false := by
    rw [he]
    unfold isUnder
    simp only [Bool.and_eq_false_iff, decide_eq_false_iff_not]
    right
    omega
  simp [this]

theorem renameMergeOne_frame {pn : String} {q : List String}
    (hq1 : q.length = 1) (hq2 : q ≠ [pn]) (hq3 : q ≠ ["projectname"])
    (st : RenameState) (d : List String)
    (hc : q ∉ st.copied) (hr : q ∉ st.renamed) :
    (renameMergeOne pn st d).fs.lookupFile q = st.fs.lookupFile q ∧
    q ∉ (renameMergeOne pn st d).copied ∧
    q ∉ (renameMergeOne pn st d).renamed := by
  unfold renameMergeOne
  by_cases hguard : st.fs.dirExists d = true ∧ d.getLast? = some "projectname"
  case neg => rw [if_neg hguard]; exact ⟨rfl, hc, hr⟩
  rw [if_pos hguard]
  have hdne : d ≠ [] := by
    intro hcontra
    rw [hcontra] at hguard
    exact Option.noConfusion hguard.2
  have hdlen : 1 ≤ d.length := by
    cases d with
    | nil => exact absurd rfl hdne
    | cons a as => simp
  have htlen : (d.dropLast ++ [pn]).length = d.length := by
    rw [List.length_append, List.length_dropLast]
    simp
    omega
  have hd1 : d.length = 1 → d = ["projectname"] := by
    intro hlen1
    cases d with
    | nil => exact absurd rfl hdne
    | cons a as =>
      cases as with
      | nil =>
        have : a = "projectname" := by
          have := hguard.2
          simp [List.getLast?] at this
          exact this
        rw [this]
      | cons b bs => simp at hlen1
  by_cases hpath : st.fs.pathExists (d.dropLast ++ [pn]) = true
  · rw [if_pos hpath]
    obtain ⟨f1, f2, f3⟩ := mergeFileStep_fold_frame hdlen htlen hq1
      (st.fs.files.filter (fun e => isUnder d e.1)) st
      (fun e he => by
        have := List.mem_filter.mp he
        simpa using this.2) hc hr
    refine ⟨?_, f2, f3⟩
    rw [mergeFinish_frame hq1 hdlen, f1]
  · rw [if_neg hpath]
    have hfix : rePrefix d (d.dropLast ++ [pn]) q = q := by
      unfold rePrefix
      rw [if_neg]
      intro hcontra
      have hle : d.length ≤ q.length := isPre_length hcontra
      have hdq : d = q := isPre_eq_of_len hcontra (by omega)
      apply hq3
      rw [← hdq]
      exact hd1 (by omega)
    have hinj : ∀ p, rePrefix d (d.dropLast ++ [pn]) p = q → p = q := by
      intro p hp
      unfold rePrefix at hp
      by_cases hpre : isPre d p = true
      · rw [if_pos hpre] at hp
        exfalso
        have hle : d.length ≤ p.length := isPre_length hpre
        have hplen : (d.dropLast ++ [pn] ++ p.drop d.length).length = q.length := by
          rw [hp]
        rw [List.length_append, htlen, List.length_drop, hq1] at hplen
        have hp1 : p.length = 1 := by omega
        have hdl1 : d.length = 1 := by omega
        have hdp : d = p := isPre_eq_of_len hpre (by omega)
        have hdrop : p.drop d.length = [] := by
          rw [← hdp, List.drop_length]
        rw [hdrop, List.append_nil] at hp
        have hdl : d.dropLast = [] := by
          have : d.dropLast.length = 0 := by
            rw [List.length_dropLast]
            omega
          exact List.eq_nil_of_length_eq_zero this
        rw [hdl, List.nil_append] at hp
        exact hq2 hp.symm
      · rw [if_neg hpre] at hp
        exact hp
    refine ⟨?_, ?_, ?_⟩
    · show lookupEntries (st.fs.files.map _) q = lookupEntries st.fs.files q
      exact lookupEntries_map_rekey hfix hinj
    · intro hcontra
      exact hc (List.mem_of_mem_filter hcontra)
    · intro hcontra
      rcases mem_foldl_addDirUniq hcontra with hcontra | hcontra
      · exact hr hcontra
      · obtain ⟨q', hq', hmap⟩ := List.mem_map.mp hcontra
        have hq'mem : q' ∈ st.copied := List.mem_of_mem_filter hq'
        have hpre : isPre d q' = true := by
          have := List.mem_filter.mp hq'
          simpa using this.2
        have hle : d.length ≤ q'.length := isPre_length hpre
        have hlen2 : (d.dropLast ++ [pn] ++ q'.drop d.length).length = q.length := by
          rw [hmap]
        rw [List.length_append, htlen, List.length_drop, hq1] at hlen2
        have hq'1 : q'.length = 1 := by omega
        have hdl1 : d.length = 1 := by omega
        have hdq : d = q' := isPre_eq_of_len hpre (by omega)
        have hdrop : q'.drop d.length = [] := by
          rw [← hdq, List.drop_length]
        rw [hdrop, List.append_nil] at hmap
        have hdl : d.dropLast = [] := by
          have : d.dropLast.length = 0 := by
            rw [List.length_dropLast]
            omega
          exact List.eq_nil_of_length_eq_zero this
        rw [hdl, List.nil_append] at hmap
        exact hq2 hmap.symm

theorem renameMergeStep_frame {pn : String} {q : List String}
    (hq1 : q.length = 1) (hq2 : q ≠ [pn]) (hq3 : q ≠ ["projectname"])
    (fs : FS) (copied : List (List String)) (hc : q ∉ copied) :
    (renameMergeStep pn fs copied).1.lookupFile q = fs.lookupFile q ∧
    q ∉ (renameMergeStep pn fs copied).2 := by
  have main : ∀ (ds : List (List String)) (st : RenameState),
      q ∉ st.copied → q ∉ st.renamed →
      ((ds.foldl (renameMergeOne pn) st).fs.lookupFile q
          = st.fs.lookupFile q ∧
        q ∉ (ds.foldl (renameMergeOne pn) st).copied ∧
        q ∉ (ds.foldl (renameMergeOne pn) st).renamed) := by
    intro ds
    induction ds with
    | nil => intro st h1 h2; exact ⟨rfl, h1, h2⟩
    | cons d ds ih =>
      intro st h1 h2
      rw [List.foldl_cons]
      obtain ⟨g1, g2, g3⟩ := renameMergeOne_frame hq1 hq2 hq3 st d h1 h2
      obtain ⟨f1, f2, f3⟩ := ih (renameMergeOne pn st d) g2 g3
      exact ⟨by rw [f1, g1], f2, f3⟩
  obtain ⟨f1, f2, f3⟩ := main (sortByLenDesc (collectDirs copied))
    ⟨fs, copied, []⟩ hc (by simp)
  refine ⟨f1, ?_⟩
  intro hmem
  rcases mem_foldl_addDirUniq hmem with h | h
  · exact f2 h
  · exact f3 h

end Cubepp

namespace Cubepp

theorem copyResources_fold_lookup :
    ∀ (env : List (Option (List (List String × FileData))))
      (st : FS × List (List String)) (p : List String),
      (st.1.lookupFile p).isSome →
      (env.foldl copyResourceStep st).1.lookupFile p = st.1.lookupFile p := by
  intro env
  induction env with
  | nil => intro st p _; rfl
  | cons o os ih =>
    intro st p hp
    rw [List.foldl_cons]
    cases o with
    | none => exact ih st p hp
    | some tree =>
      have h1 : (copyTreeAux tree st).1.lookupFile p = st.1.lookupFile p :=
        copyTreeAux_lookup_of_isSome tree st p hp
      have h2 : (os.foldl copyResourceStep (copyTreeAux tree st)).1.lookupFile p
          = (copyTreeAux tree st).1.lookupFile p :=
        ih (copyTreeAux tree st) p (by rw [h1]; exact hp)
      show (os.foldl copyResourceStep (copyTreeAux tree st)).1.lookupFile p = _
      rw [h2, h1]

theorem copyResources_fold_manifest :
    ∀ (env : List (Option (List (List String × FileData))))
      (st : FS × List (List String)) (q : List String),
      q ∈ (env.foldl copyResourceStep st).2 →
      q ∈ st.2 ∨ st.1.lookupFile q = none := by
  intro env
  induction env with
  | nil => intro st q h; exact Or.inl h
  | cons o os ih =>
    intro st q h
    rw [List.foldl_cons] at h
    rcases ih (copyResourceStep st o) q h with h | h
    · cases o with
      | none => exact Or.inl h
      | some tree =>
        rcases copyTreeAux_mem_manifest tree st q h with h | h
        · exact Or.inl h
        · exact Or.inr h.1
    · cases o with
      | none => exact Or.inr h
      | some tree =>
        cases hlk : st.1.lookupFile q with
        | none => exact Or.inr rfl
        | some dd =>
          exfalso
          have := copyTreeAux_lookup_of_isSome tree st q (by rw [hlk]; rfl)
          have hcs : (copyResourceStep st (some tree)).1.lookupFile q = some dd := by
            show (copyTreeAux tree st).1.lookupFile q = some dd
            rw [this, hlk]
          rw [hcs] at h
          exact Option.noConfusion h

theorem copyResources_lookup
    (env : List (Option (List (List String × FileData)))) (fs : FS)
    (p : List String) (h : (fs.lookupFile p).isSome) :
    (copyResources env fs).1.lookupFile p = fs.lookupFile p :=
  copyResources_fold_lookup env (fs, []) p h

theorem copyResources_manifest
    (env : List (Option (List (List String × FileData)))) (fs : FS)
    (q : List String) (h : q ∈ (copyResources env fs).2) :
    fs.lookupFile q = none := by
  rcases copyResources_fold_manifest env (fs, []) q h with h | h
  · exact absurd h (List.not_mem_nil q)
  · exact h

theorem substituteAll_lookup_not_mem (phs : List (List Char × List Char)) :
    ∀ (manifest : List (List String)) (fs : FS) {q : List String},
      q ∉ manifest →
      (substituteAll phs manifest fs).lookupFile q = fs.lookupFile q := by
  intro manifest
  induction manifest with
  | nil => intro fs q _; rfl
  | cons p ps ih =>
    intro fs q hq
    have h1 : q ≠ p := fun h => hq (by simp [h])
    have h2 : q ∉ ps := fun h => hq (by simp [h])
    unfold substituteAll
    rw [List.foldl_cons]
    have h3 := ih (substituteOne phs fs p) h2
    unfold substituteAll at h3
    rw [h3, substituteOne_lookup_ne phs fs h1]

theorem groupStep_keys {acc : List (List String × List Injection)}
    {i : Injection} {pr : List String × List Injection}
    (h : pr ∈ groupStep acc i) :
    (∃ pr0, pr0 ∈ acc ∧ pr0.1 = pr.1) ∨ i.file = pr.1 := by
  unfold groupStep at h
  split at h
  · exact Or.inl ⟨pr, h, rfl⟩
  · split at h
    · obtain ⟨pr0, h0, hmap⟩ := List.mem_map.mp h
      refine Or.inl ⟨pr0, h0, ?_⟩
      rw [← hmap]
      by_cases hk : pr0.1 = i.file
      · rw [if_pos hk]
      · rw [if_neg hk]
    · rcases List.mem_append.mp h with h | h
      · exact Or.inl ⟨pr, h, rfl⟩
      · have : pr = (i.file, [i]) := by simpa using h
        exact Or.inr (by rw [this])

theorem groupInjections_keys :
    ∀ (injs : List Injection) (acc : List (List String × List Injection))
      (pr : List String × List Injection), pr ∈ injs.foldl groupStep acc →
      (∃ pr0, pr0 ∈ acc ∧ pr0.1 = pr.1) ∨ ∃ i, i ∈ injs ∧ i.file = pr.1 := by
  intro injs
  induction injs with
  | nil => intro acc pr h; exact Or.inl ⟨pr, h, rfl⟩
  | cons i is ih =>
    intro acc pr h
    rw [List.foldl_cons] at h
    rcases ih (groupStep acc i) pr h with ⟨pr0, hmem, hkey⟩ | ⟨j, hj, hkey⟩
    · rcases groupStep_keys hmem with ⟨pr1, hm1, hk1⟩ | hk
      · exact Or.inl ⟨pr1, hm1, hk1.trans hkey⟩
      · exact Or.inr ⟨i, by simp, hk.trans hkey⟩
    · exact Or.inr ⟨j, by simp [hj], hkey⟩

theorem injectGroups_fold_lookup_ne (pn : List Char) {q : List String} :
    ∀ (groups : List (List String × List Injection)) (fs : FS),
      (∀ pr ∈ groups, pr.1 ≠ q) →
      (groups.foldl (injectGroupStep pn) fs).lookupFile q = fs.lookupFile q := by
  intro groups
  induction groups with
  | nil => intro fs _; rfl
  | cons g gs ih =>
    intro fs hg
    rw [List.foldl_cons, ih _ (fun pr h => hg pr (by simp [h]))]
    unfold injectGroupStep
    split
    · exact FS.lookupFile_writeFile_ne _ _ (fun h => hg g (by simp) h.symm)
    · rfl

theorem injectToSourceFiles_lookup_ne (pn : List Char) (fs : FS)
    (injs : List Injection) {q : List String}
    (h : ∀ i ∈ injs, i.file ≠ q) :
    (injectToSourceFiles pn fs injs).lookupFile q = fs.lookupFile q := by
  unfold injectToSourceFiles
  apply injectGroups_fold_lookup_ne
  intro pr hpr hk
  rcases groupInjections_keys injs [] pr
      (by simpa [groupInjections] using hpr) with ⟨pr0, h0, _⟩ | ⟨i, hi, hk2⟩
  · exact absurd h0 (List.not_mem_nil pr0)
  · exact h i hi (hk2.trans hk)

theorem runProfilePass_unknown (f : List Char → List Char)
    (st : FS × List Injection) (p : String) (h : lookupProfile p = none) :
    runProfilePass f st p = Except.ok st := by
  unfold runProfilePass
  rw [h]

theorem runProfiles_skip_unknown (f : List Char → List Char) :
    ∀ (ps : List String) (st : FS × List Injection),
      (∀ p ∈ ps, lookupProfile p = none) →
      runProfiles f ps st = Except.ok st := by
  intro ps
  induction ps with
  | nil => intro st _; rfl
  | cons p ps ih =>
    intro st hp
    show (match runProfilePass f st p with
      | Except.error e => Except.error e
      | Except.ok st2 => runProfiles f ps st2) = Except.ok st
    rw [runProfilePass_unknown f st p (hp p (by simp))]
    exact ih st (fun p' h => hp p' (by simp [h]))

theorem updateCmakeListsFS_ok (vars : List VarDef) (pats : List (List Char))
    (funcs : List FuncDef) (fs : FS) (t : List Char)
    (h : fs.lookupFile cmakeListsPath = some (FileData.text t)) :
    updateCmakeListsFS vars pats funcs fs = Except.ok
      (fs.writeFile cmakeListsPath (FileData.text
        (updateCmakeFunctions funcs (updateSourceGlob pats
          (updateCmakeVariables vars t))))) := by
  unfold updateCmakeListsFS
  rw [h]

theorem updateCmakeExtraFS_ok (extra : List Char) (fs : FS) (t : List Char)
    (h : fs.lookupFile cmakeListsPath = some (FileData.text t)) :
    updateCmakeExtraFS extra fs = Except.ok
      (fs.writeFile cmakeListsPath (FileData.text
        (updateCmakeExtraText extra t))) := by
  unfold updateCmakeExtraFS
  rw [h]

end Cubepp

namespace Cubepp

theorem postProcess_lookup_frame (pn : String) (fs : FS)
    (copied : List (List String)) (injs : List Injection)
    {q : List String} (d : FileData)
    (hq1 : q.length = 1) (hq2 : q ≠ [pn]) (hq3 : q ≠ ["projectname"])
    (hinj : ∀ i ∈ injs, i.file ≠ q) (hc : q ∉ copied)
    (hlk : fs.lookupFile q = some d) :
    (postProcessProjectname pn fs copied injs).lookupFile q = some d := by
  obtain ⟨f1, f2⟩ := renameMergeStep_frame hq1 hq2 hq3 fs copied hc
  unfold postProcessProjectname
  rw [injectToSourceFiles_lookup_ne _ _ _ hinj,
    substituteAll_lookup_not_mem _ _ _ f2, f1, hlk]

theorem run_skip_profiles (f : List Char → List Char)
    (env : List (Option (List (List String × FileData))))
    (pn : String) (profiles : List String) (fs : FS) (t : List Char)
    (hprof : ∀ p ∈ profiles, lookupProfile p = none)
    (hcml : fs.lookupFile cmakeListsPath = some (FileData.text t)) :
    run f env pn profiles fs = Except.ok (postProcessProjectname pn
      (copyResources env ((fs.writeFile cmakeListsPath (FileData.text
        (updateCmakeFunctions configFunctions (updateSourceGlob
          configSourcePatterns (updateCmakeVariables configVariables
            t))))).writeFile cmakeListsPath (FileData.text
        (updateCmakeExtraText configExtra
          (updateCmakeFunctions configFunctions (updateSourceGlob
            configSourcePatterns (updateCmakeVariables configVariables
              t))))))).1
      (copyResources env ((fs.writeFile cmakeListsPath (FileData.text
        (updateCmakeFunctions configFunctions (updateSourceGlob
          configSourcePatterns (updateCmakeVariables configVariables
            t))))).writeFile cmakeListsPath (FileData.text
        (updateCmakeExtraText configExtra
          (updateCmakeFunctions configFunctions (updateSourceGlob
            configSourcePatterns (updateCmakeVariables configVariables
              t))))))).2
      configInjections) := by
  have h1 := updateCmakeListsFS_ok configVariables configSourcePatterns
    configFunctions fs t hcml
  have h2 := updateCmakeExtraFS_ok configExtra _ _
    (FS.lookupFile_writeFile_self fs cmakeListsPath (FileData.text
      (updateCmakeFunctions configFunctions (updateSourceGlob
        configSourcePatterns (updateCmakeVariables configVariables t)))))
  simp only [run, h1, h2]
  rw [runProfiles_skip_unknown f profiles _ hprof]

end Cubepp

namespace Cubepp

/-- C10: `CMakePresets.json` is read or rewritten only inside the
per-profile pass.  If every selected profile name is unknown (which
includes the zero-profile run), `run` succeeds and its outcome is
independent of the presets JSON rewrite (first two conjuncts, for two
arbitrary rewrites — in particular the presets file is never required to
exist or to be decodable), the presets file's content, when it exists, is
preserved bit for bit (third conjunct), while the base-pass mutations of
`CMakeLists.txt` — variables, source glob, functions, extra section — all
still occur and survive to the final filesystem (fourth conjunct). -/
theorem presets_untouched_without_profiles (f g : List Char → List Char)
    (env : List (Option (List (List String × FileData))))
    (pn : String) (profiles : List String) (fs : FS) (t : List Char)
    (hprof : ∀ p ∈ profiles, lookupProfile p = none)
    (hcml : fs.lookupFile cmakeListsPath = some (FileData.text t))
    (hpn : pn ≠ "CMakePresets.json") :
    ∃ out, run f env pn profiles fs = Except.ok out ∧
      run g env pn profiles fs = Except.ok out ∧
      (∀ d, fs.lookupFile cmakePresetsPath = some d →
        out.lookupFile cmakePresetsPath = some d) ∧
      (pn ≠ "CMakeLists.txt" →
        out.lookupFile cmakeListsPath = some (FileData.text
          (updateCmakeExtraText configExtra
            (updateCmakeFunctions configFunctions (updateSourceGlob
              configSourcePatterns (updateCmakeVariables configVariables
                t)))))) := by
  refine ⟨_, run_skip_profiles f env pn profiles fs t hprof hcml,
    run_skip_profiles g env pn profiles fs t hprof hcml, ?_, ?_⟩
  · intro d hd
    have hne : cmakePresetsPath ≠ cmakeListsPath := by decide
    have hb1 : ((fs.writeFile cmakeListsPath (FileData.text
        (updateCmakeFunctions configFunctions (updateSourceGlob
          configSourcePatterns (updateCmakeVariables configVariables
            t))))).writeFile cmakeListsPath (FileData.text
        (updateCmakeExtraText configExtra
          (updateCmakeFunctions configFunctions (updateSourceGlob
            configSourcePatterns (updateCmakeVariables configVariables
              t)))))).lookupFile cmakePresetsPath = some d := by
      rw [FS.lookupFile_writeFile_ne _ _ hne, FS.lookupFile_writeFile_ne _ _ hne]
      exact hd
    have hb2 := copyResources_lookup env _ cmakePresetsPath (by rw [hb1]; rfl)
    rw [hb1] at hb2
    have hb3 : cmakePresetsPath ∉ (copyResources env
        ((fs.writeFile cmakeListsPath (FileData.text
          (updateCmakeFunctions configFunctions (updateSourceGlob
            configSourcePatterns (updateCmakeVariables configVariables
              t))))).writeFile cmakeListsPath (FileData.text
          (updateCmakeExtraText configExtra
            (updateCmakeFunctions configFunctions (updateSourceGlob
              configSourcePatterns (updateCmakeVariables configVariables
                t))))))).2 := by
      intro hmem
      have hnone := copyResources_manifest env _ cmakePresetsPath hmem
      rw [hnone] at hb1
      exact Option.noConfusion hb1
    exact postProcess_lookup_frame pn _ _ configInjections d (by decide)
      (fun h => hpn ((List.cons.inj h).1.symm)) (by decide) (by decide)
      hb3 hb2
  · intro hpn2
    have hb1 : ((fs.writeFile cmakeListsPath (FileData.text
        (updateCmakeFunctions configFunctions (updateSourceGlob
          configSourcePatterns (updateCmakeVariables configVariables
            t))))).writeFile cmakeListsPath (FileData.text
        (updateCmakeExtraText configExtra
          (updateCmakeFunctions configFunctions (updateSourceGlob
            configSourcePatterns (updateCmakeVariables configVariables
              t)))))).lookupFile cmakeListsPath = some (FileData.text
        (updateCmakeExtraText configExtra
          (updateCmakeFunctions configFunctions (updateSourceGlob
            configSourcePatterns (updateCmakeVariables configVariables
              t))))) :=
      FS.lookupFile_writeFile_self _ _ _
    have hb2 := copyResources_lookup env _ cmakeListsPath (by rw [hb1]; rfl)
    rw [hb1] at hb2
    have hb3 : cmakeListsPath ∉ (copyResources env
        ((fs.writeFile cmakeListsPath (FileData.text
          (updateCmakeFunctions configFunctions (updateSourceGlob
            configSourcePatterns (updateCmakeVariables configVariables
              t))))).writeFile cmakeListsPath (FileData.text
          (updateCmakeExtraText configExtra
            (updateCmakeFunctions configFunctions (updateSourceGlob
              configSourcePatterns (updateCmakeVariables configVariables
                t))))))).2 := by
      intro hmem
      have hnone := copyResources_manifest env _ cmakeListsPath hmem
      rw [hnone] at hb1
      exact Option.noConfusion hb1
    exact postProcess_lookup_frame pn _ _ configInjections _ (by decide)
      (fun h => hpn2 ((List.cons.inj h).1.symm)) (by decide) (by decide)
      hb3 hb2

end Cubepp

namespace Cubepp

theorem presets_untouched_without_profiles_witness :
    ∃ out, run (fun c => c) [none] "blinky" ["turbo"]
        (FS.mk [(["CMakeLists.txt"], FileData.text "x".toList),
                (["CMakePresets.json"], FileData.text "p".toList)] [])
        = Except.ok out ∧
      run (fun _ => []) [none] "blinky" ["turbo"]
        (FS.mk [(["CMakeLists.txt"], FileData.text "x".toList),
                (["CMakePresets.json"], FileData.text "p".toList)] [])
        = Except.ok out ∧
      (∀ d, (FS.mk [(["CMakeLists.txt"], FileData.text "x".toList),
                (["CMakePresets.json"], FileData.text "p".toList)]
          []).lookupFile cmakePresetsPath = some d →
        out.lookupFile cmakePresetsPath = some d) ∧
      ("blinky" ≠ "CMakeLists.txt" →
        out.lookupFile cmakeListsPath = some (FileData.text
          (updateCmakeExtraText configExtra
            (updateCmakeFunctions configFunctions (updateSourceGlob
              configSourcePatterns (updateCmakeVariables configVariables
                "x".toList)))))) :=
  presets_untouched_without_profiles (fun c => c) (fun _ => []) [none]
    "blinky" ["turbo"]
    (FS.mk [(["CMakeLists.txt"], FileData.text "x".toList),
            (["CMakePresets.json"], FileData.text "p".toList)] [])
    "x".toList
    (by intro p hp; rw [List.mem_singleton] at hp; subst hp; rfl)
    (by decide) (by decide)

end Cubepp

namespace Cubepp

/-! ### Idempotence of the Variable Upsert Engine (single variable)

Hygiene of a configured variable: a nonempty name without whitespace or
parentheses (so the escaped name cannot collide with the pattern's
metastructure) and a nonempty value without `)` (a `)` in the value would
re-open the statement on the next pass). -/

def saneVar (nv : VarDef) : Bool :=
  decide (nv.name ≠ []) &&
  nv.name.all (fun c => !(isPySpace c) && decide (c ≠ '(') && decide (c ≠ ')')) &&
  decide (nv.value ≠ []) &&
  nv.value.all (fun c => decide (c ≠ ')'))

theorem saneVar_spec {nv : VarDef} (h : saneVar nv = true) :
    nv.name ≠ [] ∧ (∀ c ∈ nv.name, isPySpace c = false ∧ c ≠ '(' ∧ c ≠ ')') ∧
    nv.value ≠ [] ∧ (∀ c ∈ nv.value, c ≠ ')') := by
  unfold saneVar at h
  simp only [Bool.and_eq_true, List.all_eq_true, decide_eq_true_eq,
    Bool.not_eq_true'] at h
  exact ⟨h.1.1.1, fun c hc => ⟨(h.1.1.2 c hc).1.1, (h.1.1.2 c hc).1.2,
    (h.1.1.2 c hc).2⟩, h.1.2, h.2⟩

theorem varLit_no_paren {nv : VarDef} (h : saneVar nv = true) :
    ∀ c ∈ varLit nv, c ≠ ')' := by
  intro c hc
  unfold varLit at hc
  rcases List.mem_append.mp hc with hc | hc
  · have hc2 : c ∈ (['s', 'e', 't', '('] : List Char) := hc
    rcases List.mem_cons.mp hc2 with h1 | hc2
    · rw [h1]; decide
    rcases List.mem_cons.mp hc2 with h1 | hc2
    · rw [h1]; decide
    rcases List.mem_cons.mp hc2 with h1 | hc2
    · rw [h1]; decide
    rcases List.mem_cons.mp hc2 with h1 | hc2
    · rw [h1]; decide
    · exact absurd hc2 (List.not_mem_nil c)
  · exact ((saneVar_spec h).2.1 c hc).2.2

theorem varLit_no_nl {nv : VarDef} (h : saneVar nv = true) :
    ∀ c ∈ varLit nv, c ≠ '\n' := by
  intro c hc
  unfold varLit at hc
  rcases List.mem_append.mp hc with hc | hc
  · have hc2 : c ∈ (['s', 'e', 't', '('] : List Char) := hc
    rcases List.mem_cons.mp hc2 with h1 | hc2
    · rw [h1]; decide
    rcases List.mem_cons.mp hc2 with h1 | hc2
    · rw [h1]; decide
    rcases List.mem_cons.mp hc2 with h1 | hc2
    · rw [h1]; decide
    rcases List.mem_cons.mp hc2 with h1 | hc2
    · rw [h1]; decide
    · exact absurd hc2 (List.not_mem_nil c)
  · intro hcontra
    have := ((saneVar_spec h).2.1 c hc).1
    rw [hcontra] at this
    exact absurd this (by decide)

theorem varLit_head (nv : VarDef) : ∃ u, varLit nv = 's' :: u := by
  exact ⟨"et(".toList ++ nv.name, rfl⟩

theorem canonicalVar_eq (nv : VarDef) :
    canonicalVar nv = varLit nv ++ (' ' :: nv.value) ++ ')' :: [] := by
  unfold canonicalVar
  simp

theorem canonicalVar_length (nv : VarDef) :
    (canonicalVar nv).length = (varLit nv).length + nv.value.length + 2 := by
  unfold canonicalVar
  simp
  omega

theorem takeWhile_eq_of_append {α : Type} {p : α → Bool} {a : List α}
    {b : α} {r : List α} (ha : ∀ c ∈ a, p c = true) (hb : p b = false) :
    ((a ++ b :: r).takeWhile p) = a := by
  induction a with
  | nil => simp [List.takeWhile_cons, hb]
  | cons x xs ih =>
    have hx : p x = true := ha x (by simp)
    rw [List.cons_append, List.takeWhile_cons, if_pos hx,
      ih (fun c hc => ha c (by simp [hc]))]

theorem dropWhile_head_false {α : Type} (p : α → Bool) :
    ∀ (l : List α) {c : α} {cs : List α}, l.dropWhile p = c :: cs → p c = false := by
  intro l
  induction l with
  | nil => intro c cs h; exact absurd h (by simp)
  | cons x xs ih =>
    intro c cs h
    rw [List.dropWhile_cons] at h
    by_cases hx : p x = true
    · rw [if_pos hx] at h
      exact ih h
    · rw [if_neg hx] at h
      have : x = c := (List.cons.inj h).1
      rw [← this]
      exact Bool.eq_false_iff.mpr hx

theorem matchVarAt_build {nv : VarDef} {w : Char} {ws rest : List Char}
    (hw : isPySpace w = true) (hws : ws ≠ [])
    (hnp : ∀ c ∈ w :: ws, c ≠ ')') :
    matchVarAt nv (varLit nv ++ (w :: ws) ++ ')' :: rest)
      = some ((varLit nv).length + (w :: ws).length + 1) := by
  have htw : ((w :: ws) ++ ')' :: rest).takeWhile (fun c => decide (c ≠ ')'))
      = w :: ws :=
    takeWhile_eq_of_append (fun c hc => by simp [hnp c hc]) (by simp)
  unfold matchVarAt
  rw [show varLit nv ++ (w :: ws) ++ ')' :: rest
      = varLit nv ++ ((w :: ws) ++ ')' :: rest) by simp,
    stripPre_append]
  simp only [htw]
  rw [if_pos]
  refine ⟨hw, hws, ?_⟩
  simp

theorem matchVarAt_dest {nv : VarDef} {s : List Char} {n : Nat}
    (h : matchVarAt nv s = some n) :
    ∃ w ws rest, s = varLit nv ++ (w :: ws) ++ ')' :: rest
      ∧ isPySpace w = true ∧ ws ≠ [] ∧ (∀ c ∈ w :: ws, c ≠ ')')
      ∧ n = (varLit nv).length + (w :: ws).length + 1 := by
  unfold matchVarAt at h
  split at h
  · exact absurd h (by simp)
  rename_i r hp
  split at h
  · exact absurd h (by simp)
  rename_i w ws hr
  split at h
  case _ hcond =>
    simp only [Option.some.injEq] at h
    obtain ⟨hw, hws, hlt⟩ := hcond
    have h1 := stripPre_eq_some.mp hp
    have h2 := takeWhile_decomp (fun c => decide (c ≠ ')')) r
    rw [hr] at h2
    have hnp : ∀ c ∈ w :: ws, c ≠ ')' := by
      intro c hc
      have hc' : c ∈ r.takeWhile (fun c => decide (c ≠ ')')) := by
        rw [hr]; exact hc
      have := List.mem_takeWhile_imp hc'
      simpa using this
    have hd : ∃ c' cs', r.drop (w :: ws).length = c' :: cs' := by
      cases hdd : r.drop (w :: ws).length with
      | nil =>
        exfalso
        have : r.length ≤ (w :: ws).length := by
          have := congrArg List.length hdd
          simp only [List.length_drop, List.length_nil] at this
          omega
        omega
      | cons c' cs' => exact ⟨c', cs', rfl⟩
    obtain ⟨c', cs', hdd⟩ := hd
    have hc' : c' = ')' := by
      have hfalse : (fun c => decide (c ≠ ')')) c' = false := by
        apply dropWhile_head_false (fun c => decide (c ≠ ')')) r
        rw [dropWhile_eq_drop_len, hr, hdd]
      simpa using hfalse
    refine ⟨w, ws, cs', ?_, hw, hws, hnp, ?_⟩
    · rw [h1, h2, hdd, hc']
      simp
    · rw [← h]
  case _ => exact absurd h (by simp)

theorem matchVarAt_canonical {nv : VarDef} (h : saneVar nv = true)
    (X : List Char) :
    matchVarAt nv (canonicalVar nv ++ X) = some (canonicalVar nv).length := by
  obtain ⟨_, _, hvne, hvnp⟩ := saneVar_spec h
  have he : canonicalVar nv ++ X = varLit nv ++ (' ' :: nv.value) ++ ')' :: X := by
    rw [canonicalVar_eq]
    simp
  rw [he, matchVarAt_build (by decide) hvne
    (by
      intro c hc
      rcases List.mem_cons.mp hc with hc | hc
      · rw [hc]; decide
      · exact hvnp c hc)]
  rw [canonicalVar_length]
  simp
  omega

theorem matchVarAt_bound {nv : VarDef} {s : List Char} {n : Nat}
    (h : matchVarAt nv s = some n) : 1 ≤ n ∧ n ≤ s.length := by
  obtain ⟨w, ws, rest, hs, _, _, _, hn⟩ := matchVarAt_dest h
  have hlen := congrArg List.length hs
  simp only [List.length_append, List.length_cons] at hlen hn
  exact ⟨by omega, by omega⟩

theorem matchVarAt_nil (nv : VarDef) : matchVarAt nv [] = none := by
  unfold matchVarAt
  obtain ⟨u, hu⟩ := varLit_head nv
  rw [hu]
  rfl

end Cubepp

namespace Cubepp

theorem subVarFuel_congr (nv : VarDef) : ∀ (f1 f2 : Nat) (s : List Char),
    s.length ≤ f1 → s.length ≤ f2 → subVarFuel nv f1 s = subVarFuel nv f2 s := by
  intro f1
  induction f1 with
  | zero =>
    intro f2 s h1 _
    have : s = [] := List.length_eq_zero.mp (Nat.le_zero.mp h1)
    subst this
    cases f2 with
    | zero => rfl
    | succ b => simp [subVarFuel, matchVarAt_nil]
  | succ a ih =>
    intro f2 s h1 h2
    cases f2 with
    | zero =>
      have : s = [] := List.length_eq_zero.mp (Nat.le_zero.mp h2)
      subst this
      simp [subVarFuel, matchVarAt_nil]
    | succ b =>
      unfold subVarFuel
      cases hm : matchVarAt nv s with
      | some n =>
        have hb := matchVarAt_bound hm
        show canonicalVar nv ++ subVarFuel nv a (s.drop n)
          = canonicalVar nv ++ subVarFuel nv b (s.drop n)
        rw [ih b (s.drop n) (by simp only [List.length_drop]; omega)
          (by simp only [List.length_drop]; omega)]
      | none =>
        cases s with
        | nil => rfl
        | cons c cs =>
          show c :: subVarFuel nv a cs = c :: subVarFuel nv b cs
          rw [ih b cs (by simp at h1; omega) (by simp at h2; omega)]

theorem subVar_eq (nv : VarDef) (s : List Char) :
    subVar nv s = match matchVarAt nv s with
      | some n => canonicalVar nv ++ subVar nv (s.drop n)
      | none => match s with
        | [] => []
        | c :: cs => c :: subVar nv cs := by
  cases hm : matchVarAt nv s with
  | some n =>
    show subVar nv s = canonicalVar nv ++ subVar nv (s.drop n)
    have hb := matchVarAt_bound hm
    unfold subVar
    cases hf : s.length with
    | zero => omega
    | succ m =>
      have h1 : subVarFuel nv (m + 1) s = canonicalVar nv ++ subVarFuel nv m (s.drop n) := by
        simp [subVarFuel, hm]
      rw [h1, subVarFuel_congr nv m (s.drop n).length (s.drop n)
        (by simp only [List.length_drop]; omega) (Nat.le_refl _)]
  | none =>
    cases s with
    | nil => rfl
    | cons c cs =>
      show subVar nv (c :: cs) = c :: subVar nv cs
      unfold subVar
      have h1 : subVarFuel nv (c :: cs).length (c :: cs)
          = c :: subVarFuel nv cs.length cs := by
        show subVarFuel nv (cs.length + 1) (c :: cs) = c :: subVarFuel nv cs.length cs
        simp [subVarFuel, hm]
      rw [h1]

theorem subVar_match {nv : VarDef} {s : List Char} {n : Nat}
    (h : matchVarAt nv s = some n) :
    subVar nv s = canonicalVar nv ++ subVar nv (s.drop n) := by
  rw [subVar_eq, h]

theorem subVar_cons_none {nv : VarDef} {c : Char} {cs : List Char}
    (h : matchVarAt nv (c :: cs) = none) :
    subVar nv (c :: cs) = c :: subVar nv cs := by
  rw [subVar_eq, h]

theorem subVar_nil (nv : VarDef) : subVar nv [] = [] := rfl

theorem subVar_id_of_no_match {nv : VarDef} :
    ∀ {s : List Char}, (∀ i, matchVarAt nv (s.drop i) = none) →
    subVar nv s = s := by
  intro s
  induction s with
  | nil => intro _; rfl
  | cons c cs ih =>
    intro h
    have h0 : matchVarAt nv (c :: cs) = none := by
      have := h 0
      simpa using this
    rw [subVar_cons_none h0, ih (fun i => by
      have := h (i + 1)
      simpa using this)]

theorem hasVar_cons (nv : VarDef) (c : Char) (cs : List Char) :
    hasVar nv (c :: cs) = ((matchVarAt nv (c :: cs)).isSome || hasVar nv cs) := rfl

theorem hasVar_eq_false_iff {nv : VarDef} : ∀ {s : List Char},
    hasVar nv s = false ↔ ∀ i, matchVarAt nv (s.drop i) = none := by
  intro s
  induction s with
  | nil =>
    simp only [hasVar]
    constructor
    · intro _ i
      simp [matchVarAt_nil]
    · intro _; trivial
  | cons c cs ih =>
    rw [hasVar_cons]
    simp only [Bool.or_eq_false_iff]
    constructor
    · intro ⟨h1, h2⟩ i
      cases i with
      | zero =>
        simp only [List.drop_zero]
        cases hm : matchVarAt nv (c :: cs) with
        | none => rfl
        | some n => rw [hm] at h1; exact absurd h1 (by simp)
      | succ j =>
        simp only [List.drop_succ_cons]
        exact ih.mp h2 j
    · intro h
      constructor
      · have := h 0
        simp only [List.drop_zero] at this
        rw [this]
        rfl
      · exact ih.mpr (fun i => by
          have := h (i + 1)
          simpa using this)

theorem hasVar_append_canonical {nv : VarDef} (h : saneVar nv = true)
    (x y : List Char) : hasVar nv (x ++ canonicalVar nv ++ y) = true := by
  induction x with
  | nil =>
    have hne : canonicalVar nv ++ y ≠ [] := by
      rw [canonicalVar_eq]
      simp
    cases hcy : canonicalVar nv ++ y with
    | nil => exact absurd hcy hne
    | cons c cs =>
      have h1 : hasVar nv (canonicalVar nv ++ y) = hasVar nv (c :: cs) := by
        rw [hcy]
      simp only [List.nil_append]
      rw [h1, hasVar_cons, ← hcy, matchVarAt_canonical h]
      rfl
  | cons a x ih =>
    have : (a :: x) ++ canonicalVar nv ++ y = a :: (x ++ canonicalVar nv ++ y) := by
      simp
    rw [this, hasVar_cons, ih]
    simp

theorem subVar_decomp (nv : VarDef) : ∀ (s : List Char),
    (∀ i, matchVarAt nv (s.drop i) = none) ∨
    ∃ k n, (∀ i < k, matchVarAt nv (s.drop i) = none) ∧
      matchVarAt nv (s.drop k) = some n ∧
      subVar nv s = s.take k ++ canonicalVar nv ++ subVar nv ((s.drop k).drop n) := by
  intro s
  induction s with
  | nil => exact Or.inl (fun i => by simp [matchVarAt_nil])
  | cons c cs ih =>
    cases hm : matchVarAt nv (c :: cs) with
    | some n =>
      refine Or.inr ⟨0, n, fun i hi => absurd hi (by omega), by simpa using hm, ?_⟩
      rw [subVar_match hm]
      simp
    | none =>
      rcases ih with hL | ⟨k, n, hks, hkm, hdec⟩
      · refine Or.inl ?_
        intro i
        cases i with
        | zero => simpa using hm
        | succ j => simpa using hL j
      · refine Or.inr ⟨k + 1, n, ?_, by simpa using hkm, ?_⟩
        · intro i hi
          cases i with
          | zero => simpa using hm
          | succ j => simpa using hks j (by omega)
        · rw [subVar_cons_none hm, hdec]
          simp

theorem eq_append_paren_free : ∀ {a1 : List Char} {b1 a2 b2 : List Char},
    a1 ++ ')' :: b1 = a2 ++ ')' :: b2 → (∀ c ∈ a1, c ≠ ')') →
    (∀ c ∈ a2, c ≠ ')') → a1 = a2 ∧ b1 = b2 := by
  intro a1
  induction a1 with
  | nil =>
    intro b1 a2 b2 heq h1 h2
    cases a2 with
    | nil =>
      simp only [List.nil_append] at heq
      exact ⟨rfl, (List.cons.inj heq).2⟩
    | cons c a2' =>
      exfalso
      simp only [List.nil_append, List.cons_append] at heq
      have : ')' = c := (List.cons.inj heq).1
      exact h2 c (by simp) this.symm
  | cons c a1' ih =>
    intro b1 a2 b2 heq h1 h2
    cases a2 with
    | nil =>
      exfalso
      simp only [List.nil_append, List.cons_append] at heq
      have : c = ')' := (List.cons.inj heq).1
      exact h1 c (by simp) this
    | cons d a2' =>
      simp only [List.cons_append] at heq
      obtain ⟨hcd, htail⟩ := List.cons.inj heq
      obtain ⟨ha, hb⟩ := ih htail (fun x hx => h1 x (by simp [hx]))
        (fun x hx => h2 x (by simp [hx]))
      exact ⟨by rw [hcd, ha], hb⟩

theorem paren_free_prefix_le : ∀ {a1 : List Char} {b1 a2 b2 : List Char},
    a1 ++ ')' :: b1 = a2 ++ ')' :: b2 → (∀ c ∈ a1, c ≠ ')') →
    a1.length ≤ a2.length := by
  intro a1
  induction a1 with
  | nil => intro b1 a2 b2 _ _; exact Nat.zero_le _
  | cons c a1' ih =>
    intro b1 a2 b2 heq h1
    cases a2 with
    | nil =>
      exfalso
      simp only [List.nil_append, List.cons_append] at heq
      have : c = ')' := (List.cons.inj heq).1
      exact h1 c (by simp) this
    | cons d a2' =>
      simp only [List.cons_append] at heq
      have := ih (List.cons.inj heq).2 (fun x hx => h1 x (by simp [hx]))
      simp only [List.length_cons]
      omega

end Cubepp

namespace Cubepp

/-- The crux of idempotence: a position where the variable pattern does not
match still has no match after the tail has been rewritten.  (A match in
the rewritten string either lies inside the preserved prefix — hence was
already a match — or runs into the first canonical replacement, in which
case the original string matched there too, because the replaced statement
opened with the same literal and anything `)`-free before it stays
`)`-free.) -/
theorem matchVarAt_subVar_none {nv : VarDef} (hsane : saneVar nv = true)
    {c : Char} {cs : List Char}
    (h : matchVarAt nv (c :: cs) = none) :
    matchVarAt nv (c :: subVar nv cs) = none := by
  obtain ⟨hnne, hnchar, hvne, hvnp⟩ := saneVar_spec hsane
  cases hms : matchVarAt nv (c :: subVar nv cs) with
  | none => rfl
  | some n =>
    exfalso
    obtain ⟨w, ws, rest, h2eq, hw, hws, hnp, hn⟩ := matchVarAt_dest hms
    rcases subVar_decomp nv cs with hL | ⟨k, m, hks, hkm, hdec⟩
    · have hid : subVar nv cs = cs := subVar_id_of_no_match hL
      rw [hid] at hms
      rw [hms] at h
      exact Option.noConfusion h
    · obtain ⟨wM, wsM, restM, hMeq, hwM, hwsM, hnpM, hm⟩ := matchVarAt_dest hkm
      have hs1 : c :: cs
          = (c :: cs.take k) ++ (varLit nv ++ (wM :: wsM) ++ ')' :: restM) := by
        rw [List.cons_append]
        congr 1
        rw [← hMeq]
        exact (List.take_append_drop k cs).symm
      have hdropm : (cs.drop k).drop m = restM := by
        rw [hMeq, hm]
        rw [show varLit nv ++ (wM :: wsM) ++ ')' :: restM
            = (varLit nv ++ (wM :: wsM) ++ [')']) ++ restM by simp]
        apply drop_len_append_eq
        simp
        omega
      have hs2 : c :: subVar nv cs
          = (c :: cs.take k)
            ++ (varLit nv ++ (' ' :: nv.value) ++ ')' :: subVar nv restM) := by
        rw [hdec, hdropm, canonicalVar_eq]
        simp
      have heqs : (c :: cs.take k)
            ++ (varLit nv ++ (' ' :: nv.value) ++ ')' :: subVar nv restM)
          = varLit nv ++ (w :: ws) ++ ')' :: rest := hs2.symm.trans h2eq
      have ha1 : 1 ≤ (c :: cs.take k).length := by simp
      -- shared prefix facts
      have hs2assoc : (c :: cs.take k)
            ++ (varLit nv ++ (' ' :: nv.value) ++ ')' :: subVar nv restM)
          = ((c :: cs.take k) ++ varLit nv)
            ++ ((' ' :: nv.value) ++ ')' :: subVar nv restM) := by simp
      have hs1assoc : c :: cs
          = ((c :: cs.take k) ++ varLit nv) ++ ((wM :: wsM) ++ ')' :: restM) := by
        rw [hs1]; simp
      have htakeAL : (varLit nv ++ (w :: ws) ++ ')' :: rest).take
            ((c :: cs.take k) ++ varLit nv).length
          = (c :: cs.take k) ++ varLit nv := by
        rw [← heqs, hs2assoc]
        exact take_len_append_eq _ rfl
      have htakeL : (varLit nv ++ (w :: ws) ++ ')' :: rest).take
            (varLit nv).length = varLit nv := by
        rw [show varLit nv ++ (w :: ws) ++ ')' :: rest
            = varLit nv ++ ((w :: ws) ++ ')' :: rest) by simp]
        exact take_len_append_eq _ rfl
      by_cases hcase : n ≤ ((c :: cs.take k) ++ varLit nv).length
      · -- the whole match lies inside the shared prefix
        have hPlen : (varLit nv ++ (w :: ws) ++ [')']).length = n := by
          simp only [List.length_append, List.length_cons]
          simp at hn ⊢
          omega
        have htaken : (varLit nv ++ (w :: ws) ++ ')' :: rest).take n
            = varLit nv ++ (w :: ws) ++ [')'] := by
          rw [show varLit nv ++ (w :: ws) ++ ')' :: rest
              = (varLit nv ++ (w :: ws) ++ [')']) ++ rest by simp]
          exact take_len_append_eq _ hPlen
        have hs1taken : (c :: cs).take n = varLit nv ++ (w :: ws) ++ [')'] := by
          have e1 : (c :: cs).take ((c :: cs.take k) ++ varLit nv).length
              = (c :: cs.take k) ++ varLit nv := by
            rw [hs1assoc]
            exact take_len_append_eq _ rfl
          calc (c :: cs).take n
              = ((c :: cs).take ((c :: cs.take k) ++ varLit nv).length).take n := by
                rw [List.take_take, Nat.min_eq_left hcase]
            _ = ((varLit nv ++ (w :: ws) ++ ')' :: rest).take
                  ((c :: cs.take k) ++ varLit nv).length).take n := by
                rw [e1, htakeAL]
            _ = (varLit nv ++ (w :: ws) ++ ')' :: rest).take n := by
                rw [List.take_take, Nat.min_eq_left hcase]
            _ = varLit nv ++ (w :: ws) ++ [')'] := htaken
        have hs1dec : c :: cs
            = varLit nv ++ (w :: ws) ++ ')' :: (c :: cs).drop n := by
          conv_lhs => rw [← List.take_append_drop n (c :: cs), hs1taken]
          simp
        have := @matchVarAt_build nv w ws ((c :: cs).drop n) hw hws hnp
        rw [← hs1dec] at this
        rw [this] at h
        exact Option.noConfusion h
      · -- the match runs into the canonical replacement
        have hlenws : (c :: cs.take k).length ≤ (w :: ws).length := by
          simp only [List.length_append] at hcase
          simp only [List.length_cons] at hn hcase ⊢
          omega
        -- drop the literal from both sides of heqs
        have hdropL : ((c :: cs.take k) ++ varLit nv).drop (varLit nv).length
              ++ ((' ' :: nv.value) ++ ')' :: subVar nv restM)
            = (w :: ws) ++ ')' :: rest := by
          have e1 := congrArg (List.drop (varLit nv).length) heqs
          rw [hs2assoc] at e1
          rw [List.drop_append_eq_append_drop] at e1
          rw [show (varLit nv).length - ((c :: cs.take k) ++ varLit nv).length
              = 0 by simp; omega] at e1
          simp only [List.drop_zero] at e1
          rw [e1]
          rw [show varLit nv ++ (w :: ws) ++ ')' :: rest
              = varLit nv ++ ((w :: ws) ++ ')' :: rest) by simp]
          exact drop_len_append_eq _ rfl
        have hmidlen : (((c :: cs.take k) ++ varLit nv).drop (varLit nv).length).length
            = (c :: cs.take k).length := by
          simp only [List.length_drop, List.length_append]
          omega
        -- mid = (w :: ws).take a
        have hmid : ((c :: cs.take k) ++ varLit nv).drop (varLit nv).length
            = (w :: ws).take (c :: cs.take k).length := by
          have e1 := congrArg (List.take (c :: cs.take k).length) hdropL
          rw [take_len_append_eq _ hmidlen] at e1
          rw [List.take_append_eq_append_take] at e1
          rw [show (c :: cs.take k).length - (w :: ws).length = 0 by omega] at e1
          simp only [List.take_zero, List.append_nil] at e1
          exact e1
        have hdropA : (' ' :: nv.value) ++ ')' :: subVar nv restM
            = (w :: ws).drop (c :: cs.take k).length ++ ')' :: rest := by
          have e1 := congrArg (List.drop (c :: cs.take k).length) hdropL
          rw [drop_len_append_eq _ hmidlen] at e1
          rw [List.drop_append_eq_append_drop] at e1
          rw [show (c :: cs.take k).length - (w :: ws).length = 0 by omega] at e1
          simp only [List.drop_zero] at e1
          exact e1
        obtain ⟨hvals, _⟩ := eq_append_paren_free hdropA
          (by
            intro x hx
            rcases List.mem_cons.mp hx with hx | hx
            · rw [hx]; decide
            · exact hvnp x hx)
          (fun x hx => hnp x (List.mem_of_mem_drop hx))
        -- rebuild a match of the original string at this position
        have hAvL : (c :: cs.take k) ++ varLit nv
            = varLit nv ++ (w :: ws).take (c :: cs.take k).length := by
          conv_lhs => rw [← List.take_append_drop (varLit nv).length
            ((c :: cs.take k) ++ varLit nv)]
          rw [hmid]
          congr 1
          have e1 : ((c :: cs.take k) ++ varLit nv).take (varLit nv).length
              = ((varLit nv ++ (w :: ws) ++ ')' :: rest).take
                  ((c :: cs.take k) ++ varLit nv).length).take (varLit nv).length := by
            rw [htakeAL]
          rw [e1, List.take_take, Nat.min_eq_left (by
            simp only [List.length_append, List.length_cons, List.length_take]
            omega)]
          exact htakeL
        obtain ⟨a', ha'⟩ : ∃ a', (c :: cs.take k).length = a' + 1 :=
          ⟨(cs.take k).length, by simp⟩
        have hmidcons : (w :: ws).take (c :: cs.take k).length
            = w :: ws.take a' := by
          rw [ha']
          rfl
        have hs1fin : c :: cs
            = varLit nv ++ (w :: (ws.take a' ++ wM :: wsM)) ++ ')' :: restM := by
          rw [hs1assoc, hAvL, hmidcons]
          simp
        have hbuild := @matchVarAt_build nv w (ws.take a' ++ wM :: wsM) restM hw
          (show ws.take a' ++ wM :: wsM ≠ [] by simp)
          (by
            intro x hx
            rcases List.mem_cons.mp hx with hx | hx
            · exact hnp x (by simp [hx])
            rcases List.mem_append.mp hx with hx | hx
            · exact hnp x (by
                have := List.mem_of_mem_take hx
                simp [this])
            · exact hnpM x hx)
        rw [← hs1fin] at hbuild
        rw [hbuild] at h
        exact Option.noConfusion h

end Cubepp

namespace Cubepp

theorem subVar_canonical_prefix {nv : VarDef} (h : saneVar nv = true)
    (X : List Char) :
    subVar nv (canonicalVar nv ++ X) = canonicalVar nv ++ subVar nv X := by
  rw [subVar_match (matchVarAt_canonical h X),
    drop_len_append_eq _ rfl]

theorem subVar_idem {nv : VarDef} (h : saneVar nv = true) :
    ∀ (s : List Char), subVar nv (subVar nv s) = subVar nv s := by
  have H : ∀ (N : Nat) (s : List Char), s.length ≤ N →
      subVar nv (subVar nv s) = subVar nv s := by
    intro N
    induction N with
    | zero =>
      intro s hlen
      have : s = [] := List.length_eq_zero.mp (Nat.le_zero.mp hlen)
      subst this
      rfl
    | succ N ih =>
      intro s hlen
      cases hm : matchVarAt nv s with
      | some n =>
        have hb := matchVarAt_bound hm
        rw [subVar_match hm, subVar_canonical_prefix h]
        congr 1
        exact ih (s.drop n) (by simp only [List.length_drop]; omega)
      | none =>
        cases s with
        | nil => rfl
        | cons c cs =>
          rw [subVar_cons_none hm,
            subVar_cons_none (matchVarAt_subVar_none h hm),
            ih cs (by simp at hlen; omega)]
  intro s
  exact H s.length s (Nat.le_refl _)

theorem subVar_append_of_no_match_pre {nv : VarDef} :
    ∀ {A X : List Char},
      (∀ i < A.length, matchVarAt nv (A.drop i ++ X) = none) →
      subVar nv (A ++ X) = A ++ subVar nv X := by
  intro A
  induction A with
  | nil => intro X _; simp
  | cons a A' ih =>
    intro X hA
    have h0 : matchVarAt nv (a :: (A' ++ X)) = none := by
      have := hA 0 (by simp)
      simpa using this
    rw [show (a :: A') ++ X = a :: (A' ++ X) by simp,
      subVar_cons_none h0,
      ih (fun i hi => by
        have := hA (i + 1) (by simp; omega)
        simpa using this)]
    simp

theorem matchVarAt_head_not_s {nv : VarDef} {c : Char} {x : List Char}
    (hc : c ≠ 's') : matchVarAt nv (c :: x) = none := by
  cases hm : matchVarAt nv (c :: x) with
  | none => rfl
  | some n =>
    exfalso
    obtain ⟨w, ws, rest, heq, _, _, _, _⟩ := matchVarAt_dest hm
    obtain ⟨u, hu⟩ := varLit_head nv
    rw [hu] at heq
    simp only [List.cons_append] at heq
    exact hc (List.cons.inj heq).1

end Cubepp

namespace Cubepp

theorem stmtChain_ends {run : List Char} (h : StmtChain run) (hne : run ≠ []) :
    ∃ r', run = r' ++ [')', '\n'] := by
  induction h with
  | nil => exact absurd rfl hne
  | @cons u rest hu hrest ih =>
    obtain ⟨body, hbne, hbnp, hueq⟩ := hu
    by_cases hre : rest = []
    · subst hre
      refine ⟨"set(".toList ++ body, ?_⟩
      rw [hueq]
      simp
    · obtain ⟨r', hr'⟩ := ih hre
      refine ⟨u ++ r', ?_⟩
      rw [hr']
      simp

/-- Safety of the anchor insertion point: it is immediately preceded by
`)\n` (the end of the last statement of the anchor run), so no variable
match can start inside the prefix and leak into the inserted canonical
statement — any such match would already have been a match of the original
string. -/
theorem anchor_prefix_no_match {nv : VarDef} (hsane : saneVar nv = true)
    {s : List Char} {p : Nat} (hp : anchorInsertPos s = some p)
    (hv : hasVar nv s = false) :
    ∀ i < (s.take p).length,
      matchVarAt nv ((s.take p).drop i
        ++ (canonicalVar nv ++ '\n' :: s.drop p)) = none := by
  obtain ⟨a, mid, run, rest, e1, e2, e3, e4, _, _⟩ := anchorInsertPos_spec hp
  have hnomatch := hasVar_eq_false_iff.mp hv
  obtain ⟨r', hr'⟩ := stmtChain_ends e4 e3
  have htakeA : s.take p = (a ++ anchorHeader ++ mid ++ r') ++ [')', '\n'] := by
    rw [e1, show a ++ anchorHeader ++ mid ++ run ++ rest
        = (a ++ anchorHeader ++ mid ++ run) ++ rest by simp]
    rw [take_len_append_eq _ (by
      simp only [List.length_append]
      omega)]
    rw [hr']
    simp
  intro i hi
  have hilen : i < (a ++ anchorHeader ++ mid ++ r').length + 2 := by
    rw [htakeA] at hi
    simp only [List.length_append, List.length_cons, List.length_nil] at hi ⊢
    omega
  by_cases hi0 : i < (a ++ anchorHeader ++ mid ++ r').length
  · -- the suffix still contains the closing `)\n`
    have hdropA : (s.take p).drop i
        = (a ++ anchorHeader ++ mid ++ r').drop i ++ [')', '\n'] := by
      rw [htakeA, List.drop_append_eq_append_drop,
        show i - (a ++ anchorHeader ++ mid ++ r').length = 0 by omega]
      rfl
    cases hmm : matchVarAt nv ((s.take p).drop i
        ++ (canonicalVar nv ++ '\n' :: s.drop p)) with
    | none => rfl
    | some n =>
      exfalso
      obtain ⟨w, ws, rest2, heq, hw, hws, hnp, hn⟩ := matchVarAt_dest hmm
      rw [hdropA] at heq
      have heq3 : (varLit nv ++ (w :: ws)) ++ ')' :: rest2
          = ((a ++ anchorHeader ++ mid ++ r').drop i)
            ++ ')' :: ('\n' :: (canonicalVar nv ++ '\n' :: s.drop p)) := by
        simpa using heq.symm
      have hle : (varLit nv ++ (w :: ws)).length
          ≤ ((a ++ anchorHeader ++ mid ++ r').drop i).length :=
        paren_free_prefix_le heq3 (by
          intro x hx
          rcases List.mem_append.mp hx with hx | hx
          · exact varLit_no_paren hsane x hx
          · exact hnp x hx)
      have heq2 : (varLit nv ++ (w :: ws) ++ [')']) ++ rest2
          = ((a ++ anchorHeader ++ mid ++ r').drop i ++ [')'])
            ++ '\n' :: (canonicalVar nv ++ '\n' :: s.drop p) := by
        simpa using heq.symm
      have hPpre : (varLit nv ++ (w :: ws) ++ [')'])
          = (((a ++ anchorHeader ++ mid ++ r').drop i ++ [')'])).take
              ((varLit nv ++ (w :: ws) ++ [')']).length) := by
        have e5 := congrArg
          (List.take ((varLit nv ++ (w :: ws) ++ [')']).length)) heq2
        rw [take_len_append_eq _ rfl] at e5
        rw [List.take_append_eq_append_take,
          show (varLit nv ++ (w :: ws) ++ [')']).length
              - ((a ++ anchorHeader ++ mid ++ r').drop i ++ [')']).length = 0 by
            simp only [List.length_append, List.length_cons, List.length_nil]
            simp only [List.length_append, List.length_cons] at hle
            omega] at e5
        simp only [List.take_zero, List.append_nil] at e5
        exact e5
      have hsdropi : s.drop i = (s.take p).drop i ++ s.drop p := by
        conv_lhs => rw [← List.take_append_drop p s]
        rw [List.drop_append_eq_append_drop]
        rw [show i - (s.take p).length = 0 by omega]
        rfl
      have hfinal : s.drop i = varLit nv ++ (w :: ws)
          ++ ')' :: ((((a ++ anchorHeader ++ mid ++ r').drop i ++ [')'])).drop
              ((varLit nv ++ (w :: ws) ++ [')']).length) ++ '\n' :: s.drop p) := by
        rw [hsdropi, hdropA]
        rw [show (a ++ anchorHeader ++ mid ++ r').drop i ++ [')', '\n']
            = ((a ++ anchorHeader ++ mid ++ r').drop i ++ [')']) ++ ['\n'] by simp]
        conv_lhs => rw [← List.take_append_drop
          ((varLit nv ++ (w :: ws) ++ [')']).length)
          ((a ++ anchorHeader ++ mid ++ r').drop i ++ [')']), ← hPpre]
        simp
      have := @matchVarAt_build nv w ws
        ((((a ++ anchorHeader ++ mid ++ r').drop i ++ [')'])).drop
          ((varLit nv ++ (w :: ws) ++ [')']).length) ++ '\n' :: s.drop p)
        hw hws hnp
      have hcontra := hnomatch i
      rw [hfinal, this] at hcontra
      exact Option.noConfusion hcontra
  · -- only `)\n` (or `\n`) is left of the insertion point
    by_cases hieq : i = (a ++ anchorHeader ++ mid ++ r').length
    · have hdA : (s.take p).drop i = [')', '\n'] := by
        rw [htakeA, hieq, show a ++ anchorHeader ++ mid ++ r' ++ [')', '\n']
            = (a ++ anchorHeader ++ mid ++ r') ++ [')', '\n'] by simp]
        exact drop_len_append_eq _ rfl
      rw [hdA, show ([')', '\n'] : List Char)
            ++ (canonicalVar nv ++ '\n' :: s.drop p)
          = ')' :: ('\n' :: (canonicalVar nv ++ '\n' :: s.drop p)) by simp]
      exact matchVarAt_head_not_s (by decide)
    · have hieq2 : i = (a ++ anchorHeader ++ mid ++ r').length + 1 := by omega
      have hdA : (s.take p).drop i = ['\n'] := by
        rw [htakeA, hieq2, show a ++ anchorHeader ++ mid ++ r' ++ [')', '\n']
            = ((a ++ anchorHeader ++ mid ++ r') ++ [')']) ++ ['\n'] by simp]
        exact drop_len_append_eq _ (by simp; omega)
      rw [hdA, show (['\n'] : List Char)
            ++ (canonicalVar nv ++ '\n' :: s.drop p)
          = '\n' :: (canonicalVar nv ++ '\n' :: s.drop p) by simp]
      exact matchVarAt_head_not_s (by decide)

end Cubepp

namespace Cubepp

theorem upsertVar_idem {nv : VarDef} (hsane : saneVar nv = true)
    (s : List Char) : upsertVar (upsertVar s nv) nv = upsertVar s nv := by
  by_cases hv : hasVar nv s = true
  · have h1 : upsertVar s nv = subVar nv s := by
      unfold upsertVar
      rw [if_pos hv]
    rw [h1]
    have hv2 : hasVar nv (subVar nv s) = true := by
      rcases subVar_decomp nv s with hL | ⟨k, n, _, _, hdec⟩
      · exfalso
        have hfalse := hasVar_eq_false_iff.mpr hL
        rw [hv] at hfalse
        exact Bool.noConfusion hfalse
      · rw [hdec]
        rw [show s.take k ++ canonicalVar nv
              ++ subVar nv ((s.drop k).drop n)
            = s.take k ++ canonicalVar nv
              ++ subVar nv ((s.drop k).drop n) by rfl]
        exact hasVar_append_canonical hsane _ _
    unfold upsertVar
    rw [if_pos hv2]
    exact subVar_idem hsane s
  · have hv' : hasVar nv s = false := by
      cases hhv : hasVar nv s
      · rfl
      · exact absurd hhv hv
    have hnomatch := hasVar_eq_false_iff.mp hv'
    cases hp : anchorInsertPos s with
    | some p =>
      have h1 : upsertVar s nv
          = s.take p ++ canonicalVar nv ++ '\n' :: s.drop p := by
        unfold upsertVar
        rw [if_neg (by simp [hv']), hp]
      rw [h1]
      have hvO : hasVar nv (s.take p ++ canonicalVar nv ++ '\n' :: s.drop p)
          = true := hasVar_append_canonical hsane _ _
      unfold upsertVar
      rw [if_pos hvO]
      have hsub3 : subVar nv ('\n' :: s.drop p) = '\n' :: s.drop p := by
        apply subVar_id_of_no_match
        intro i
        cases i with
        | zero =>
          simp only [List.drop_zero]
          exact matchVarAt_head_not_s (by decide)
        | succ j =>
          simp only [List.drop_succ_cons, List.drop_drop]
          exact hnomatch _
      rw [show s.take p ++ canonicalVar nv ++ '\n' :: s.drop p
          = s.take p ++ (canonicalVar nv ++ '\n' :: s.drop p) by simp]
      rw [subVar_append_of_no_match_pre (anchor_prefix_no_match hsane hp hv'),
        subVar_canonical_prefix hsane, hsub3]
    | none =>
      have h1 : upsertVar s nv = canonicalVar nv ++ '\n' :: '\n' :: s := by
        unfold upsertVar
        rw [if_neg (by simp [hv']), hp]
      rw [h1]
      have hvO : hasVar nv (canonicalVar nv ++ '\n' :: '\n' :: s) = true := by
        have := hasVar_append_canonical hsane [] ('\n' :: '\n' :: s)
        simpa using this
      unfold upsertVar
      rw [if_pos hvO, subVar_canonical_prefix hsane]
      congr 1
      rw [subVar_cons_none (matchVarAt_head_not_s (by decide)),
        subVar_cons_none (matchVarAt_head_not_s (by decide)),
        subVar_id_of_no_match hnomatch]

end Cubepp

namespace Cubepp

/-! ### Occurrence machinery for substring splices -/

theorem infix_append_split {m a b : List Char} (h : m <:+: a ++ b) :
    m <:+: a ∨ m <:+: b ∨
    ∃ x y, m = x ++ y ∧ x ≠ [] ∧ y ≠ [] ∧ x <:+ a ∧ y <+: b := by
  obtain ⟨s, t, hst⟩ := h
  by_cases h1 : s.length + m.length ≤ a.length
  · left
    refine ⟨s, a.drop (s.length + m.length), ?_⟩
    have e1 : (s ++ m ++ t).take (s.length + m.length) = s ++ m := by
      rw [show s ++ m ++ t = (s ++ m) ++ t by simp]
      exact take_len_append_eq _ (by simp)
    rw [hst] at e1
    have e2 : a.take (s.length + m.length) = s ++ m := by
      rw [← e1, List.take_append_eq_append_take,
        show s.length + m.length - a.length = 0 by omega]
      simp
    conv_rhs => rw [← List.take_append_drop (s.length + m.length) a]
    rw [e2]
  · by_cases h2 : a.length ≤ s.length
    · right; left
      refine ⟨s.drop a.length, t, ?_⟩
      have e1 : (s ++ (m ++ t)).drop a.length = s.drop a.length ++ (m ++ t) := by
        rw [List.drop_append_eq_append_drop,
          show a.length - s.length = 0 by omega]
        simp
      have e2 : s ++ (m ++ t) = a ++ b := by rw [← hst]; simp
      rw [e2, drop_len_append_eq _ rfl] at e1
      rw [e1]
      simp
    · right; right
      have hq1 : a.length - s.length ≤ m.length := by omega
      have hsa : s.length ≤ a.length := by omega
      have ha : a = s ++ m.take (a.length - s.length) := by
        have e1 : (a ++ b).take a.length = a := take_len_append_eq _ rfl
        rw [← hst] at e1
        rw [show s ++ m ++ t = s ++ (m ++ t) by simp,
          List.take_append_eq_append_take, List.take_of_length_le hsa,
          List.take_append_eq_append_take,
          show a.length - s.length - m.length = 0 by omega] at e1
        simp only [List.take_zero, List.append_nil] at e1
        exact e1.symm
      have hb : b = m.drop (a.length - s.length) ++ t := by
        have e1 : (a ++ b).drop a.length = b := drop_len_append_eq _ rfl
        rw [← hst] at e1
        rw [show s ++ m ++ t = s ++ (m ++ t) by simp,
          List.drop_append_eq_append_drop, List.drop_eq_nil_of_le hsa,
          List.drop_append_eq_append_drop,
          show a.length - s.length - m.length = 0 by omega] at e1
        simp only [List.nil_append, List.drop_zero] at e1
        exact e1.symm
      refine ⟨m.take (a.length - s.length), m.drop (a.length - s.length),
        (List.take_append_drop _ m).symm, ?_, ?_, ⟨s, ha.symm⟩, ⟨t, hb.symm⟩⟩
      · intro hcontra
        have := congrArg List.length hcontra
        simp only [List.length_take, List.length_nil] at this
        omega
      · intro hcontra
        have := congrArg List.length hcontra
        simp only [List.length_drop, List.length_nil] at this
        omega

theorem infix_singleton {m : List Char} {a : Char} (h : m <:+: [a]) :
    m = [] ∨ m = [a] := by
  obtain ⟨s, t, hst⟩ := h
  cases s with
  | nil =>
    simp only [List.nil_append] at hst
    cases m with
    | nil => exact Or.inl rfl
    | cons c cs =>
      simp only [List.cons_append] at hst
      obtain ⟨hc, hcs⟩ := List.cons.inj hst
      obtain ⟨hcs1, _⟩ := List.append_eq_nil.mp hcs
      exact Or.inr (by rw [hc, hcs1])
  | cons x xs =>
    cases m with
    | nil => exact Or.inl rfl
    | cons c cs =>
      exfalso
      have := congrArg List.length hst
      simp only [List.length_append, List.length_cons, List.length_nil] at this
      omega

theorem nl_fence {m a b : List Char} (hm : '\n' ∉ m)
    (h : m <:+: a ++ '\n' :: b) : m <:+: a ∨ m <:+: b := by
  rw [show a ++ '\n' :: b = a ++ (['\n'] ++ b) by simp] at h
  rcases infix_append_split h with h | h | ⟨x, y, hxy, hxne, hyne, hxs, hyp⟩
  · exact Or.inl h
  · rcases infix_append_split h with h | h | ⟨x, y, hxy, hxne, hyne, hxs, hyp⟩
    · rcases infix_singleton h with h | h
      · refine Or.inr ?_
        rw [h]
        exact List.nil_infix
      · exfalso
        apply hm
        rw [h]
        simp
    · exact Or.inr h
    · exfalso
      obtain ⟨u, hu⟩ := hxs
      cases x with
      | nil => exact absurd rfl hxne
      | cons c cs =>
        have hlen := congrArg List.length hu
        simp only [List.length_append, List.length_cons, List.length_nil] at hlen
        have hu0 : u = [] := List.length_eq_zero.mp (by omega)
        have hcs0 : cs = [] := List.length_eq_zero.mp (by omega)
        subst hu0 hcs0
        simp only [List.nil_append] at hu
        have hc : c = '\n' := (List.cons.inj hu).1
        apply hm
        rw [hxy, hc]
        simp
  · exfalso
    obtain ⟨u, hu⟩ := hyp
    cases y with
    | nil => exact absurd rfl hyne
    | cons c cs =>
      have hc : c = '\n' := by
        have hu2 : c :: (cs ++ u) = '\n' :: b := by simpa using hu
        exact (List.cons.inj hu2).1
      apply hm
      rw [hxy, hc]
      simp

end Cubepp

namespace Cubepp

theorem take_append_of_le {α : Type} {l1 : List α} (l2 : List α) {n : Nat}
    (h : n ≤ l1.length) : (l1 ++ l2).take n = l1.take n := by
  rw [List.take_append_eq_append_take, show n - l1.length = 0 by omega]
  simp

theorem occ_in_shared_prefix {pat pre X Y a2 b2 : List Char}
    (heq : pre ++ pat ++ X = a2 ++ pat ++ b2)
    (hlt : a2.length < pre.length) :
    ∃ b3, pre ++ pat ++ Y = a2 ++ pat ++ b3 := by
  have hq : a2.length + pat.length ≤ (pre ++ pat).length := by
    simp only [List.length_append]
    omega
  have e1 : (a2 ++ pat ++ b2).take (a2.length + pat.length) = a2 ++ pat := by
    rw [show a2 ++ pat ++ b2 = (a2 ++ pat) ++ b2 by simp]
    exact take_len_append_eq _ (by simp)
  rw [← heq] at e1
  have e2 : (pre ++ pat ++ Y).take (a2.length + pat.length) = a2 ++ pat := by
    rw [show pre ++ pat ++ Y = (pre ++ pat) ++ Y by simp,
      take_append_of_le _ hq, ← take_append_of_le X hq,
      show (pre ++ pat) ++ X = pre ++ pat ++ X by simp, e1]
  refine ⟨(pre ++ pat ++ Y).drop (a2.length + pat.length), ?_⟩
  conv_lhs => rw [← List.take_append_drop (a2.length + pat.length)
    (pre ++ pat ++ Y), e2]

theorem splitFirst_shift {pat pre X Y : List Char}
    (h : splitFirst pat (pre ++ pat ++ Y) = some (pre, Y)) :
    splitFirst pat (pre ++ pat ++ X) = some (pre, X) := by
  apply splitFirst_eq_of_first rfl
  intro a2 b2 heq
  by_contra hlt
  obtain ⟨b3, hb3⟩ := occ_in_shared_prefix heq (by omega)
  have := splitFirst_min h a2 b3 hb3
  omega

theorem dropLast_append_ne {X Y : List Char} (h : Y ≠ []) :
    (X ++ Y).dropLast = X ++ Y.dropLast := by
  induction X with
  | nil => simp
  | cons c cs ih =>
    have hne : cs ++ Y ≠ [] := by
      intro hc
      exact h (List.append_eq_nil.mp hc).2
    rw [List.cons_append, List.dropLast_cons_of_ne_nil hne, ih]
    rfl

theorem occ_lt_infix_dropLast {pat A B a2 b2 : List Char}
    (heq : A ++ pat ++ B = a2 ++ pat ++ b2)
    (hlt : a2.length < A.length) (hpne : pat ≠ []) :
    pat <:+: (A ++ pat).dropLast := by
  have hp1 : 1 ≤ pat.length := by
    cases pat with
    | nil => exact absurd rfl hpne
    | cons _ _ => simp
  have hq : a2.length + pat.length ≤ (A ++ pat).length - 1 := by
    simp only [List.length_append]
    omega
  have hq2 : a2.length + pat.length ≤ (A ++ pat).length := by
    simp only [List.length_append]
    omega
  have e1 : (a2 ++ pat ++ b2).take (a2.length + pat.length) = a2 ++ pat := by
    rw [show a2 ++ pat ++ b2 = (a2 ++ pat) ++ b2 by simp]
    exact take_len_append_eq _ (by simp)
  rw [← heq] at e1
  have e2 : (A ++ pat).take (a2.length + pat.length) = a2 ++ pat := by
    rw [← take_append_of_le B hq2,
      show (A ++ pat) ++ B = A ++ pat ++ B by simp, e1]
  have e3 : ((A ++ pat).dropLast).take (a2.length + pat.length)
      = a2 ++ pat := by
    rw [List.dropLast_eq_take, List.take_take, Nat.min_eq_left hq]
    exact e2
  refine ⟨a2, ((A ++ pat).dropLast).drop (a2.length + pat.length), ?_⟩
  conv_rhs => rw [← List.take_append_drop (a2.length + pat.length)
    ((A ++ pat).dropLast), e3]

theorem splitFirst_of_no_early {pat A B : List Char} (hpne : pat ≠ [])
    (h : ¬ pat <:+: (A ++ pat).dropLast) :
    splitFirst pat (A ++ pat ++ B) = some (A, B) := by
  apply splitFirst_eq_of_first rfl
  intro a2 b2 heq
  by_contra hlt
  exact h (occ_lt_infix_dropLast heq (by omega) hpne)

theorem splitFirst_no_early {pat s a b : List Char} (hpne : pat ≠ [])
    (h : splitFirst pat s = some (a, b)) :
    ¬ pat <:+: (a ++ pat).dropLast := by
  intro hinf
  obtain ⟨u, v, huv⟩ := hinf
  have hs := splitFirst_eq_some h
  have hne : a ++ pat ≠ [] := by
    intro hc
    exact hpne (List.append_eq_nil.mp hc).2
  obtain ⟨c0, hc0⟩ : ∃ c0, a ++ pat = (a ++ pat).dropLast ++ [c0] :=
    ⟨(a ++ pat).getLast hne, (List.dropLast_append_getLast hne).symm⟩
  have hs2 : s = u ++ pat ++ (v ++ c0 :: b) := by
    rw [hs, hc0, ← huv]
    simp
  have hmin := splitFirst_min h u (v ++ c0 :: b) hs2
  have hlenuv := congrArg List.length huv
  have hp1 : 1 ≤ pat.length := by
    cases pat with
    | nil => exact absurd rfl hpne
    | cons _ _ => simp
  simp only [List.length_append, List.length_dropLast] at hlenuv
  omega

end Cubepp


namespace Cubepp

/-! ### Non-occurrence of the closing token `"\n)"` in built block bodies -/

theorem no_ct_append {a b : List Char}
    (ha : ¬ closeTok <:+: a) (hb : ¬ closeTok <:+: b)
    (hx : ¬ (a.getLast? = some '\n' ∧ b.head? = some ')')) :
    ¬ closeTok <:+: a ++ b := by
  intro h
  rcases infix_append_split h with h | h | ⟨x, y, hxy, hxne, hyne, hxs, hyp⟩
  · exact ha h
  · exact hb h
  · have hct : closeTok = ['\n', ')'] := rfl
    rw [hct] at hxy
    cases x with
    | nil => exact absurd rfl hxne
    | cons c cs =>
      cases cs with
      | nil =>
        have hxy2 : ('\n' :: (')' :: []) : List Char) = c :: y := by
          simpa using hxy
        obtain ⟨hc, hy⟩ := List.cons.inj hxy2
        apply hx
        constructor
        · obtain ⟨u, hu⟩ := hxs
          rw [← hu, ← hc]
          exact List.getLast?_concat u
        · obtain ⟨u, hu⟩ := hyp
          rw [← hu, ← hy]
          rfl
      | cons c2 cs2 =>
        have hlen := congrArg List.length hxy
        simp only [List.length_append, List.length_cons, List.length_nil] at hlen
        have hy0 : y = [] := List.length_eq_zero.mp (by omega)
        exact absurd hy0 hyne

theorem no_ct_of_nl_free {x : List Char} (h : '\n' ∉ x) :
    ¬ closeTok <:+: x := by
  intro hc
  exact h (hc.subset (by rw [show closeTok = ['\n', ')'] from rfl]; simp))

theorem no_ct_singleton_nl : ¬ closeTok <:+: ['\n'] := by
  intro h
  have := h.length_le
  simp [show closeTok = ['\n', ')'] from rfl] at this

theorem joinSep_no_ct {items : List (List Char)}
    (h : ∀ it ∈ items, '\n' ∉ it) :
    ¬ closeTok <:+: joinSep "\n    ".toList items := by
  induction items with
  | nil =>
    intro hc
    have := hc.length_le
    simp [show closeTok = ['\n', ')'] from rfl, joinSep] at this
  | cons x xs ih =>
    cases xs with
    | nil =>
      exact no_ct_of_nl_free (h x (by simp))
    | cons y ys =>
      show ¬ closeTok <:+: x ++ "\n    ".toList ++ joinSep "\n    ".toList (y :: ys)
      rw [show x ++ "\n    ".toList ++ joinSep "\n    ".toList (y :: ys)
          = x ++ ('\n' :: ("    ".toList ++ joinSep "\n    ".toList (y :: ys)))
          by simp]
      apply no_ct_append (no_ct_of_nl_free (h x (by simp)))
      · rw [show ('\n' :: ("    ".toList ++ joinSep "\n    ".toList (y :: ys)))
            = ['\n'] ++ ("    ".toList ++ joinSep "\n    ".toList (y :: ys))
            by simp]
        apply no_ct_append no_ct_singleton_nl
        · apply no_ct_append (by decide)
            (ih (fun it hit => h it (by simp [hit])))
          intro ⟨h1, _⟩
          exact absurd h1 (by decide)
        · intro ⟨_, h2⟩
          rw [List.head?_append_of_ne_nil _ (by decide)] at h2
          exact absurd h2 (by decide)
      · intro ⟨_, h2⟩
        rw [show ('\n' :: ("    ".toList ++ joinSep "\n    ".toList (y :: ys)))
            = ['\n'] ++ ("    ".toList ++ joinSep "\n    ".toList (y :: ys))
            by simp, List.head?_append_of_ne_nil _ (by decide)] at h2
        exact absurd h2 (by decide)

theorem joinSep_mem_occ {sep it : List Char} :
    ∀ {items : List (List Char)}, it ∈ items →
      it <:+: joinSep sep items := by
  intro items
  induction items with
  | nil => intro h; exact absurd h (List.not_mem_nil it)
  | cons x xs ih =>
    intro h
    cases xs with
    | nil =>
      have : it = x := by simpa using h
      rw [this]
      exact List.infix_refl x
    | cons y ys =>
      rcases List.mem_cons.mp h with h | h
      · refine ⟨[], sep ++ joinSep sep (y :: ys), ?_⟩
        rw [h]
        show [] ++ x ++ (sep ++ joinSep sep (y :: ys))
          = x ++ sep ++ joinSep sep (y :: ys)
        simp
      · have := ih h
        refine this.trans ?_
        refine ⟨x ++ sep, [], ?_⟩
        show (x ++ sep) ++ joinSep sep (y :: ys) ++ []
          = x ++ sep ++ joinSep sep (y :: ys)
        simp

theorem findFuncBlock_dest {lit s pre mid post : List Char}
    (h : findFuncBlock lit s = some (pre, mid, post)) :
    splitFirst lit s = some (pre, mid ++ closeTok ++ post)
      ∧ splitFirst closeTok (mid ++ closeTok ++ post) = some (mid, post) := by
  unfold findFuncBlock at h
  split at h
  · exact absurd h (by simp)
  rename_i pr hsp
  split at h
  · exact absurd h (by simp)
  rename_i pr2 hsp2
  simp only [Option.some.injEq, Prod.mk.injEq] at h
  obtain ⟨h1, h2, h3⟩ := h
  have hd := splitFirst_eq_some hsp2
  subst h1 h2 h3
  constructor
  · rw [← hd]
    exact hsp
  · rw [← hd]
    exact hsp2

theorem findFuncBlock_build {lit s pre mid post rest1 : List Char}
    (h1 : splitFirst lit s = some (pre, rest1))
    (h2 : splitFirst closeTok rest1 = some (mid, post)) :
    findFuncBlock lit s = some (pre, mid, post) := by
  unfold findFuncBlock
  rw [h1]
  show (match splitFirst closeTok rest1 with
    | none => none
    | some (mid, post) => some (pre, mid, post)) = some (pre, mid, post)
  rw [h2]

theorem rstrip_prefix (s : List Char) : rstrip s <+: s := by
  unfold rstrip
  have h1 : s.reverse.dropWhile (fun c => isPySpace c) <:+ s.reverse :=
    List.dropWhile_suffix _
  have h2 := List.reverse_prefix.mpr h1
  rwa [List.reverse_reverse] at h2

end Cubepp

namespace Cubepp

/-! ### Idempotence of the Function-Argument Merger (single function,
block found) -/

def saneFunc (f : FuncDef) : Bool :=
  f.items.all (fun it => it.all (fun c => decide (c ≠ '\n')))

theorem saneFunc_spec {f : FuncDef} (h : saneFunc f = true) :
    ∀ it ∈ f.items, '\n' ∉ it := by
  unfold saneFunc at h
  simp only [List.all_eq_true, decide_eq_true_eq] at h
  intro it hit hmem
  exact (h it hit '\n' hmem) rfl

theorem updateFunc_of_block_all_present {f : FuncDef}
    {r pre mid2 post2 : List Char}
    (hit : ¬ f.items = []) (hts : ¬ f.name = "target_sources".toList)
    (hfb : findFuncBlock (funcLit f) r = some (pre, mid2, post2))
    (hall : ∀ it ∈ f.items,
      containsSub it (funcLit f ++ mid2 ++ closeTok) = true) :
    updateFunc r f = r := by
  unfold updateFunc
  rw [if_neg hit, if_neg hts]
  simp only [hfb]
  rw [if_pos (List.filter_eq_nil_iff.mpr (fun it hit2 => by
    have h3 := hall it hit2
    rw [show funcLit f ++ mid2 ++ closeTok
        = funcLit f ++ (mid2 ++ closeTok) by simp] at h3
    simp [h3]))]

theorem updateFunc_found_idem {f : FuncDef} (hf : saneFunc f = true)
    {s pre mid post : List Char}
    (hfb : findFuncBlock (funcLit f) s = some (pre, mid, post)) :
    updateFunc (updateFunc s f) f = updateFunc s f := by
  have hnl := saneFunc_spec hf
  by_cases hit : f.items = []
  · have h1 : updateFunc s f = s := by
      unfold updateFunc
      rw [if_pos hit]
    rw [h1]
    exact h1
  by_cases hts : f.name = "target_sources".toList
  · have h1 : updateFunc s f = s := by
      unfold updateFunc
      rw [if_neg hit, if_pos hts]
    rw [h1]
    exact h1
  obtain ⟨hsp1, hsp2⟩ := findFuncBlock_dest hfb
  by_cases hta : f.items.filter
      (fun it => ¬ containsSub it (funcLit f ++ mid ++ closeTok)) = []
  · have h1 : updateFunc s f = s := by
      unfold updateFunc
      rw [if_neg hit, if_neg hts]
      simp only [hfb]
      rw [if_pos hta]
    rw [h1]
    exact h1
  · -- the first pass extended the block; show the result is stable
    have hta_nl : ∀ it ∈ f.items.filter
        (fun it => ¬ containsSub it (funcLit f ++ mid ++ closeTok)),
        '\n' ∉ it :=
      fun it hit2 => hnl it (List.mem_of_mem_filter hit2)
    have h1 : updateFunc s f = pre ++ funcLit f ++ mid
        ++ "\n    ".toList
        ++ joinSep "\n    ".toList (f.items.filter
            (fun it => ¬ containsSub it (funcLit f ++ mid ++ closeTok)))
        ++ closeTok ++ post := by
      unfold updateFunc
      rw [if_neg hit, if_neg hts]
      simp only [hfb]
      rw [if_neg hta]
    have hr : updateFunc s f = pre ++ funcLit f
        ++ (mid ++ "\n    ".toList
          ++ joinSep "\n    ".toList (f.items.filter
              (fun it => ¬ containsSub it (funcLit f ++ mid ++ closeTok)))
          ++ closeTok ++ post) := by
      rw [h1]
      simp
    have hs_eq := splitFirst_eq_some hsp1
    rw [hs_eq] at hsp1
    have hshift := splitFirst_shift
      (X := mid ++ "\n    ".toList
        ++ joinSep "\n    ".toList (f.items.filter
            (fun it => ¬ containsSub it (funcLit f ++ mid ++ closeTok)))
        ++ closeTok ++ post) hsp1
    -- the first closing token after the extended body is the final one
    have hnoct : ¬ closeTok <:+: (mid ++ "\n    ".toList
        ++ joinSep "\n    ".toList (f.items.filter
            (fun it => ¬ containsSub it (funcLit f ++ mid ++ closeTok))))
        ++ ['\n'] := by
      have hmidfree : ¬ closeTok <:+: mid := by
        intro hc
        exact splitFirst_no_early (by decide) hsp2 (by
          rw [show (mid ++ closeTok).dropLast = mid ++ ['\n'] by
            rw [show mid ++ closeTok = (mid ++ ['\n']) ++ [')'] by
              rw [show closeTok = ['\n', ')'] from rfl]; simp]
            exact List.dropLast_concat]
          exact hc.trans ⟨[], ['\n'], by simp⟩)
      rw [show (mid ++ "\n    ".toList
          ++ joinSep "\n    ".toList (f.items.filter
              (fun it => ¬ containsSub it (funcLit f ++ mid ++ closeTok))))
          ++ ['\n']
        = mid ++ ('\n' :: ("    ".toList
          ++ (joinSep "\n    ".toList (f.items.filter
              (fun it => ¬ containsSub it (funcLit f ++ mid ++ closeTok)))
            ++ ['\n']))) by simp]
      apply no_ct_append hmidfree
      · rw [show ('\n' :: ("    ".toList
            ++ (joinSep "\n    ".toList (f.items.filter
                (fun it => ¬ containsSub it (funcLit f ++ mid ++ closeTok)))
              ++ ['\n'])))
          = ['\n'] ++ ("    ".toList
            ++ (joinSep "\n    ".toList (f.items.filter
                (fun it => ¬ containsSub it (funcLit f ++ mid ++ closeTok)))
              ++ ['\n'])) by simp]
        apply no_ct_append no_ct_singleton_nl
        · apply no_ct_append (by decide)
          · exact no_ct_append (joinSep_no_ct hta_nl) no_ct_singleton_nl
              (by
                intro ⟨_, h2⟩
                rw [show (['\n'] : List Char).head? = some '\n' from rfl] at h2
                exact absurd h2 (by decide))
          · intro ⟨h2, _⟩
            exact absurd h2 (by decide)
        · intro ⟨_, h2⟩
          rw [List.head?_append_of_ne_nil _ (by decide)] at h2
          exact absurd h2 (by decide)
      · intro ⟨_, h2⟩
        rw [show ('\n' :: ("    ".toList
            ++ (joinSep "\n    ".toList (f.items.filter
                (fun it => ¬ containsSub it (funcLit f ++ mid ++ closeTok)))
              ++ ['\n']))).head? = some '\n' from rfl] at h2
        exact absurd h2 (by decide)
    have hct2 : splitFirst closeTok
        (mid ++ "\n    ".toList
          ++ joinSep "\n    ".toList (f.items.filter
              (fun it => ¬ containsSub it (funcLit f ++ mid ++ closeTok)))
          ++ closeTok ++ post)
        = some (mid ++ "\n    ".toList
          ++ joinSep "\n    ".toList (f.items.filter
              (fun it => ¬ containsSub it (funcLit f ++ mid ++ closeTok))),
          post) := by
      rw [show mid ++ "\n    ".toList
          ++ joinSep "\n    ".toList (f.items.filter
              (fun it => ¬ containsSub it (funcLit f ++ mid ++ closeTok)))
          ++ closeTok ++ post
        = (mid ++ "\n    ".toList
          ++ joinSep "\n    ".toList (f.items.filter
              (fun it => ¬ containsSub it (funcLit f ++ mid ++ closeTok))))
          ++ closeTok ++ post by simp]
      apply splitFirst_of_no_early (by decide)
      rw [show ((mid ++ "\n    ".toList
          ++ joinSep "\n    ".toList (f.items.filter
              (fun it => ¬ containsSub it (funcLit f ++ mid ++ closeTok))))
          ++ closeTok).dropLast
        = (mid ++ "\n    ".toList
          ++ joinSep "\n    ".toList (f.items.filter
              (fun it => ¬ containsSub it (funcLit f ++ mid ++ closeTok))))
          ++ ['\n'] by
        rw [show (mid ++ "\n    ".toList
            ++ joinSep "\n    ".toList (f.items.filter
                (fun it => ¬ containsSub it (funcLit f ++ mid ++ closeTok))))
            ++ closeTok
          = ((mid ++ "\n    ".toList
            ++ joinSep "\n    ".toList (f.items.filter
                (fun it => ¬ containsSub it (funcLit f ++ mid ++ closeTok))))
            ++ ['\n']) ++ [')'] by
          rw [show closeTok = ['\n', ')'] from rfl]; simp]
        exact List.dropLast_concat]
      exact hnoct
    have hfb2 := findFuncBlock_build hshift hct2
    have hall : ∀ it ∈ f.items,
        containsSub it (funcLit f
          ++ (mid ++ "\n    ".toList
            ++ joinSep "\n    ".toList (f.items.filter
                (fun it => ¬ containsSub it (funcLit f ++ mid ++ closeTok))))
          ++ closeTok) = true := by
      intro it hit2
      rw [containsSub_iff_occ]
      by_cases hpres : containsSub it (funcLit f ++ mid ++ closeTok) = true
      · have hinf := containsSub_iff_occ.mp hpres
        rw [show funcLit f ++ mid ++ closeTok
            = (funcLit f ++ mid) ++ '\n' :: [')'] by
          rw [show closeTok = ['\n', ')'] from rfl]] at hinf
        rcases nl_fence (hnl it hit2) hinf with hinf | hinf
        · refine hinf.trans ?_
          refine ⟨[], "\n    ".toList
            ++ joinSep "\n    ".toList (f.items.filter
                (fun it => ¬ containsSub it (funcLit f ++ mid ++ closeTok)))
            ++ closeTok, ?_⟩
          simp
        · rcases infix_singleton hinf with hinf | hinf
          · rw [hinf]
            exact List.nil_infix
          · rw [hinf]
            refine ⟨funcLit f
              ++ (mid ++ "\n    ".toList
                ++ joinSep "\n    ".toList (f.items.filter
                    (fun it => ¬ containsSub it (funcLit f ++ mid ++ closeTok))))
              ++ ['\n'], [], ?_⟩
            rw [show closeTok = ['\n', ')'] from rfl]
            simp
      · have hpres2 : containsSub it (funcLit f ++ (mid ++ closeTok)) = false := by
          rw [show funcLit f ++ (mid ++ closeTok)
              = funcLit f ++ mid ++ closeTok by simp]
          cases hcc : containsSub it (funcLit f ++ mid ++ closeTok)
          · rfl
          · exact absurd hcc hpres
        have hmem2 : it ∈ f.items.filter
            (fun it => ¬ containsSub it (funcLit f ++ mid ++ closeTok)) := by
          rw [List.mem_filter]
          exact ⟨hit2, by simpa using hpres2⟩
        have hj := @joinSep_mem_occ "\n    ".toList it _ hmem2
        refine hj.trans ?_
        refine ⟨funcLit f ++ mid ++ "\n    ".toList, closeTok, ?_⟩
        simp
    rw [hr]
    exact updateFunc_of_block_all_present hit hts hfb2 hall

end Cubepp

namespace Cubepp

/-! ### Idempotence of the Marker Injector (guarded injection lists) -/

def checkOf (i : Injection) : List Char := i.check.getD []

theorem renderContent_nil (pn : List Char) : renderContent pn [] = [] := by
  unfold renderContent
  rw [if_neg]
  intro hc
  have := containsSub_iff_occ.mp hc
  have hlen := this.length_le
  simp [projectNameTemplate] at hlen

theorem injectStep_cases (pn text : List Char) (inj : Injection) :
    injectStep pn text inj = text ∨
    ∃ pre post, inj.marker ≠ [] ∧
      splitFirst inj.marker text = some (pre, post) ∧
      injectStep pn text inj = pre ++ inj.marker
        ++ '\n' :: (renderContent pn inj.content ++ '\n' :: post) := by
  unfold injectStep
  by_cases h0 : inj.marker = [] ∨ inj.content = []
  · rw [if_pos h0]
    exact Or.inl rfl
  · rw [if_neg h0]
    by_cases h1 : containsSub inj.marker text = true
        ∧ checkBlocks inj.check text = false
    · rw [if_pos h1]
      cases hsp : splitFirst inj.marker text with
      | none =>
        simp only [hsp]
        exact Or.inl trivial
      | some pr =>
        simp only [hsp]
        refine Or.inr ⟨pr.1, pr.2, ?_, ?_, rfl⟩
        · intro hc
          exact h0 (Or.inl hc)
        · rfl
    · rw [if_neg h1]
      exact Or.inl rfl

theorem getLast?_append_right {a b : List Char} (h : b ≠ []) :
    (a ++ b).getLast? = b.getLast? := by
  obtain ⟨c0, hc0⟩ : ∃ c0, b = b.dropLast ++ [c0] :=
    ⟨b.getLast h, (List.dropLast_append_getLast h).symm⟩
  rw [hc0, show a ++ (b.dropLast ++ [c0]) = (a ++ b.dropLast) ++ [c0] by simp,
    List.getLast?_concat, List.getLast?_concat]

theorem splice_preserves_infix {pn : List Char} {text : List Char}
    {inj : Injection} {c : List Char} (hc : c <:+: text)
    (hlast : ∀ mlast, inj.marker.getLast? = some mlast → mlast ∉ c) :
    c <:+: injectStep pn text inj := by
  rcases injectStep_cases pn text inj with h | ⟨pre, post, hmne, hsp, h⟩
  · rw [h]; exact hc
  · rw [h]
    have hdec := splitFirst_eq_some hsp
    rw [hdec, show pre ++ inj.marker ++ post = (pre ++ inj.marker) ++ post
      by simp] at hc
    rcases infix_append_split hc with hc | hc | ⟨x, y, hxy, hxne, hyne, hxs, hyp⟩
    · refine hc.trans ⟨[], '\n' :: (renderContent pn inj.content
        ++ '\n' :: post), ?_⟩
      simp
    · refine hc.trans ⟨pre ++ inj.marker
        ++ '\n' :: (renderContent pn inj.content ++ ['\n']), [], ?_⟩
      simp
    · exfalso
      obtain ⟨u, hu⟩ := hxs
      have hxl : x.getLast? = inj.marker.getLast? := by
        rw [← getLast?_append_right (a := u) hxne, hu,
          getLast?_append_right hmne]
      obtain ⟨mlast, hml⟩ : ∃ mlast, inj.marker.getLast? = some mlast := by
        cases hmm : inj.marker.getLast? with
        | none =>
          exfalso
          rw [List.getLast?_eq_none_iff] at hmm
          exact hmne hmm
        | some z => exact ⟨z, rfl⟩
      apply hlast mlast hml
      rw [hxy]
      apply List.mem_append.mpr
      left
      rw [hml] at hxl
      exact List.mem_of_mem_getLast? (Option.mem_def.mpr hxl)

theorem splice_no_new_marker {pn text : List Char} {inj : Injection}
    {m : List Char} (hm : ¬ m <:+: text) (hmnl : '\n' ∉ m)
    (hmc : ¬ m <:+: renderContent pn inj.content) :
    ¬ m <:+: injectStep pn text inj := by
  rcases injectStep_cases pn text inj with h | ⟨pre, post, hmne, hsp, h⟩
  · rw [h]; exact hm
  · rw [h]
    intro hc
    rw [show pre ++ inj.marker
        ++ '\n' :: (renderContent pn inj.content ++ '\n' :: post)
      = (pre ++ inj.marker)
        ++ '\n' :: (renderContent pn inj.content ++ '\n' :: post) by simp] at hc
    rcases nl_fence hmnl hc with hc | hc
    · apply hm
      rw [splitFirst_eq_some hsp]
      refine hc.trans ⟨[], post, ?_⟩
      simp
    · rcases nl_fence hmnl hc with hc | hc
      · exact hmc hc
      · apply hm
        rw [splitFirst_eq_some hsp]
        refine hc.trans ⟨pre ++ inj.marker, [], ?_⟩
        simp

end Cubepp

namespace Cubepp

/-- An injection is *blocked* on a text: its marker is absent, or its
(given, truthy) check string already occurs.  A blocked injection makes
`injectStep` a no-op. -/
def Blocked (i : Injection) (text : List Char) : Prop :=
  ¬ i.marker <:+: text ∨ ∃ c, i.check = some c ∧ c ≠ [] ∧ c <:+: text

/-- Hygiene of one configured injection (relative to the project name used
for rendering): a nonempty newline-free marker, and a nonempty check string
that occurs in the injection's own rendered content, so that firing the
injection plants its own guard. -/
def saneInjOne (pn : List Char) (i : Injection) : Bool :=
  decide (i.marker ≠ []) &&
  i.marker.all (fun c => decide (c ≠ '\n')) &&
  (match i.check with
   | none => false
   | some c => decide (c ≠ []) && containsSub c (renderContent pn i.content))

/-- Hygiene of an ordered pair of configured injections: `j`'s splice can
neither create an occurrence of `i`'s marker (the marker occurs in no
rendered content) nor destroy an occurrence of `i`'s check string (an
occurrence of the check crossing the seam would have to contain the last
character of `j`'s marker). -/
def saneInjPair (pn : List Char) (i j : Injection) : Bool :=
  !(containsSub i.marker (renderContent pn j.content)) &&
  (match j.marker.getLast? with
   | none => true
   | some z => !(decide (z ∈ checkOf i)))

def saneInjections (pn : List Char) (injs : List Injection) : Bool :=
  injs.all (fun i => saneInjOne pn i && injs.all (fun j => saneInjPair pn i j))

theorem saneInjOne_spec {pn : List Char} {i : Injection}
    (h : saneInjOne pn i = true) :
    i.marker ≠ [] ∧ '\n' ∉ i.marker ∧
    ∃ c, i.check = some c ∧ c ≠ [] ∧ c <:+: renderContent pn i.content := by
  unfold saneInjOne at h
  cases hck : i.check with
  | none => rw [hck] at h; simp at h
  | some c =>
    rw [hck] at h
    simp only [Bool.and_eq_true, decide_eq_true_eq, List.all_eq_true] at h
    obtain ⟨⟨hm, hnl⟩, hc, hcc⟩ := h
    refine ⟨hm, ?_, c, rfl, hc, containsSub_iff_occ.mp hcc⟩
    intro hmem
    exact (hnl '\n' hmem) rfl

theorem saneInjPair_spec {pn : List Char} {i j : Injection}
    (h : saneInjPair pn i j = true) :
    ¬ i.marker <:+: renderContent pn j.content ∧
    ∀ z, j.marker.getLast? = some z → ∀ c, i.check = some c → z ∉ c := by
  unfold saneInjPair at h
  simp only [Bool.and_eq_true, Bool.not_eq_true'] at h
  obtain ⟨h1, h2⟩ := h
  refine ⟨containsSub_eq_false_iff.mp h1, ?_⟩
  intro z hz c hck hmem
  simp only [hz] at h2
  simp only [Bool.not_eq_true', decide_eq_false_iff_not] at h2
  have hco : checkOf i = c := by simp [checkOf, hck]
  rw [hco] at h2
  exact h2 hmem

theorem saneInjections_spec {pn : List Char} {injs : List Injection}
    (h : saneInjections pn injs = true) :
    (∀ i ∈ injs, saneInjOne pn i = true) ∧
    (∀ i ∈ injs, ∀ j ∈ injs, saneInjPair pn i j = true) := by
  unfold saneInjections at h
  simp only [List.all_eq_true, Bool.and_eq_true] at h
  exact ⟨fun i hi => (h i hi).1, fun i hi j hj => (h i hi).2 j hj⟩

/-- A sane injection leaves itself blocked: either it was already blocked
(no-op cases) or it fires and its spliced content contains its own check. -/
theorem injectStep_self_blocked (pn text : List Char) {i : Injection}
    (hs : saneInjOne pn i = true) : Blocked i (injectStep pn text i) := by
  obtain ⟨hmne, hmnl, c, hck, hcne, hcin⟩ := saneInjOne_spec hs
  have hcont : i.content ≠ [] := by
    intro hc
    rw [hc, renderContent_nil] at hcin
    exact hcne (List.eq_nil_of_infix_nil hcin)
  have hguard : ¬ (i.marker = [] ∨ i.content = []) := by
    rintro (h | h)
    · exact hmne h
    · exact hcont h
  unfold injectStep
  rw [if_neg hguard]
  by_cases h1 : containsSub i.marker text = true ∧ checkBlocks i.check text = false
  · rw [if_pos h1]
    cases hsp : splitFirst i.marker text with
    | none =>
      exfalso
      have h2 := h1.1
      unfold containsSub at h2
      rw [hsp] at h2
      simp at h2
    | some pr =>
      simp only [hsp]
      refine Or.inr ⟨c, hck, hcne, ?_⟩
      refine hcin.trans ⟨pr.1 ++ i.marker ++ ['\n'], '\n' :: pr.2, ?_⟩
      simp
  · rw [if_neg h1]
    by_cases hA : containsSub i.marker text = true
    · have hB : checkBlocks i.check text = true := by
        cases hb : checkBlocks i.check text with
        | false => exact absurd ⟨hA, hb⟩ h1
        | true => rfl
      rw [hck] at hB
      simp only [checkBlocks] at hB
      rw [if_neg hcne] at hB
      exact Or.inr ⟨c, hck, hcne, containsSub_iff_occ.mp hB⟩
    · exact Or.inl (fun hin => hA (containsSub_iff_occ.mpr hin))

/-- Pair hygiene makes one step of `j` preserve `i`'s blockedness. -/
theorem injectStep_preserves_blocked {pn text : List Char} {i j : Injection}
    (hmnl : '\n' ∉ i.marker)
    (hp : saneInjPair pn i j = true) (hb : Blocked i text) :
    Blocked i (injectStep pn text j) := by
  obtain ⟨hpm, hpl⟩ := saneInjPair_spec hp
  rcases hb with hb | ⟨c, hck, hcne, hcin⟩
  · exact Or.inl (splice_no_new_marker hb hmnl hpm)
  · refine Or.inr ⟨c, hck, hcne, ?_⟩
    refine splice_preserves_infix hcin ?_
    intro mlast hml hmem
    exact hpl mlast hml c hck hmem

theorem foldl_preserves_blocked {pn : List Char} {i : Injection}
    (hmnl : '\n' ∉ i.marker) (js : List Injection) :
    ∀ text : List Char, (∀ j ∈ js, saneInjPair pn i j = true) →
    Blocked i text → Blocked i (js.foldl (injectStep pn) text) := by
  induction js with
  | nil => intro text _ hb; exact hb
  | cons j js ih =>
    intro text hp hb
    rw [List.foldl_cons]
    exact ih (injectStep pn text j)
      (fun k hk => hp k (List.mem_cons_of_mem j hk))
      (injectStep_preserves_blocked hmnl (hp j (List.mem_cons_self j js)) hb)

/-- After one full pass of a sane injection list, every injection of the
list is blocked. -/
theorem blocked_after_pass {pn : List Char} (injs : List Injection) :
    ∀ text : List Char,
    (∀ i ∈ injs, saneInjOne pn i = true) →
    (∀ i ∈ injs, ∀ j ∈ injs, saneInjPair pn i j = true) →
    ∀ i ∈ injs, Blocked i (injs.foldl (injectStep pn) text) := by
  induction injs with
  | nil => intro text _ _ i hi; exact absurd hi (List.not_mem_nil i)
  | cons a as ih =>
    intro text hone hpair i hi
    rw [List.foldl_cons]
    rcases List.mem_cons.mp hi with hieq | hmem
    · subst hieq
      obtain ⟨hmne2, hmnl, _⟩ := saneInjOne_spec (hone i (List.mem_cons_self i as))
      exact foldl_preserves_blocked hmnl as (injectStep pn text i)
        (fun j hj => hpair i (List.mem_cons_self i as) j (List.mem_cons_of_mem i hj))
        (injectStep_self_blocked pn text (hone i (List.mem_cons_self i as)))
    · exact ih (injectStep pn text a)
        (fun k hk => hone k (List.mem_cons_of_mem a hk))
        (fun k hk l hl => hpair k (List.mem_cons_of_mem a hk)
          l (List.mem_cons_of_mem a hl))
        i hmem

theorem injectStep_eq_of_blocked {pn text : List Char} {i : Injection}
    (hb : Blocked i text) : injectStep pn text i = text := by
  rcases hb with hb | ⟨c, hck, hcne, hcin⟩
  · exact injectStep_eq_of_marker_absent hb
  · exact injectStep_eq_of_check_present hck hcne hcin

theorem foldl_eq_of_blocked {pn : List Char} (injs : List Injection) :
    ∀ text : List Char, (∀ i ∈ injs, Blocked i text) →
    injs.foldl (injectStep pn) text = text := by
  induction injs with
  | nil => intro text _; rfl
  | cons a as ih =>
    intro text hb
    rw [List.foldl_cons, injectStep_eq_of_blocked (hb a (List.mem_cons_self a as))]
    exact ih text (fun i hi => hb i (List.mem_cons_of_mem a hi))

/-- Idempotence of the whole injection loop for a sane injection list. -/
theorem injectList_idem {pn : List Char} {injs : List Injection}
    (hs : saneInjections pn injs = true) (text : List Char) :
    injectList pn injs (injectList pn injs text) = injectList pn injs text := by
  obtain ⟨hone, hpair⟩ := saneInjections_spec hs
  exact foldl_eq_of_blocked injs (injectList pn injs text)
    (blocked_after_pass injs text hone hpair)

end Cubepp

namespace Cubepp

set_option maxRecDepth 20000 in
/-- C1 counterexample: on the shipped configuration document the composite
of the three engines (Variable Upsert Engine, then Function-Argument
Merger, then Marker Injector) is not idempotent.  `CMAKE_CXX_STANDARD` is
a prefix of `CMAKE_CXX_STANDARD_REQUIRED`, so on this file the first
variable's pattern `set\(CMAKE_CXX_STANDARD\s+[^\)]+\)` also matches
starting inside the second variable's statement: the first pass consumes
the inner `set(CMAKE_CXX_STANDARD 1)` while rewriting it, after which the
second pass no longer finds any `set(CMAKE_CXX_STANDARD ...)` statement
and prepends a fresh `set(CMAKE_CXX_STANDARD 20)` line, changing the
output of the second application. -/
theorem pipeline_not_idempotent_counterexample :
    injectList "blinky".toList configInjections
        (updateCmakeFunctions configFunctions
          (updateCmakeVariables configVariables
            (injectList "blinky".toList configInjections
              (updateCmakeFunctions configFunctions
                (updateCmakeVariables configVariables
                  "set(CMAKE_CXX_STANDARD_REQUIRED set(CMAKE_CXX_STANDARD 1)".toList)))))
      ≠ injectList "blinky".toList configInjections
          (updateCmakeFunctions configFunctions
            (updateCmakeVariables configVariables
              "set(CMAKE_CXX_STANDARD_REQUIRED set(CMAKE_CXX_STANDARD 1)".toList)) := by
  decide

/-- C1 (amended): single-pass fixed points of the three engines, each under
the hygiene its pattern language actually needs.  (1) The Variable Upsert
Engine run for one variable whose name is nonempty without whitespace or
parentheses and whose value is nonempty and `)`-free reaches a fixed point
in one pass on every file.  (2) The Function-Argument Merger run for one
function whose block is found in the file and whose items are newline-free
reaches a fixed point in one pass.  (3) The Marker Injector run on a sane
injection list — every injection has a nonempty newline-free marker and a
nonempty check string occurring in its own rendered content, no marker
occurs in any rendered content, and no marker's last character occurs in
any check string; the shipped list qualifies — reaches a fixed point in
one pass on every file.  The unqualified original claim is refuted by
`pipeline_not_idempotent_counterexample`: the shipped variable list itself
breaks idempotence because one configured name is a prefix of another. -/
theorem pipeline_single_pass_fixed_point
    (nv : VarDef) (hv : saneVar nv = true)
    (f : FuncDef) (hf : saneFunc f = true)
    (t pre mid post : List Char)
    (hfb : findFuncBlock (funcLit f) t = some (pre, mid, post))
    (pn : List Char) (injs : List Injection)
    (hs : saneInjections pn injs = true) (s u : List Char) :
    updateCmakeVariables [nv] (updateCmakeVariables [nv] s)
      = updateCmakeVariables [nv] s ∧
    updateCmakeFunctions [f] (updateCmakeFunctions [f] t)
      = updateCmakeFunctions [f] t ∧
    injectList pn injs (injectList pn injs u) = injectList pn injs u := by
  refine ⟨?_, ?_, injectList_idem hs u⟩
  · simp only [updateCmakeVariables, List.foldl_cons, List.foldl_nil]
    exact upsertVar_idem hv s
  · simp only [updateCmakeFunctions, List.foldl_cons, List.foldl_nil]
    exact updateFunc_found_idem hf hfb

theorem pipeline_single_pass_fixed_point_witness :
    saneVar ⟨"CMAKE_CXX_STANDARD".toList, "20".toList⟩ = true ∧
    saneFunc ⟨"target_link_libraries".toList, ["nosys".toList]⟩ = true ∧
    findFuncBlock (funcLit ⟨"target_link_libraries".toList, ["nosys".toList]⟩)
        "target_link_libraries(${CMAKE_PROJECT_NAME} PRIVATE\n    m\n)".toList
      = some ([], " PRIVATE\n    m".toList, []) ∧
    saneInjections "blinky".toList configInjections = true ∧
    (updateCmakeVariables [⟨"CMAKE_CXX_STANDARD".toList, "20".toList⟩]
        (updateCmakeVariables [⟨"CMAKE_CXX_STANDARD".toList, "20".toList⟩]
          "set(FOO bar)\n".toList)
      = updateCmakeVariables [⟨"CMAKE_CXX_STANDARD".toList, "20".toList⟩]
          "set(FOO bar)\n".toList ∧
     updateCmakeFunctions [⟨"target_link_libraries".toList, ["nosys".toList]⟩]
        (updateCmakeFunctions [⟨"target_link_libraries".toList, ["nosys".toList]⟩]
          "target_link_libraries(${CMAKE_PROJECT_NAME} PRIVATE\n    m\n)".toList)
      = updateCmakeFunctions [⟨"target_link_libraries".toList, ["nosys".toList]⟩]
          "target_link_libraries(${CMAKE_PROJECT_NAME} PRIVATE\n    m\n)".toList ∧
     injectList "blinky".toList configInjections
        (injectList "blinky".toList configInjections
          "/* USER CODE BEGIN Includes */\nint x;\n".toList)
      = injectList "blinky".toList configInjections
          "/* USER CODE BEGIN Includes */\nint x;\n".toList) :=
  ⟨by decide, by decide, by decide, by decide,
   pipeline_single_pass_fixed_point
     ⟨"CMAKE_CXX_STANDARD".toList, "20".toList⟩ (by decide)
     ⟨"target_link_libraries".toList, ["nosys".toList]⟩ (by decide)
     "target_link_libraries(${CMAKE_PROJECT_NAME} PRIVATE\n    m\n)".toList
     [] " PRIVATE\n    m".toList [] (by decide)
     "blinky".toList configInjections (by decide)
     "set(FOO bar)\n".toList
     "/* USER CODE BEGIN Includes */\nint x;\n".toList⟩

end Cubepp
